import Mathlib

/-!
lz4xx: a streaming buffering layer over the LZ4 frame codec.

A shallow embedding of `src/lz4xx.cpp` (and of the driver in `src/test.cpp`).

* Byte buffers are lists of bytes; a `(pointer, size)` argument is a `Data`.
* `size_t` values are natural numbers.  The sums and differences of the
  source stay below `2 ^ 64` on every path that does not fault; a
  subtraction that would wrap (and then index out of the buffer) is the
  fault `Fault.bounds`, and reserve hints are reduced modulo `2 ^ 64`.
* The LZ4 frame library is an external collaborator: it is a parameter
  (`Compressor`, `Decompressor`), a family of functions over an abstract
  native state.  Every call made to it is appended to the ghost field
  `prv.calls`, which no operation reads.
* `commit` is recursive and `Decompress.update` loops, so both carry fuel:
  `Fault.fuel` is the answer of a run that needs more steps than it was given.
-/

namespace lz4xx

/-! ## Constants and the sizing policy -/

abbrev Byte := UInt8

/-- Source: `constexpr auto MB = 1048576;` -/
def MB : Nat := 1048576

/-- Source: `constexpr auto SZ_BUFFER = 32 * MB;` -/
def SZ_BUFFER : Nat := 32 * MB

/-- Modulus of `size_t` (64-bit target). -/
def SIZE_MOD : Nat := 2 ^ 64

/-- From `lz4frame.h`: `#define LZ4F_HEADER_SIZE_MIN 7`. -/
def LZ4F_HEADER_SIZE_MIN : Nat := 7

/-- From `lz4frame.h`: `#define LZ4F_HEADER_SIZE_MAX 19`. -/
def LZ4F_HEADER_SIZE_MAX : Nat := 19

/-- Source: `template<typename T> inline size_t bufsz(T size)`; every call site
passes an unsigned size. -/
def bufsz (size : Nat) : Nat :=
  if size > 1024 * MB then 20 * MB
  else if size > 50 * MB then 10 * MB
  else MB

/-! ## Preferences -/

/-- Modelled from the spec: the block size class of `lz4xx.h`, whose
enumerators are the case labels of `cast_preferences`. -/
inductive BlockSize where
  | BS_Default | BS_Max64KB | BS_Max256KB | BS_Max1MB | BS_Max4MB
  deriving DecidableEq, Repr

/-- Modelled from the spec: the block linkage of `lz4xx.h`. -/
inductive BlockMode where
  | BM_Linked | BM_Independent
  deriving DecidableEq, Repr

/-- Modelled from the spec: the frame descriptor of `lz4xx.h`. -/
structure frame where
  checksumContent : Bool
  checksumBlock : Bool
  blockSize : BlockSize
  blockMode : BlockMode
  deriving DecidableEq, Repr

/-- Modelled from the spec: the `preferences` of `lz4xx.h`. -/
structure preferences where
  level : Int
  autoFlush : Bool
  favorDecSpeed : Bool
  frame : frame
  deriving DecidableEq, Repr

/-- From `lz4frame.h`. -/
inductive LZ4F_blockSizeID_t where
  | LZ4F_default | LZ4F_max64KB | LZ4F_max256KB | LZ4F_max1MB | LZ4F_max4MB
  deriving DecidableEq, Repr

/-- From `lz4frame.h`. -/
inductive LZ4F_blockMode_t where
  | LZ4F_blockLinked | LZ4F_blockIndependent
  deriving DecidableEq, Repr

/-- From `lz4frame.h`: `LZ4F_frameInfo_t`, with `frameType` and `dictID` as the
numbers they hold. -/
structure LZ4F_frameInfo_t where
  blockSizeID : LZ4F_blockSizeID_t
  blockMode : LZ4F_blockMode_t
  contentChecksumFlag : Bool
  frameType : Nat
  contentSize : Nat
  dictID : Nat
  blockChecksumFlag : Bool
  deriving DecidableEq, Repr

/-- From `lz4frame.h`: `LZ4F_preferences_t`, with the three `reserved` words
as a list. -/
structure LZ4F_preferences_t where
  frameInfo : LZ4F_frameInfo_t
  compressionLevel : Int
  autoFlush : Bool
  favorDecSpeed : Bool
  reserved : List Nat
  deriving DecidableEq, Repr

/-- Source: `cast_preferences(pfs, contentSize, out)`.  It assigns eight fields
of `out` and leaves `frameInfo.frameType`, `frameInfo.dictID` and `reserved`
as they are.  The C++ `%` truncates towards zero. -/
def cast_preferences (pfs : preferences) (contentSize : Nat) (out : LZ4F_preferences_t) :
    LZ4F_preferences_t :=
  { out with
    compressionLevel := pfs.level.tmod 16
    autoFlush := pfs.autoFlush
    favorDecSpeed := pfs.favorDecSpeed
    frameInfo :=
      { out.frameInfo with
        contentChecksumFlag := pfs.frame.checksumContent
        blockChecksumFlag := pfs.frame.checksumBlock
        contentSize := contentSize
        blockSizeID :=
          match pfs.frame.blockSize with
          | .BS_Default => .LZ4F_default
          | .BS_Max64KB => .LZ4F_max64KB
          | .BS_Max256KB => .LZ4F_max256KB
          | .BS_Max1MB => .LZ4F_max1MB
          | .BS_Max4MB => .LZ4F_max4MB
        blockMode :=
          match pfs.frame.blockMode with
          | .BM_Linked => .LZ4F_blockLinked
          | .BM_Independent => .LZ4F_blockIndependent } }

/-! ## The external codec -/

/-- The compression half of the LZ4 frame library over a native state `σ`.
An error result carries the text of `LZ4F_getErrorName`; a success carries the
bytes written to the destination, whose count is the returned size. -/
structure Compressor (σ : Type) where
  LZ4F_compressBound : Nat → LZ4F_preferences_t → Nat
  LZ4F_compressBegin : σ → Nat → LZ4F_preferences_t → σ × Except String (List Byte)
  LZ4F_compressUpdate : σ → Nat → List Byte → σ × Except String (List Byte)
  LZ4F_compressEnd : σ → Nat → σ × Except String (List Byte)

/-- The decompression half of the LZ4 frame library over a native state `δ`.
`LZ4F_getFrameInfo` answers the content size and the bytes consumed.
`LZ4F_decompress dctx dstCapacity src` answers the new state, the value it
leaves in `*srcSizePtr` (on success the bytes consumed) and the bytes
produced. -/
structure Decompressor (δ : Type) where
  LZ4F_getFrameInfo : δ → List Byte → δ × Except String (Nat × Nat)
  LZ4F_decompress : δ → Nat → List Byte → δ × Nat × Except String (List Byte)

/-- One call made to the codec, with the arguments the source passes. -/
inductive Call where
  | compressBound (srcSize : Nat)
  | compressBegin (dstCapacity : Nat)
  | compressUpdate (dstCapacity : Nat) (src : List Byte)
  | compressEnd (dstCapacity : Nat)
  | getFrameInfo (src : List Byte)
  | decompress (dstCapacity : Nat) (src : List Byte)
  deriving DecidableEq, Repr

/-! ## Sink, faults, context state -/

/-- Modelled from the spec: the sink capability `iwriter` of `lz4xx.h`, a
memory sink: `write` appends, `reserve` records the capacity hint. -/
structure iwriter where
  data : List Byte
  hint : Nat
  deriving DecidableEq, Repr

/-- Modelled from the spec: `reserve(hint_capacity)`. -/
def iwriter.reserve (w : iwriter) (n : Nat) : iwriter :=
  { w with hint := n % SIZE_MOD }

/-- Modelled from the spec: `write(bytes)`; the source never reads its result. -/
def iwriter.write (w : iwriter) (bytes : List Byte) : iwriter :=
  { w with data := w.data ++ bytes }

/-- Ways a run ends without returning. -/
inductive Fault where
  | fuel
  | bounds
  | nullptr
  deriving DecidableEq, Repr

/-- A `(const uint8_t* data, size_t size)` argument. -/
inductive Data where
  | null (size : Nat)
  | ptr (bytes : List Byte)
  deriving DecidableEq, Repr

/-- Source: `struct base_prv` with the members of the derived `prv` in
`native`.  `buf_out` is scratch space: only its size and capacity are kept,
and `reserve(n)` or a growing `resize(n)` is taken to leave the capacity at
`max capacity n`.  `calls` is the ghost log of codec calls. -/
structure prv (κ : Type) where
  begun : Bool
  content_size : Nat
  wt : iwriter
  last_error : String
  ss : String
  buf_in : List Byte
  buf_out_size : Nat
  buf_out_cap : Nat
  cur_buf_in : Nat
  native : κ
  calls : List Call
  deriving DecidableEq, Repr

/-- Source: `context<Compress>::prv`, the members added to `base_prv`. -/
structure cnative (σ : Type) where
  ctx : σ
  pfs : LZ4F_preferences_t
  deriving DecidableEq, Repr

/-- The value of `__FILE__`. -/
def srcFile : String := "lz4xx.cpp"

/-- Source: `__error__(base_prv*, const char*, file, line)`.  `ss.clear()`
resets the stream flags only, so the text is appended to what `ss` holds. -/
def __error__ {κ : Type} (d : prv κ) (msg : String) (line : String) : prv κ :=
  let ss := d.ss ++ "error: " ++ msg ++ " @" ++ srcFile ++ "#" ++ line
  { d with ss := ss, last_error := ss }

/-- Source: `__error__(base_prv*, const std::stringstream&, file, line)` as
used by `error(this,ss)`: the message is the text of the context's own stream. -/
def __error_ss__ {κ : Type} (d : prv κ) (line : String) : prv κ :=
  __error__ d d.ss line

/-- The effect of `std::vector::resize(n)` on the elements. -/
def resize (v : List Byte) (n : Nat) : List Byte :=
  v.take n ++ List.replicate (n - v.length) 0

/-- The effect of `memcpy(dst + pos, src, src.length)` on `dst`. -/
def memcpy (dst : List Byte) (pos : Nat) (src : List Byte) : List Byte :=
  dst.take pos ++ src ++ dst.drop (pos + src.length)

/-- Append a call to the ghost log. -/
def prv.log {κ : Type} (d : prv κ) (c : Call) : prv κ :=
  { d with calls := d.calls ++ [c] }

/-! ## `base_prv::commit` -/

/-- Source: `base_prv::commit`, over the virtual `begin` and `update`.  The fuel
bounds the depth of the recursion; the return on a null pointer or on size 0
needs none.  `Fault.bounds` is the case where `capacity - cur_buf_in` would
wrap, the fill level being above the capacity, and `memcpy` would then write
outside the buffer. -/
def commit {κ : Type}
    (begin : prv κ → List Byte → Except Fault (Bool × List Byte × prv κ))
    (update : Nat → prv κ → Except Fault (Bool × prv κ)) :
    Nat → prv κ → Data → Except Fault (Bool × prv κ)
  | _, d, .null _ => .ok (true, d)
  | 0, d, .ptr data => if data.length < 1 then .ok (true, d) else .error .fuel
  | fuel + 1, d, .ptr data =>
    if data.length < 1 then .ok (true, d) else
    match (if d.begun then .ok (true, data, d) else begin d data) with
    | .error f => .error f
    | .ok (b, data, d) =>
      let d := { d with begun := b }
      if !b then .ok (false, d) else
      if data.length < 1 then .ok (true, d) else
      let capacity := d.buf_in.length
      let total := d.cur_buf_in + data.length
      if total < capacity then
        .ok (true, { d with buf_in := memcpy d.buf_in d.cur_buf_in data, cur_buf_in := total })
      else if capacity < d.cur_buf_in then .error .bounds
      else
        let offset := capacity - d.cur_buf_in
        let d := { d with buf_in := memcpy d.buf_in d.cur_buf_in (data.take offset),
                          cur_buf_in := capacity }
        match update fuel d with
        | .error f => .error f
        | .ok (false, d) => .ok (false, d)
        | .ok (true, d) => commit begin update fuel d (.ptr (data.drop offset))

/-! ## `context<Compress>::prv` -/

namespace Compress

/-- Source: `context<Compress>::prv::begin`. -/
def begin {σ : Type} (codec : Compressor σ) (d : prv (cnative σ)) (data : List Byte) :
    Except Fault (Bool × List Byte × prv (cnative σ)) :=
  let d :=
    if d.content_size < SZ_BUFFER then
      { d with buf_in := resize d.buf_in d.content_size,
               buf_out_cap := max d.buf_out_cap (d.content_size + bufsz d.content_size) }
    else
      { d with buf_in := resize d.buf_in SZ_BUFFER,
               buf_out_cap := max d.buf_out_cap SZ_BUFFER }
  let sz_out := codec.LZ4F_compressBound d.content_size d.native.pfs
  let d := d.log (.compressBound d.content_size)
  if sz_out < LZ4F_HEADER_SIZE_MIN then
    .ok (false, data, __error__ d "bound size to small!" "285")
  else
    let d := { d with wt := d.wt.reserve (sz_out + bufsz sz_out) }
    let sz_bound := codec.LZ4F_compressBound 0 d.native.pfs
    let d := (d.log (.compressBound 0)).log (.compressBegin sz_bound)
    match codec.LZ4F_compressBegin d.native.ctx sz_bound d.native.pfs with
    | (ctx, .error name) =>
      let d := { d with native := { d.native with ctx := ctx } }
      let d := { d with ss := d.ss ++ "frame header error:" ++ name ++ "\n"
                                ++ "  maybe your preferences not right!" }
      .ok (false, data, __error_ss__ d "297")
    | (ctx, .ok header) =>
      let d := { d with native := { d.native with ctx := ctx } }
      .ok (true, data, { d with wt := d.wt.write header })

/-- Source: `context<Compress>::prv::update`. -/
def update {σ : Type} (codec : Compressor σ) (d : prv (cnative σ)) :
    Bool × prv (cnative σ) :=
  if d.cur_buf_in < 1 then (true, d) else
  let bound := codec.LZ4F_compressBound d.cur_buf_in d.native.pfs
  let d := { d with buf_out_size := bound, buf_out_cap := max d.buf_out_cap bound }
  let src := d.buf_in.take d.cur_buf_in
  let d := (d.log (.compressBound d.cur_buf_in)).log (.compressUpdate d.buf_out_size src)
  match codec.LZ4F_compressUpdate d.native.ctx d.buf_out_size src with
  | (ctx, .error name) =>
    let d := { d with native := { d.native with ctx := ctx } }
    (false, { __error__ d name "320" with cur_buf_in := 0 })
  | (ctx, .ok out) =>
    let d := { d with native := { d.native with ctx := ctx } }
    (true, { d with wt := d.wt.write out, cur_buf_in := 0 })

/-- Source: `context<Compress>::prv::finish`. -/
def finish {σ : Type} (codec : Compressor σ) (d : prv (cnative σ)) :
    Bool × prv (cnative σ) :=
  let d := { d with begun := false }
  let d := d.log (.compressEnd d.buf_out_size)
  match codec.LZ4F_compressEnd d.native.ctx d.buf_out_size with
  | (ctx, .error name) =>
    let d := { d with native := { d.native with ctx := ctx } }
    let d := { d with ss := d.ss ++ "error at the end:" ++ name }
    (false, __error_ss__ d "343")
  | (ctx, .ok out) =>
    let d := { d with native := { d.native with ctx := ctx } }
    (decide (out.length ≥ 4), { d with wt := d.wt.write out })

/-- The virtual `update` of a compress context, in the shape `commit` takes. -/
def vupdate {σ : Type} (codec : Compressor σ) (_fuel : Nat) (d : prv (cnative σ)) :
    Except Fault (Bool × prv (cnative σ)) :=
  .ok (update codec d)

/-- Source: `context<Compress>::update`, that is `d->commit(data,size)`. -/
def context_update {σ : Type} (codec : Compressor σ) (fuel : Nat) (d : prv (cnative σ))
    (data : Data) : Except Fault (Bool × prv (cnative σ)) :=
  commit (begin codec) (vupdate codec) fuel d data

/-- Source: `context<Compress>::finish`: `d->update(); return d->finish();`. -/
def context_finish {σ : Type} (codec : Compressor σ) (d : prv (cnative σ)) :
    Bool × prv (cnative σ) :=
  finish codec (update codec d).2

end Compress

/-! ## `context<Decompress>::prv` -/

namespace Decompress

/-- Source: `context<Decompress>::prv::begin`. -/
def begin {δ : Type} (codec : Decompressor δ) (d : prv δ) (data : List Byte) :
    Except Fault (Bool × List Byte × prv δ) :=
  if data.length < LZ4F_HEADER_SIZE_MAX then
    let d := { d with ss := d.ss ++ "data size must >= \"" ++ "19"
                              ++ "\" when first time calling \"update\"" }
    .ok (false, data, __error_ss__ d "358")
  else
    let d := d.log (.getFrameInfo data)
    match codec.LZ4F_getFrameInfo d.native data with
    | (ctx, .error name) =>
      let d := { d with native := ctx }
      let d := { d with ss := d.ss ++ "error when read frame header:" ++ name }
      .ok (false, data, __error_ss__ d "366")
    | (ctx, .ok (contentSize, sz_read)) =>
      let d := { d with native := ctx }
      let d := { d with wt := d.wt.reserve (contentSize + bufsz contentSize) }
      let d :=
        if contentSize < SZ_BUFFER then
          { d with buf_in := resize d.buf_in contentSize,
                   buf_out_cap := max d.buf_out_cap (contentSize + bufsz contentSize) }
        else
          { d with buf_in := resize d.buf_in SZ_BUFFER,
                   buf_out_cap := max d.buf_out_cap SZ_BUFFER }
      if data.length < sz_read then .error .bounds
      else .ok (true, data.drop sz_read, d)

/-- Source: the `while(remain > 0)` loop of `context<Decompress>::prv::update`.
The codec reads and writes `cur_buf_in` through `srcSizePtr`. -/
def updateLoop {δ : Type} (codec : Decompressor δ) :
    Nat → prv δ → Nat → Nat → Except Fault (Bool × prv δ)
  | 0, d, remain, _ => if 0 < remain then .error .fuel else .ok (true, d)
  | fuel + 1, d, remain, pos =>
    if 0 < remain then
      let sz_out := d.buf_out_cap
      let d := { d with buf_out_size := sz_out }
      let src := (d.buf_in.drop pos).take d.cur_buf_in
      let d := d.log (.decompress sz_out src)
      match codec.LZ4F_decompress d.native sz_out src with
      | (ctx, consumed, .error name) =>
        .ok (false, __error__ { d with native := ctx, cur_buf_in := consumed } name "413")
      | (ctx, consumed, .ok out) =>
        if remain < consumed then .error .bounds
        else
          let remain := remain - consumed
          let pos := pos + consumed
          let d := { d with native := ctx, cur_buf_in := remain, wt := d.wt.write out }
          updateLoop codec fuel d remain pos
    else .ok (true, d)

/-- Source: `context<Decompress>::prv::update`. -/
def update {δ : Type} (codec : Decompressor δ) (fuel : Nat) (d : prv δ) :
    Except Fault (Bool × prv δ) :=
  if d.cur_buf_in < 1 then .ok (true, d)
  else updateLoop codec fuel d d.cur_buf_in 0

/-- Source: `context<Decompress>::prv::finish`. -/
def finish {δ : Type} (d : prv δ) : Bool × prv δ :=
  (true, { d with begun := false })

/-- Source: `context<Decompress>::update`, that is `d->commit(data,size)`. -/
def context_update {δ : Type} (codec : Decompressor δ) (fuel : Nat) (d : prv δ)
    (data : Data) : Except Fault (Bool × prv δ) :=
  commit (begin codec) (update codec) fuel d data

/-- Source: `context<Decompress>::finish`: `d->update(); return d->finish();`. -/
def context_finish {δ : Type} (codec : Decompressor δ) (fuel : Nat) (d : prv δ) :
    Except Fault (Bool × prv δ) :=
  match update codec fuel d with
  | .error f => .error f
  | .ok (_, d) => .ok (finish d)

end Decompress

/-- Source: `context<MO>::reset`. -/
def reset {κ : Type} (d : prv κ) : prv κ :=
  { d with begun := false }

/-- Source: `context<MO>::lasterror`. -/
def lasterror {κ : Type} (d : prv κ) : String :=
  d.last_error

/-- Source: `context<Compress> compress(size_t, iwriter&, const preferences&)`.
`raw` is what `new context<Compress>::prv(wt)` leaves in the two members the
derived `prv` adds: `ctx` as `LZ4F_createCompressionContext` yields it, and
`pfs` with whatever the storage held, since no constructor initialises it. -/
def compress_context {σ : Type} (raw : cnative σ) (contentSize : Nat) (wt : iwriter)
    (pfs : preferences) : prv (cnative σ) :=
  { begun := false, content_size := contentSize, wt := wt, last_error := "", ss := "",
    buf_in := [], buf_out_size := 0, buf_out_cap := 0, cur_buf_in := 0,
    native := { ctx := raw.ctx, pfs := cast_preferences pfs contentSize raw.pfs },
    calls := [] }

/-- Source: `context<Decompress> decompress(iwriter&)`; `ctx0` is the state
`LZ4F_createDecompressionContext` yields.  `content_size` is never assigned
and never read on this side. -/
def decompress_context {δ : Type} (ctx0 : δ) (wt : iwriter) : prv δ :=
  { begun := false, content_size := 0, wt := wt, last_error := "", ss := "",
    buf_in := [], buf_out_size := 0, buf_out_cap := 0, cur_buf_in := 0,
    native := ctx0, calls := [] }

/-! ## Source, progress and the orchestration loops -/

/-- Modelled from the spec: the source capability `ireader` of `lz4xx.h`, a
byte source with a cursor that can report its total length. -/
structure ireader where
  bytes : List Byte
  position : Nat
  deriving DecidableEq, Repr

/-- Modelled from the spec: `seek(offset_or_end) -> position`; a negative
offset seeks to the end, so `seek(-1)` answers the total length. -/
def ireader.seek (rd : ireader) (offset : Int) : Nat × ireader :=
  let p := if offset < 0 then rd.bytes.length else min offset.toNat rd.bytes.length
  (p, { rd with position := p })

/-- Modelled from the spec: `pos() -> position`. -/
def ireader.pos (rd : ireader) : Nat :=
  rd.position

/-- Modelled from the spec: `read(buffer) -> bytes_read`, at most `n` bytes
from the cursor on. -/
def ireader.read (rd : ireader) (n : Nat) : List Byte × ireader :=
  let chunk := (rd.bytes.drop rd.position).take n
  (chunk, { rd with position := rd.position + chunk.length })

/-- Source: `class progress`: whether a callback is attached, the calls the
callback has received (the percentage being given by the two arguments of
`percent`), and the error slot. -/
structure progress where
  attached : Bool
  reports : List (Int × Nat × Nat)
  last_error : String
  deriving DecidableEq, Repr

/-- Source: `progress::set`, with `value = percent(current,total)`. -/
def progress.set (p : progress) (chunk : Int) (current total : Nat) : progress :=
  if p.attached then { p with reports := p.reports ++ [(chunk, current, total)] } else p

/-- Source: the `while((sz_read = rd.read(...)) > 0)` loop shared by the two
orchestrated calls (lines 467-485 and 510-528).  `upd` is `ctx.update`,
`elapsed i` tells whether the clock test of iteration `i` holds, and the
fourth argument counts the iterations left. -/
def pump {κ : Type} (upd : prv κ → Data → Except Fault (Bool × prv κ))
    (elapsed : Nat → Bool) (total bufsize : Nat) :
    Nat → Nat → ireader → prv κ → Option progress → Nat → Bool →
      Except Fault (Bool × ireader × prv κ × Option progress)
  | 0, _, rd, d, pgs, _, ok =>
    if 0 < (rd.read bufsize).1.length then .error .fuel else .ok (ok, (rd.read bufsize).2, d, pgs)
  | n + 1, i, rd, d, pgs, current, ok =>
    let (chunk, rd) := rd.read bufsize
    if 0 < chunk.length then
      match upd d (.ptr chunk) with
      | .error f => .error f
      | .ok (false, d) => .ok (false, rd, d, pgs)
      | .ok (true, d) =>
        let current := current + chunk.length
        let current := if current > total then total else current
        let pgs :=
          if current = total ∨ elapsed i = true then pgs.map (fun p => p.set 0 current total)
          else pgs
        pump upd elapsed total bufsize n (i + 1) rd d pgs current true
    else .ok (ok, rd, d, pgs)

/-- What an orchestrated call leaves behind: its return value, the source, the
sink, the caller's `progress` (if one was passed) and the ghost log of the
context it destroyed. -/
structure outcome where
  ok : Bool
  rd : ireader
  wt : iwriter
  pgs : Option progress
  calls : List Call
  deriving DecidableEq, Repr

/-- Source: the tail of both orchestrated calls,
`if(!ok) pgs->last_error = ctx.lasterror(); return ok;`: the store goes through
`pgs` unguarded. -/
def report {κ : Type} (ok : Bool) (rd : ireader) (d : prv κ) (pgs : Option progress) :
    Except Fault outcome :=
  if !ok then
    match pgs with
    | none => .error .nullptr
    | some p =>
      .ok { ok := ok, rd := rd, wt := d.wt, pgs := some { p with last_error := lasterror d },
            calls := d.calls }
  else .ok { ok := ok, rd := rd, wt := d.wt, pgs := pgs, calls := d.calls }

/-- Source: `bool compress(ireader&, iwriter&, progress*, const preferences&)`.
`fuel` bounds the loop and every `commit` inside it. -/
def compress {σ : Type} (codec : Compressor σ) (raw : cnative σ) (elapsed : Nat → Bool)
    (fuel : Nat) (rd : ireader) (wt : iwriter) (pgs : Option progress)
    (pfs : preferences) : Except Fault outcome :=
  let (total, rd) := rd.seek (-1)
  let (_, rd) := rd.seek 0
  let ctx := compress_context raw total wt pfs
  let bufsize := if total < SZ_BUFFER then total else SZ_BUFFER
  match pump (Compress.context_update codec fuel) elapsed total bufsize fuel 0 rd ctx pgs 0
      false with
  | .error f => .error f
  | .ok (ok, rd, d, pgs) =>
    let r := if ok then Compress.context_finish codec d else (false, d)
    report r.1 rd r.2 pgs

/-- Source: `bool decompress(ireader&, iwriter&, progress*)`. -/
def decompress {δ : Type} (codec : Decompressor δ) (ctx0 : δ) (elapsed : Nat → Bool)
    (fuel : Nat) (rd : ireader) (wt : iwriter) (pgs : Option progress) :
    Except Fault outcome :=
  let beg := rd.pos
  let (total, rd) := rd.seek (-1)
  let (_, rd) := rd.seek beg
  let ctx := decompress_context ctx0 wt
  let bufsize := if total < SZ_BUFFER then total else SZ_BUFFER
  match pump (Decompress.context_update codec fuel) elapsed total bufsize fuel 0 rd ctx pgs 0
      false with
  | .error f => .error f
  | .ok (ok, rd, d, pgs) =>
    match (if ok then Decompress.context_finish codec fuel d else .ok (false, d)) with
    | .error f => .error f
    | .ok r => report r.1 rd r.2 pgs

/-! ## The drivers of `test.cpp` -/

/-- An empty memory sink. -/
def emptySink : iwriter :=
  { data := [], hint := 0 }

/-- Source: `test.cpp`, lines 26-37: compress the input into a memory buffer
with no `progress` and the default preferences, then decompress that buffer
into the output sink, again with no `progress`.  The result of `compress` is
not looked at. -/
def roundtrip {σ δ : Type} (enc : Compressor σ) (dec : Decompressor δ) (c0 : cnative σ)
    (d0 : δ)
    (elapsed : Nat → Bool) (fuel : Nat) (defaults : preferences) (input : List Byte) :
    Except Fault outcome :=
  match compress enc c0 elapsed fuel { bytes := input, position := 0 } emptySink none
      defaults with
  | .error f => .error f
  | .ok r => decompress dec d0 elapsed fuel { bytes := r.wt.data, position := 0 } emptySink none

/-- Source: `test.cpp`, lines 44-51 and 83-90: the hand-written loop
`failed = !ctx.update(...); if(failed) break;` over successive chunks; the
result is `!failed`. -/
def feed {κ : Type} (upd : prv κ → Data → Except Fault (Bool × prv κ)) :
    List (List Byte) → prv κ → Except Fault (Bool × prv κ)
  | [], d => .ok (true, d)
  | chunk :: rest, d =>
    match upd d (.ptr chunk) with
    | .error f => .error f
    | .ok (false, d) => .ok (false, d)
    | .ok (true, d) => feed upd rest d

/-- Source: `test.cpp`, lines 41-53: a whole compress lifecycle on a context,
`failed = failed || !ctx.finish()` after the loop. -/
def cycle {σ : Type} (codec : Compressor σ) (fuel : Nat) (chunks : List (List Byte))
    (d : prv (cnative σ)) : Except Fault (Bool × prv (cnative σ)) :=
  match feed (Compress.context_update codec fuel) chunks d with
  | .error f => .error f
  | .ok (false, d) => .ok (false, d)
  | .ok (true, d) => .ok (Compress.context_finish codec d)

/-! ## Concrete codecs used to run the model

`Stored` is a small frame codec in the shape of the LZ4 frame format: a
19-byte header carrying the content size, the content stored as it is, and a
4-byte end mark.  `Broken` is a codec whose block calls report an error, as
the library does on corrupted input or a bad state. -/

namespace Stored

/-- Little-endian encoding of a size on 8 bytes. -/
def encode64 (n : Nat) : List Byte :=
  (List.range 8).map (fun i => UInt8.ofNat (n / 256 ^ i % 256))

/-- Little-endian decoding of the first 8 bytes. -/
def decode64 (bs : List Byte) : Nat :=
  (bs.take 8).foldr (fun b acc => b.toNat + 256 * acc) 0

/-- The frame header: the content size, then padding up to 19 bytes. -/
def header (contentSize : Nat) : List Byte :=
  encode64 contentSize ++ List.replicate 11 0

/-- The stored-block compressor; it keeps no state. -/
def enc : Compressor Unit where
  LZ4F_compressBound := fun n _ => n + 23
  LZ4F_compressBegin := fun _ _ pfs => ((), .ok (header pfs.frameInfo.contentSize))
  LZ4F_compressUpdate := fun _ _ src => ((), .ok src)
  LZ4F_compressEnd := fun _ _ => ((), .ok [0, 0, 0, 0])

/-- The stored-block decompressor; its state is the number of content bytes
still to come.  Once the content is complete it swallows the end mark. -/
def dec : Decompressor Nat where
  LZ4F_getFrameInfo := fun st src =>
    if src.length < 19 then (st, .error "ERROR_frameHeader_incomplete")
    else (decode64 src, .ok (decode64 src, 19))
  LZ4F_decompress := fun st cap src =>
    if st = 0 then (0, src.length, .ok [])
    else (st - min (min src.length cap) st, min (min src.length cap) st,
          .ok (src.take (min (min src.length cap) st)))

end Stored

namespace Broken

/-- A compressor whose `LZ4F_compressUpdate` reports an error. -/
def enc : Compressor Unit where
  LZ4F_compressBound := fun n _ => n + 23
  LZ4F_compressBegin := fun _ _ pfs => ((), .ok (Stored.header pfs.frameInfo.contentSize))
  LZ4F_compressUpdate := fun _ _ _ => ((), .error "ERROR_GENERIC")
  LZ4F_compressEnd := fun _ _ => ((), .ok [0, 0, 0, 0])

/-- A decompressor that reads the header and then reports an error on every
block call, consuming nothing. -/
def dec : Decompressor Nat where
  LZ4F_getFrameInfo := Stored.dec.LZ4F_getFrameInfo
  LZ4F_decompress := fun st _ _ => (st, 0, .error "ERROR_GENERIC")

end Broken

/-- A preferences value for concrete runs. -/
def prefs0 : preferences :=
  { level := 0, autoFlush := false, favorDecSpeed := false,
    frame := { checksumContent := false, checksumBlock := false,
               blockSize := .BS_Default, blockMode := .BM_Linked } }

/-- The native members of a fresh compress context over a stateless codec, for
concrete runs: the storage of `pfs` happens to hold zeroes. -/
def raw0 : cnative Unit :=
  { ctx := (),
    pfs := { frameInfo := { blockSizeID := .LZ4F_default, blockMode := .LZ4F_blockLinked,
                            contentChecksumFlag := false, frameType := 0, contentSize := 0,
                            dictID := 0, blockChecksumFlag := false },
             compressionLevel := 0, autoFlush := false, favorDecSpeed := false,
             reserved := [0, 0, 0] } }

/-- A clock under which the 500 ms test never holds. -/
def never : Nat → Bool :=
  fun _ => false

/-- The state a run returned, or `fallback` if the run faulted. -/
def stateOf {α : Type} (fallback : α) (r : Except Fault (Bool × α)) : α :=
  match r with
  | .ok (_, d) => d
  | .error _ => fallback

/-- A compress context for 5 bytes of content after `update` of 2 bytes. -/
def partlyFilled : prv (cnative Unit) :=
  stateOf (compress_context raw0 5 emptySink prefs0)
    (Compress.context_update Stored.enc 1 (compress_context raw0 5 emptySink prefs0)
      (.ptr [1, 2]))

/-! ## Names for the pieces of `commit`, used to reason about it -/

/-- The `if(!begun) { begun = begin(data,size); ... }` block of `commit`. -/
def enter {κ : Type}
    (begin : prv κ → List Byte → Except Fault (Bool × List Byte × prv κ))
    (d : prv κ) (data : List Byte) : Except Fault (Bool × List Byte × prv κ) :=
  if d.begun then .ok (true, data, d) else begin d data

/-- The state `commit` returns when the bytes fit below the capacity. -/
def store {κ : Type} (d : prv κ) (data : List Byte) : prv κ :=
  { d with buf_in := memcpy d.buf_in d.cur_buf_in data,
           cur_buf_in := d.cur_buf_in + data.length }

/-- The state `commit` hands to `update` once it has filled the buffer. -/
def fill {κ : Type} (d : prv κ) (data : List Byte) : prv κ :=
  { d with buf_in := memcpy d.buf_in d.cur_buf_in
                       (data.take (d.buf_in.length - d.cur_buf_in)),
           cur_buf_in := d.buf_in.length }

/-- Byte-wise accumulation: append one byte at the fill level and flush with
`u` when the buffer is full.  A fuel-free description of what `commit` does on
a begun context whose fill level is below its capacity. -/
def pushAll {κ : Type} (u : prv κ → Bool × prv κ) : List Byte → prv κ → Bool × prv κ
  | [], d => (true, d)
  | x :: xs, d =>
    if d.cur_buf_in + 1 < d.buf_in.length then pushAll u xs (store d [x])
    else
      match u (fill d [x]) with
      | (false, d2) => (false, d2)
      | (true, d2) => pushAll u xs d2

/-- The capacity `begin` gives the accumulation buffer for a content size. -/
def capacityFor (contentSize : Nat) : Nat :=
  if contentSize < SZ_BUFFER then contentSize else SZ_BUFFER

/-- The outcome of `Compress.begin`, which never looks at the data it is
passed and hands it back unchanged. -/
def Compress.begun_of {σ : Type} (codec : Compressor σ) (d : prv (cnative σ)) :
    Bool × prv (cnative σ) :=
  match Compress.begin codec d [] with
  | .ok (b, _, d1) => (b, d1)
  | .error _ => (false, d)

/-- Two runs that end alike: the same fault, or the same return value and
states related by `R`. -/
def SameRun {α : Type} (R : α → α → Prop) (rx ry : Except Fault (Bool × α)) : Prop :=
  match rx, ry with
  | .ok (b, x), .ok (c, y) => b = c ∧ R x y
  | .error f, .error g => f = g
  | _, _ => False

/-- Two compress contexts that behave alike from here on: the same `begun`,
content size, native state and fill level, the same pending bytes, buffers of
one capacity once begun, and sinks and call logs that have grown by the same
bytes and calls since the sinks held `wx` and `wy` and the second log held `c`
more than the first.  `s` is the size the output buffer of the first context
has at the end of its lifecycle. -/
structure Alike {σ : Type} (wx wy : List Byte) (c : List Call) (s : Nat)
    (x y : prv (cnative σ)) : Prop where
  begun : y.begun = x.begun
  content_size : y.content_size = x.content_size
  native : y.native = x.native
  cur : y.cur_buf_in = x.cur_buf_in
  idle : x.begun = false → x.cur_buf_in = 0
  cap : x.begun = true → y.buf_in.length = x.buf_in.length
  pending : y.buf_in.take y.cur_buf_in = x.buf_in.take x.cur_buf_in
  sink : ∃ o, x.wt.data = wx ++ o ∧ y.wt.data = wy ++ o
  calls : y.calls = c ++ x.calls
  out : y.buf_out_size = x.buf_out_size ∨ (x.buf_out_size = 0 ∧ y.buf_out_size = s)

/-- The state a fresh compress context for 2 bytes is left in by the lifecycle
that commits `[1]`, then `[2, 3]`, then finishes. -/
def firstRun : prv (cnative Unit) :=
  stateOf (compress_context raw0 2 emptySink prefs0)
    (cycle Stored.enc 4 [[1], [2, 3]] (compress_context raw0 2 emptySink prefs0))

/-- The successive reads of at most `bs` bytes that the orchestration loop
makes over the bytes `l`, given `n` iterations. -/
def chunks (bs : Nat) : Nat → List Byte → List (List Byte)
  | 0, _ => []
  | n + 1, l => if l.take bs = [] then [] else l.take bs :: chunks bs n (l.drop bs)

/-- A streaming decoder.  `Rem st r o` says that the decoder in state `st`,
with the stream `r` still to come, is to produce exactly `o`.  Offered any
non-empty window at the front of `r` and room for output, such a decoder
succeeds, consumes no more than the window, produces a first part of `o`,
makes progress, and is again in such a state for what is left; with nothing
to come there is nothing left to produce. -/
structure StreamDecoder {δ : Type} (dec : Decompressor δ)
    (Rem : δ → List Byte → List Byte → Prop) : Prop where
  step : ∀ st r o n cap, Rem st r o → r ≠ [] → 0 < n → 0 < cap →
    ∃ st1 c out o1, dec.LZ4F_decompress st cap (r.take n) = (st1, c, .ok out) ∧
      c ≤ (r.take n).length ∧ o = out ++ o1 ∧ Rem st1 (r.drop c) o1 ∧
      (0 < c ∨ 0 < out.length)
  done : ∀ st o, Rem st [] o → o = []

/-- A decompress context in the middle of a stream `B` that is to produce
`input`: it has begun, the decoder has consumed the first `k` bytes of `B`
and is to produce `o` from the rest, the pending bytes are the next bytes of
`B`, and the sink holds what has been produced so far. -/
structure Decoding {δ : Type} (Rem : δ → List Byte → List Byte → Prop)
    (B input : List Byte) (d : prv δ) (k : Nat) (o : List Byte) : Prop where
  begun : d.begun = true
  room : d.cur_buf_in < d.buf_in.length
  cap : 0 < d.buf_out_cap
  rem : Rem d.native (B.drop k) o
  pending : d.buf_in.take d.cur_buf_in = (B.drop k).take d.cur_buf_in
  within : k + d.cur_buf_in ≤ B.length
  sink : d.wt.data ++ o = input

/-- The bytes a compress lifecycle over `input` leaves in the sink `wt` when
`begin` succeeds: what `finish()` leaves after the accumulation of `input`. -/
def Compress.frame {σ : Type} (enc : Compressor σ) (c0 : cnative σ) (input : List Byte)
    (wt : iwriter) (pfs : preferences) : List Byte :=
  (Compress.context_finish enc
    (pushAll (Compress.update enc) input
      { (Compress.begun_of enc (compress_context c0 input.length wt pfs)).2
        with begun := true }).2).2.wt.data

/-- What the stored decoder still has to produce: the next `st` bytes. -/
def Stored.Rem (st : Nat) (r o : List Byte) : Prop :=
  o = r.take st

namespace Flaky

/-- A decompressor that reads the header, takes one byte on its first block
call and reports an error on every later one, leaving `*srcSizePtr` as it
was given.  Its state is the number of block calls that have succeeded. -/
def dec : Decompressor Nat where
  LZ4F_getFrameInfo := fun st src =>
    if src.length < 19 then (st, .error "ERROR_frameHeader_incomplete")
    else (0, .ok (Stored.decode64 src, 19))
  LZ4F_decompress := fun st _ src =>
    if st = 0 then (1, 1, .ok (src.take 1)) else (st, src.length, .error "ERROR_GENERIC")

end Flaky

/-- A decompress context over the decoder `dec` that has read a header for 5
bytes and holds the two pending bytes 1, 2. -/
def twoPending (dec : Decompressor Nat) : prv Nat :=
  stateOf (decompress_context 0 emptySink)
    (Decompress.context_update dec 1 (decompress_context 0 emptySink)
      (.ptr (Stored.header 5 ++ [1, 2])))

/-- One call on a context: `update(data,size)`, `finish()` or `reset()`. -/
inductive Op where
  | update (data : Data)
  | finish
  | reset
  deriving DecidableEq, Repr

/-- A sequence of calls on a compress context, whatever they return. -/
def Compress.run {σ : Type} (codec : Compressor σ) (fuel : Nat) :
    List Op → prv (cnative σ) → Except Fault (prv (cnative σ))
  | [], d => .ok d
  | .update data :: ops, d =>
    match Compress.context_update codec fuel d data with
    | .error f => .error f
    | .ok (_, d1) => Compress.run codec fuel ops d1
  | .finish :: ops, d => Compress.run codec fuel ops (Compress.context_finish codec d).2
  | .reset :: ops, d => Compress.run codec fuel ops (reset d)

/-- A sequence of calls on a decompress context, whatever they return. -/
def Decompress.run {δ : Type} (codec : Decompressor δ) (fuel : Nat) :
    List Op → prv δ → Except Fault (prv δ)
  | [], d => .ok d
  | .update data :: ops, d =>
    match Decompress.context_update codec fuel d data with
    | .error f => .error f
    | .ok (_, d1) => Decompress.run codec fuel ops d1
  | .finish :: ops, d =>
    match Decompress.context_finish codec fuel d with
    | .error f => .error f
    | .ok (_, d1) => Decompress.run codec fuel ops d1
  | .reset :: ops, d => Decompress.run codec fuel ops (reset d)

/-- The fill level is within the capacity, and the capacity is 0 or the one
`begin` gives for the declared content size. -/
def FillWithin {σ : Type} (d : prv (cnative σ)) : Prop :=
  d.cur_buf_in ≤ d.buf_in.length ∧
  (d.buf_in.length = 0 ∨ d.buf_in.length = capacityFor d.content_size)

/-- The inputs of the `LZ4F_compressUpdate` calls of a log, in call order. -/
def updateInputs : List Call → List (List Byte)
  | [] => []
  | .compressUpdate _ src :: cs => src :: updateInputs cs
  | .compressBound _ :: cs => updateInputs cs
  | .compressBegin _ :: cs => updateInputs cs
  | .compressEnd _ :: cs => updateInputs cs
  | .getFrameInfo _ :: cs => updateInputs cs
  | .decompress _ _ :: cs => updateInputs cs

/-- The number of `LZ4F_compressBegin` calls in a log. -/
def beginCalls : List Call → Nat
  | [] => 0
  | .compressBegin _ :: cs => beginCalls cs + 1
  | .compressUpdate _ _ :: cs => beginCalls cs
  | .compressBound _ :: cs => beginCalls cs
  | .compressEnd _ :: cs => beginCalls cs
  | .getFrameInfo _ :: cs => beginCalls cs
  | .decompress _ _ :: cs => beginCalls cs

/-- The state a fresh compress context for 2 bytes is left in by the commits
of `[1]` and `[2, 3]`. -/
def firstFeed : prv (cnative Unit) :=
  stateOf (compress_context raw0 2 emptySink prefs0)
    (feed (Compress.context_update Stored.enc 4) [[1], [2, 3]]
      (compress_context raw0 2 emptySink prefs0))

/-- One call of `LZ4F_decompress` made by `update`: the bytes offered, the
count consumed and the bytes produced. -/
structure Round where
  offered : List Byte
  consumed : Nat
  produced : List Byte
  deriving DecidableEq, Repr

/-- The rounds that drain the pending bytes `r` through a decoder in state
`st` with room for `cap` bytes of output: each round is offered what the round
before left, succeeds and consumes no more than it was offered; after the
last round nothing is pending and the decoder is in state `st2`. -/
def Rounds {δ : Type} (dec : Decompressor δ) (cap : Nat) :
    δ → List Byte → List Round → δ → Prop
  | st, r, [], st2 => r = [] ∧ st2 = st
  | st, r, x :: xs, st2 =>
    r ≠ [] ∧ x.offered = r ∧ x.consumed ≤ r.length ∧
    ∃ st1, dec.LZ4F_decompress st cap r = (st1, x.consumed, .ok x.produced) ∧
      Rounds dec cap st1 (r.drop x.consumed) xs st2

/-- A decoder that, offered any bytes and room for `cap` bytes of output,
succeeds, consumes no more than it was offered, and consumes at least one
byte or else brings down `todo`, the measure of what it still holds to
deliver without reading. -/
def Progresses {δ : Type} (dec : Decompressor δ) (cap : Nat) (todo : δ → Nat) : Prop :=
  ∀ st r, r ≠ [] →
    ∃ st1 c out, dec.LZ4F_decompress st cap r = (st1, c, .ok out) ∧ c ≤ r.length ∧
      (0 < c ∨ todo st1 < todo st)

namespace Tagged

/-- A stored-block compressor whose frame header depends on the dictionary id
of the preferences, as the header of an LZ4 frame does: a flag byte, the
content size and, when `frameInfo.dictID` is not 0, the dictionary id on 4
bytes. -/
def enc : Compressor Unit where
  LZ4F_compressBound := fun n _ => n + 23
  LZ4F_compressBegin := fun _ _ pfs =>
    ((), .ok ((if pfs.frameInfo.dictID = 0 then [0] else [1])
      ++ Stored.encode64 pfs.frameInfo.contentSize
      ++ (if pfs.frameInfo.dictID = 0 then []
          else (Stored.encode64 pfs.frameInfo.dictID).take 4)))
  LZ4F_compressUpdate := fun _ _ src => ((), .ok src)
  LZ4F_compressEnd := fun _ _ => ((), .ok [0, 0, 0, 0])

end Tagged

/-- The native members of a fresh compress context whose `pfs` storage happens
to hold 7 where `frameInfo.dictID` lies. -/
def raw7 : cnative Unit :=
  { raw0 with pfs := { raw0.pfs with frameInfo := { raw0.pfs.frameInfo with dictID := 7 } } }

/-- The state a compress context for 3 bytes, its `pfs` storage holding
zeroes, is left in by the lifecycle that commits `[1, 2, 3]` and finishes. -/
def firstTagged : prv (cnative Unit) :=
  stateOf (compress_context raw0 3 emptySink prefs0)
    (cycle Tagged.enc 4 [[1, 2, 3]] (compress_context raw0 3 emptySink prefs0))

/-! ## Theorems -/

/-- C3. Sizing policy: `bufsz c` is 1 unit for `c ≤ 50` units, 10 units for
`50 units < c ≤ 1024 units` and 20 units above, and it is monotone. -/
theorem bufsz_policy (c c1 c2 : Nat) :
    (c ≤ 50 * MB → bufsz c = 1 * MB) ∧
    (50 * MB < c → c ≤ 1024 * MB → bufsz c = 10 * MB) ∧
    (1024 * MB < c → bufsz c = 20 * MB) ∧
    (c1 < c2 → bufsz c1 ≤ bufsz c2) := by
  unfold bufsz MB
  refine ⟨?_, ?_, ?_, ?_⟩
  · intro h
    rw [if_neg (by omega), if_neg (by omega)]
  · intro h1 h2
    rw [if_neg (by omega), if_pos (by omega)]
  · intro h
    rw [if_pos (by omega)]
  · intro h
    split_ifs <;> omega

/-- Witness for C3 at 60 units and at the pair 5 < 60 units. -/
theorem bufsz_policy_witness :
    bufsz (60 * MB) = 10 * MB ∧ bufsz 5 ≤ bufsz (60 * MB) :=
  ⟨(bufsz_policy (60 * MB) 5 (60 * MB)).2.1 (by decide) (by decide),
   (bufsz_policy (60 * MB) 5 (60 * MB)).2.2.2 (by decide)⟩

/-- Helper: `commit` on a null pointer or on no bytes returns at once. -/
theorem commit_noop {κ : Type}
    (begin : prv κ → List Byte → Except Fault (Bool × List Byte × prv κ))
    (update : Nat → prv κ → Except Fault (Bool × prv κ))
    (fuel : Nat) (d : prv κ) (size : Nat) :
    commit begin update fuel d (.null size) = .ok (true, d) ∧
    commit begin update fuel d (.ptr []) = .ok (true, d) := by
  constructor
  · cases fuel <;> rfl
  · cases fuel <;> simp [commit]

/-- C8. Empty commit is a no-op: on a compress or a decompress context in any
state, `commit` with a null pointer (whatever the size) or with size 0 returns
true, whatever the fuel, and the context state it leaves is the one it was
given: `begun`, the fill level, the accumulation buffer, the sink and the log
of codec calls are unchanged, so neither `begin` nor the codec ran. -/
theorem commit_empty_is_noop {σ δ : Type} (enc : Compressor σ) (dec : Decompressor δ)
    (fuel : Nat) (c : prv (cnative σ)) (d : prv δ) (size : Nat) :
    Compress.context_update enc fuel c (.null size) = .ok (true, c) ∧
    Compress.context_update enc fuel c (.ptr []) = .ok (true, c) ∧
    Decompress.context_update dec fuel d (.null size) = .ok (true, d) ∧
    Decompress.context_update dec fuel d (.ptr []) = .ok (true, d) :=
  ⟨(commit_noop _ _ fuel c size).1, (commit_noop _ _ fuel c size).2,
   (commit_noop _ _ fuel d size).1, (commit_noop _ _ fuel d size).2⟩

/-- C6. Empty-content scenario, as the code runs it: on an empty source the
loop of the orchestrated compress never runs, `ok` keeps its initial `false`,
`finish` is skipped and nothing (not even a frame header) reaches the sink;
the call returns false when a `progress` was passed and stores through the
null `progress` pointer when none was.  The orchestrated decompress of the
empty output does the same. -/
theorem compress_empty_source_fails {σ δ : Type} (enc : Compressor σ) (dec : Decompressor δ)
    (c0 : cnative σ) (d0 : δ) (elapsed : Nat → Bool) (fuel : Nat) (wt : iwriter)
    (p : progress)
    (pfs : preferences) :
    compress enc c0 elapsed fuel { bytes := [], position := 0 } wt (some p) pfs
      = .ok { ok := false, rd := { bytes := [], position := 0 }, wt := wt,
              pgs := some { p with last_error := "" }, calls := [] } ∧
    compress enc c0 elapsed fuel { bytes := [], position := 0 } wt none pfs
      = .error .nullptr ∧
    decompress dec d0 elapsed fuel { bytes := [], position := 0 } wt (some p)
      = .ok { ok := false, rd := { bytes := [], position := 0 }, wt := wt,
              pgs := some { p with last_error := "" }, calls := [] } ∧
    decompress dec d0 elapsed fuel { bytes := [], position := 0 } wt none
      = .error .nullptr := by
  refine ⟨?_, ?_, ?_, ?_⟩ <;> cases fuel <;> rfl

/-- C1, at length 0. The round trip of `test.cpp` on the empty input does not
complete: the orchestrated compress, called with no `progress`, leaves `ok`
false and stores through the null pointer. -/
theorem roundtrip_empty_faults {σ δ : Type} (enc : Compressor σ) (dec : Decompressor δ)
    (c0 : cnative σ) (d0 : δ) (elapsed : Nat → Bool) (fuel : Nat)
    (defaults : preferences) :
    roundtrip enc dec c0 d0 elapsed fuel defaults [] = .error .nullptr := by
  cases fuel <;> rfl

/-- Helper: on two non-empty inputs, one of them longer than a frame header,
the round trip of `test.cpp` with the stored codec returns true and leaves the
input in the output sink. -/
theorem roundtrip_stored_example :
    (roundtrip Stored.enc Stored.dec raw0 0 never 8 prefs0 [1, 2, 3]).map
        (fun r => (r.ok, r.wt.data)) = .ok (true, [1, 2, 3]) ∧
    (roundtrip Stored.enc Stored.dec raw0 0 never 30 prefs0 (List.replicate 25 7)).map
        (fun r => (r.ok, r.wt.data)) = .ok (true, List.replicate 25 7) := by
  constructor <;> rfl

/-- Helper: a message built by `__error__` is never empty. -/
theorem error_nonempty {κ : Type} (d : prv κ) (msg line : String) :
    (__error__ d msg line).last_error ≠ "" := by
  intro h
  have h2 := congrArg String.length h
  simp [__error__, String.length_append] at h2
  have : "error: ".length = 7 := by decide
  omega

/-- Helper: a failing `begin` makes `commit` return false with `begun` false. -/
theorem commit_begin_fails {κ : Type}
    (begin : prv κ → List Byte → Except Fault (Bool × List Byte × prv κ))
    (update : Nat → prv κ → Except Fault (Bool × prv κ))
    (fuel : Nat) (d d1 : prv κ) (data data1 : List Byte)
    (hne : 0 < data.length) (hb : d.begun = false)
    (hbegin : begin d data = .ok (false, data1, d1)) :
    commit begin update (fuel + 1) d (.ptr data) = .ok (false, { d1 with begun := false }) := by
  have h1 : ¬ data.length < 1 := by omega
  simp [commit, h1, hb, hbegin]

/-- C4 (amended). Failure propagation on a short header: for every non-empty
byte sequence of fewer than `LZ4F_HEADER_SIZE_MAX` bytes, the first commit on
a fresh decompress context returns false, sets a non-empty `last_error`,
leaves the sink as it was, calls the codec not at all and leaves `begun`
false. -/
theorem short_header_fails {δ : Type} (codec : Decompressor δ) (ctx0 : δ) (wt : iwriter)
    (fuel : Nat) (data : List Byte)
    (hne : 0 < data.length) (hshort : data.length < LZ4F_HEADER_SIZE_MAX) :
    ∃ d, Decompress.context_update codec (fuel + 1) (decompress_context ctx0 wt) (.ptr data)
          = .ok (false, d) ∧
      d.last_error ≠ "" ∧ d.wt = wt ∧ d.calls = [] ∧ d.begun = false := by
  refine ⟨{ (__error_ss__ { decompress_context ctx0 wt with
      ss := (decompress_context ctx0 wt).ss ++ "data size must >= \"" ++ "19"
                              ++ "\" when first time calling \"update\"" } "358") with begun := false }, ?_, ?_, ?_, ?_, ?_⟩
  · apply commit_begin_fails _ _ _ _ _ _ data hne rfl
    simp [Decompress.begin, hshort]
  · apply error_nonempty
  · rfl
  · rfl
  · rfl

/-- C4, counterexample. The empty byte sequence has fewer than
`LZ4F_HEADER_SIZE_MAX` bytes, yet the first commit of it on a fresh decompress
context returns true and `last_error` stays empty: the size-0 guard of
`commit` returns before `begin` is tried. -/
theorem empty_commit_example :
    ([] : List Byte).length < LZ4F_HEADER_SIZE_MAX ∧
    Decompress.context_update Stored.dec 1 (decompress_context 0 emptySink) (.ptr [])
      = .ok (true, decompress_context 0 emptySink) ∧
    (decompress_context (0 : Nat) emptySink).last_error = "" ∧
    (decompress_context (0 : Nat) emptySink).wt.data = [] :=
  ⟨by decide, rfl, rfl, rfl⟩

/-- Witness for C4 (amended) on a three-byte input. -/
theorem short_header_fails_witness :
    ∃ d, Decompress.context_update Stored.dec (0 + 1) (decompress_context 0 emptySink)
          (.ptr [1, 2, 3]) = .ok (false, d) ∧
      d.last_error ≠ "" ∧ d.wt = emptySink ∧ d.calls = [] ∧ d.begun = false :=
  short_header_fails Stored.dec 0 emptySink 0 [1, 2, 3] (by decide) (by decide)


/-- C7. Footer validity: whenever `finish()` on a compress context returns
true, the sink holds what it held after the flush `finish()` starts with,
followed by the bytes of the frame end, and these number at least 4. -/
theorem footer_at_least_four {σ : Type} (codec : Compressor σ) (d d1 : prv (cnative σ))
    (h : Compress.context_finish codec d = (true, d1)) :
    ∃ foot, d1.wt.data = (Compress.update codec d).2.wt.data ++ foot ∧ 4 ≤ foot.length := by
  simp only [Compress.context_finish, Compress.finish] at h
  split at h
  · simp at h
  · next ctx out heq =>
    simp only [Prod.mk.injEq, decide_eq_true_eq] at h
    refine ⟨out, ?_, h.1⟩
    rw [← h.2]
    rfl

/-- Witness for C7: `finish()` on a context holding two pending bytes. -/
theorem footer_at_least_four_witness :
    ∃ foot, (Compress.context_finish Stored.enc partlyFilled).2.wt.data
        = (Compress.update Stored.enc partlyFilled).2.wt.data ++ foot ∧ 4 ≤ foot.length :=
  footer_at_least_four Stored.enc partlyFilled _ rfl

/-- C5, at the failing input. A decompress context that holds two pending
bytes and whose codec reports an error on them: the flush inside `finish()`
returns false, and `finish()` returns true. A compress context in the same
situation: the flush returns false, and `finish()` returns true because the
frame end was written. The result of `d->update()` is dropped. -/
theorem finish_hides_update_error :
    (∃ d1 d2,
      Decompress.context_update Broken.dec 1 (decompress_context 0 emptySink)
          (.ptr (Stored.header 5 ++ [1, 2])) = .ok (true, d1) ∧
      d1.cur_buf_in = 2 ∧
      Decompress.update Broken.dec 1 d1 = .ok (false, d2) ∧
      Decompress.context_finish Broken.dec 1 d1 = .ok (true, { d2 with begun := false })) ∧
    (∃ c1,
      Compress.context_update Broken.enc 1 (compress_context raw0 5 emptySink prefs0)
          (.ptr [1, 2]) = .ok (true, c1) ∧
      c1.cur_buf_in = 2 ∧
      (Compress.update Broken.enc c1).1 = false ∧
      (Compress.context_finish Broken.enc c1).1 = true) :=
  ⟨⟨_, _, rfl, rfl, rfl, rfl⟩, ⟨_, rfl, rfl, rfl, rfl⟩⟩

/-! ### Buffer lemmas -/

/-- Helper: an in-bounds `memcpy` keeps the length. -/
theorem memcpy_length (dst : List Byte) (pos : Nat) (src : List Byte)
    (h : pos + src.length ≤ dst.length) : (memcpy dst pos src).length = dst.length := by
  simp [memcpy]
  omega

/-- Helper: copying no bytes changes nothing. -/
theorem memcpy_nil (dst : List Byte) (pos : Nat) : memcpy dst pos [] = dst := by
  simp [memcpy]

/-- Helper: the prefix of the buffer up to the end of the copied bytes. -/
theorem take_memcpy (dst : List Byte) (pos : Nat) (src : List Byte)
    (h : pos + src.length ≤ dst.length) :
    (memcpy dst pos src).take (pos + src.length) = dst.take pos ++ src := by
  have h1 : (dst.take pos ++ src).length = pos + src.length := by
    simp
    omega
  unfold memcpy
  rw [← h1, List.take_left]

/-- Helper: two adjacent copies are one copy. -/
theorem memcpy_memcpy (dst : List Byte) (pos : Nat) (a b : List Byte)
    (h : pos + a.length ≤ dst.length) :
    memcpy (memcpy dst pos a) (pos + a.length) b = memcpy dst pos (a ++ b) := by
  have h1 : (dst.take pos ++ a).length = pos + a.length := by
    simp
    omega
  have h2 : (memcpy dst pos a).drop (pos + a.length + b.length)
      = dst.drop (pos + (a ++ b).length) := by
    unfold memcpy
    rw [← h1, List.drop_append, List.drop_drop, h1]
    congr 1
    simp
    omega
  have h3 := take_memcpy dst pos a h
  show (memcpy dst pos a).take (pos + a.length) ++ b ++ _ = _
  rw [h3, h2]
  simp [memcpy]

/-- Helper: `resize` yields the requested length. -/
theorem resize_length (v : List Byte) (n : Nat) : (resize v n).length = n := by
  simp [resize]
  omega

/-! ### `commit`, unfolded -/

/-- One step of `commit` on a non-null pointer, in terms of its pieces. -/
theorem commit_step {κ : Type}
    (begin : prv κ → List Byte → Except Fault (Bool × List Byte × prv κ))
    (update : Nat → prv κ → Except Fault (Bool × prv κ))
    (fuel : Nat) (d : prv κ) (data : List Byte) :
    commit begin update (fuel + 1) d (.ptr data) =
      if data.length < 1 then .ok (true, d) else
      match enter begin d data with
      | .error f => .error f
      | .ok (b, data1, d1) =>
        if !b then .ok (false, { d1 with begun := b }) else
        if data1.length < 1 then .ok (true, { d1 with begun := b }) else
        if d1.cur_buf_in + data1.length < d1.buf_in.length then
          .ok (true, store { d1 with begun := b } data1)
        else if d1.buf_in.length < d1.cur_buf_in then .error .bounds
        else
          match update fuel (fill { d1 with begun := b } data1) with
          | .error f => .error f
          | .ok (false, d2) => .ok (false, d2)
          | .ok (true, d2) =>
            commit begin update fuel d2
              (.ptr (data1.drop (d1.buf_in.length - d1.cur_buf_in))) := by
  rw [commit]
  rfl

/-! ### Facts about `Compress.update` -/

/-- Helper: `Compress.update` leaves the fill level at 0, on success and on error. -/
theorem Compress.update_cur {σ : Type} (codec : Compressor σ) (d : prv (cnative σ)) :
    (Compress.update codec d).2.cur_buf_in = 0 := by
  unfold Compress.update
  split_ifs with h
  · simp; omega
  · dsimp only
    split <;> simp

/-- Helper: `Compress.update` does not touch the accumulation buffer, `begun`,
the content size or the preferences. -/
theorem Compress.update_frame {σ : Type} (codec : Compressor σ) (d : prv (cnative σ)) :
    (Compress.update codec d).2.buf_in = d.buf_in ∧
    (Compress.update codec d).2.begun = d.begun ∧
    (Compress.update codec d).2.content_size = d.content_size ∧
    (Compress.update codec d).2.native.pfs = d.native.pfs := by
  unfold Compress.update
  split_ifs with h
  · simp
  · dsimp only
    split <;> simp [__error__, prv.log]

/-- Helper: with nothing pending `Compress.update` returns true and the state
it was given. -/
theorem Compress.update_idle {σ : Type} (codec : Compressor σ) (d : prv (cnative σ))
    (h : d.cur_buf_in = 0) : Compress.update codec d = (true, d) := by
  simp [Compress.update, h]

/-! ### `pushAll` -/

/-- Helper: storing no bytes changes nothing. -/
theorem store_nil {κ : Type} (d : prv κ) : store d [] = d := by
  cases d
  simp [store, memcpy_nil]

/-- Helper: two stores in a row are one store. -/
theorem store_store {κ : Type} (d : prv κ) (a b : List Byte)
    (h : d.cur_buf_in + a.length ≤ d.buf_in.length) :
    store (store d a) b = store d (a ++ b) := by
  simp only [store, memcpy_memcpy _ _ _ _ h, List.length_append, Nat.add_assoc]

/-- Helper: a store followed by the fill is the fill. -/
theorem fill_store {κ : Type} (d : prv κ) (x : Byte) (xs : List Byte)
    (h : d.cur_buf_in + 1 < d.buf_in.length) :
    fill (store d [x]) xs = fill d (x :: xs) := by
  have hl : (memcpy d.buf_in d.cur_buf_in [x]).length = d.buf_in.length :=
    memcpy_length _ _ _ (by simp; omega)
  have ht : (x :: xs).take (d.buf_in.length - d.cur_buf_in)
      = [x] ++ xs.take (d.buf_in.length - (d.cur_buf_in + 1)) := by
    rw [show d.buf_in.length - d.cur_buf_in = (d.buf_in.length - (d.cur_buf_in + 1)) + 1 by omega]
    rfl
  have hm := memcpy_memcpy d.buf_in d.cur_buf_in [x]
    (xs.take (d.buf_in.length - (d.cur_buf_in + 1))) (by simp; omega)
  simp only [List.length_singleton] at hm
  simp only [fill, store, hl, ht, List.length_singleton, hm]

/-- Helper: below the capacity `pushAll` is a single store. -/
theorem pushAll_store {κ : Type} (u : prv κ → Bool × prv κ) (data : List Byte) :
    ∀ d : prv κ, d.cur_buf_in + data.length < d.buf_in.length →
      pushAll u data d = (true, store d data) := by
  induction data with
  | nil => intro d _; simp [pushAll, store_nil]
  | cons x xs ih =>
    intro d h
    simp only [List.length_cons] at h
    have h1 : d.cur_buf_in + 1 < d.buf_in.length := by omega
    have hl : (memcpy d.buf_in d.cur_buf_in [x]).length = d.buf_in.length :=
      memcpy_length _ _ _ (by simp; omega)
    rw [pushAll, if_pos h1, ih (store d [x]) (by simp only [store, hl]; simp; omega),
      store_store _ _ _ (by simp; omega)]
    rfl

/-- Helper: when the bytes reach the capacity `pushAll` fills the buffer,
flushes, and goes on with the bytes left. -/
theorem pushAll_fill {κ : Type} (u : prv κ → Bool × prv κ) (data : List Byte) :
    ∀ d : prv κ, d.cur_buf_in < d.buf_in.length →
      d.buf_in.length ≤ d.cur_buf_in + data.length →
      pushAll u data d =
        match u (fill d data) with
        | (false, d2) => (false, d2)
        | (true, d2) => pushAll u (data.drop (d.buf_in.length - d.cur_buf_in)) d2 := by
  induction data with
  | nil => intro d h1 h2; simp at h2; omega
  | cons x xs ih =>
    intro d h1 h2
    simp only [List.length_cons] at h2
    by_cases h : d.cur_buf_in + 1 < d.buf_in.length
    · have hl : (memcpy d.buf_in d.cur_buf_in [x]).length = d.buf_in.length :=
        memcpy_length _ _ _ (by simp; omega)
      have hd : (x :: xs).drop (d.buf_in.length - d.cur_buf_in)
          = xs.drop ((store d [x]).buf_in.length - (store d [x]).cur_buf_in) := by
        simp only [store, hl, List.length_singleton]
        rw [show d.buf_in.length - d.cur_buf_in
          = (d.buf_in.length - (d.cur_buf_in + 1)) + 1 by omega]
        rfl
      rw [pushAll, if_pos h, ih (store d [x]) (by simp only [store, hl]; simp; omega)
        (by simp only [store, hl]; simp; omega), fill_store d x xs h, hd]
    · have he : d.buf_in.length - d.cur_buf_in = 1 := by omega
      have hf : fill d [x] = fill d (x :: xs) := by
        simp [fill, he]
      rw [pushAll, if_neg h, hf, he]
      rfl

/-- Helper: on a begun context the `begin` block of `commit` does nothing. -/
theorem enter_begun {κ : Type}
    (begin : prv κ → List Byte → Except Fault (Bool × List Byte × prv κ))
    (d : prv κ) (data : List Byte) (h : d.begun = true) :
    enter begin d data = .ok (true, data, d) := by
  simp [enter, h]

/-- Helper: writing to `begun` the value it holds changes nothing. -/
theorem set_begun_self {κ : Type} (d : prv κ) (h : d.begun = true) :
    { d with begun := true } = d := by
  cases d
  simp at h
  simp [h]

/-- Helper: on a begun context whose fill level is below its capacity, and
whose `update` needs no fuel, resets the fill level and keeps the buffer and
`begun`, `commit` with more fuel than bytes returns what `pushAll` computes. -/
theorem commit_eq_pushAll {κ : Type}
    (begin : prv κ → List Byte → Except Fault (Bool × List Byte × prv κ))
    (update : Nat → prv κ → Except Fault (Bool × prv κ))
    (u : prv κ → Bool × prv κ)
    (hupd : ∀ f d, update f d = .ok (u d))
    (hcur : ∀ d, (u d).2.cur_buf_in = 0)
    (hbuf : ∀ d, (u d).2.buf_in = d.buf_in)
    (hbegun : ∀ d, (u d).2.begun = d.begun) :
    ∀ (fuel : Nat) (data : List Byte) (d : prv κ), d.begun = true →
      d.cur_buf_in < d.buf_in.length → data.length < fuel →
      commit begin update fuel d (.ptr data) = .ok (pushAll u data d) := by
  intro fuel
  induction fuel with
  | zero => intro data d _ _ h; omega
  | succ f ih =>
    intro data d hb hc hf
    rw [commit_step]
    by_cases h0 : data.length < 1
    · have : data = [] := List.length_eq_zero.mp (by omega)
      subst this
      simp [pushAll]
    · rw [if_neg h0, enter_begun _ _ _ hb]
      simp only [Bool.not_true, Bool.false_eq_true, if_false, if_neg h0, set_begun_self d hb]
      by_cases h1 : d.cur_buf_in + data.length < d.buf_in.length
      · rw [if_pos h1, pushAll_store u data d h1]
      · rw [if_neg h1, if_neg (by omega), hupd, pushAll_fill u data d hc (by omega)]
        have hfl : (fill d data).buf_in.length = d.buf_in.length := by
          simp only [fill]
          apply memcpy_length
          simp
          omega
        rcases hu : u (fill d data) with ⟨b, d2⟩
        have h2c : d2.cur_buf_in = 0 := by have := hcur (fill d data); rw [hu] at this; exact this
        have h2b : d2.buf_in = (fill d data).buf_in := by
          have := hbuf (fill d data); rw [hu] at this; exact this
        have h2g : d2.begun = true := by
          have := hbegun (fill d data); rw [hu] at this; exact this.trans hb
        cases b
        · rfl
        · simp only
          apply ih _ _ h2g
          · rw [h2c, h2b, hfl]; omega
          · simp; omega

/-- Helper: `pushAll` over a concatenation is `pushAll` twice. -/
theorem pushAll_append {κ : Type} (u : prv κ → Bool × prv κ) (a b : List Byte) :
    ∀ d : prv κ, pushAll u (a ++ b) d =
      match pushAll u a d with
      | (false, d1) => (false, d1)
      | (true, d1) => pushAll u b d1 := by
  induction a with
  | nil => intro d; simp [pushAll]
  | cons x xs ih =>
    intro d
    simp only [List.cons_append, pushAll]
    split_ifs with h
    · exact ih _
    · rcases hu : u (fill d [x]) with ⟨b2, d2⟩
      cases b2
      · rfl
      · exact ih _

/-- Helper: `pushAll` keeps `begun` and keeps the fill level below the capacity. -/
theorem pushAll_inv {κ : Type} (u : prv κ → Bool × prv κ)
    (hcur : ∀ d, (u d).2.cur_buf_in = 0)
    (hbuf : ∀ d, (u d).2.buf_in = d.buf_in)
    (hbegun : ∀ d, (u d).2.begun = d.begun) (data : List Byte) :
    ∀ d : prv κ, d.begun = true → d.cur_buf_in < d.buf_in.length →
      (pushAll u data d).2.begun = true ∧
      (pushAll u data d).2.cur_buf_in < (pushAll u data d).2.buf_in.length ∧
      (pushAll u data d).2.buf_in.length = d.buf_in.length := by
  induction data with
  | nil => intro d hb hc; exact ⟨hb, hc, rfl⟩
  | cons x xs ih =>
    intro d hb hc
    simp only [pushAll]
    split_ifs with h
    · have hl : (store d [x]).buf_in.length = d.buf_in.length :=
        memcpy_length _ _ _ (by simp; omega)
      have := ih (store d [x]) hb (by rw [hl]; simp [store]; omega)
      rw [hl] at this
      exact this
    · have hfl : (fill d [x]).buf_in.length = d.buf_in.length := by
        simp only [fill]
        apply memcpy_length
        simp
        omega
      rcases hu : u (fill d [x]) with ⟨b2, d2⟩
      have h2c : d2.cur_buf_in = 0 := by have := hcur (fill d [x]); rw [hu] at this; exact this
      have h2b : d2.buf_in = (fill d [x]).buf_in := by
        have := hbuf (fill d [x]); rw [hu] at this; exact this
      have h2g : d2.begun = true := by
        have := hbegun (fill d [x]); rw [hu] at this; exact this.trans hb
      have h2l : d2.buf_in.length = d.buf_in.length := by rw [h2b, hfl]
      cases b2
      · exact ⟨h2g, by rw [h2c, h2l]; omega, h2l⟩
      · have := ih d2 h2g (by rw [h2c, h2l]; omega)
        rw [h2l] at this
        exact this

/-- Helper: feeding chunks to a begun context is `pushAll` over their
concatenation. -/
theorem feed_eq_pushAll {κ : Type}
    (begin : prv κ → List Byte → Except Fault (Bool × List Byte × prv κ))
    (update : Nat → prv κ → Except Fault (Bool × prv κ))
    (u : prv κ → Bool × prv κ)
    (hupd : ∀ f d, update f d = .ok (u d))
    (hcur : ∀ d, (u d).2.cur_buf_in = 0)
    (hbuf : ∀ d, (u d).2.buf_in = d.buf_in)
    (hbegun : ∀ d, (u d).2.begun = d.begun) (fuel : Nat) (chunks : List (List Byte)) :
    ∀ d : prv κ, d.begun = true → d.cur_buf_in < d.buf_in.length →
      chunks.flatten.length < fuel →
      feed (commit begin update fuel) chunks d = .ok (pushAll u chunks.flatten d) := by
  induction chunks with
  | nil => intro d _ _ _; rfl
  | cons a rest ih =>
    intro d hb hc hf
    simp only [List.flatten_cons, List.length_append] at hf
    rw [feed, commit_eq_pushAll begin update u hupd hcur hbuf hbegun fuel a d hb hc (by omega),
      List.flatten_cons, pushAll_append]
    have hinv := pushAll_inv u hcur hbuf hbegun a d hb hc
    rcases hp : pushAll u a d with ⟨b1, d1⟩
    rw [hp] at hinv
    cases b1
    · rfl
    · exact ih d1 hinv.1 hinv.2.1 (by omega)

/-! ### `Compress.begin` -/

/-- Helper: `Compress.begin` returns its data unchanged and its outcome does
not depend on them. -/
theorem Compress.begin_eq {σ : Type} (codec : Compressor σ) (d : prv (cnative σ))
    (data : List Byte) :
    Compress.begin codec d data
      = .ok ((Compress.begun_of codec d).1, data, (Compress.begun_of codec d).2) := by
  unfold Compress.begun_of Compress.begin
  dsimp only
  split_ifs <;> first | rfl | (split <;> rfl)

/-- Helper: what `Compress.begin` leaves: the fill level, the content size and
the preferences as they were, and a buffer of the capacity for the content
size. -/
theorem Compress.begin_post {σ : Type} (codec : Compressor σ) (d d1 : prv (cnative σ))
    (data data1 : List Byte) (b : Bool)
    (h : Compress.begin codec d data = .ok (b, data1, d1)) :
    d1.cur_buf_in = d.cur_buf_in ∧
    d1.buf_in.length = capacityFor d.content_size ∧
    d1.content_size = d.content_size ∧
    d1.native.pfs = d.native.pfs ∧ d1.begun = d.begun := by
  unfold Compress.begin at h
  dsimp only at h
  unfold capacityFor
  split_ifs at h with h1 h2 h2
  all_goals first
    | (simp only [Except.ok.injEq, Prod.mk.injEq] at h
       obtain ⟨_, _, rfl⟩ := h
       simp [__error__, __error_ss__, prv.log, resize_length, h1])
    | (split at h
       all_goals
         simp only [Except.ok.injEq, Prod.mk.injEq] at h
         obtain ⟨_, _, rfl⟩ := h
         simp [__error__, __error_ss__, prv.log, resize_length, h1])

/-- Helper: `Compress.begin_post` for `Compress.begun_of`. -/
theorem Compress.begin_frame {σ : Type} (codec : Compressor σ) (d : prv (cnative σ)) :
    (Compress.begun_of codec d).2.cur_buf_in = d.cur_buf_in ∧
    (Compress.begun_of codec d).2.buf_in.length = capacityFor d.content_size ∧
    (Compress.begun_of codec d).2.content_size = d.content_size ∧
    (Compress.begun_of codec d).2.native.pfs = d.native.pfs ∧
    (Compress.begun_of codec d).2.begun = d.begun :=
  Compress.begin_post codec d _ [] [] _ (Compress.begin_eq codec d [])

/-- Helper: the first non-empty commit on a context that has not begun runs
`begin`; if that fails the commit returns false, and otherwise it goes on as a
commit on the begun context. -/
theorem Compress.commit_fresh {σ : Type} (codec : Compressor σ) (fuel : Nat)
    (d : prv (cnative σ)) (data : List Byte) (hb : d.begun = false) (hne : 0 < data.length) :
    Compress.context_update codec (fuel + 1) d (.ptr data) =
      if (Compress.begun_of codec d).1 then
        Compress.context_update codec (fuel + 1)
          { (Compress.begun_of codec d).2 with begun := true } (.ptr data)
      else .ok (false, { (Compress.begun_of codec d).2 with begun := false }) := by
  have h0 : ¬ data.length < 1 := by omega
  unfold Compress.context_update
  rw [commit_step]
  simp only [enter, hb, Bool.false_eq_true, if_false, Compress.begin_eq, if_neg h0]
  rcases hbo : Compress.begun_of codec d with ⟨b, d1⟩
  cases b
  · simp
  · simp only [Bool.not_true, Bool.false_eq_true, if_false, if_true, if_neg h0]
    rw [commit_step]
    simp [enter, h0]

/-- Helper: on a begun context of capacity 0 with nothing pending, a non-empty
commit recurses on the same bytes for ever: no fuel is enough. -/
theorem commit_zero_capacity {κ : Type}
    (begin : prv κ → List Byte → Except Fault (Bool × List Byte × prv κ))
    (update : Nat → prv κ → Except Fault (Bool × prv κ))
    (hidle : ∀ f d, d.cur_buf_in = 0 → update f d = .ok (true, d))
    (data : List Byte) (hne : 0 < data.length) (fuel : Nat) :
    ∀ d : prv κ, d.begun = true → d.buf_in = [] → d.cur_buf_in = 0 →
      commit begin update fuel d (.ptr data) = .error .fuel := by
  have h0 : ¬ data.length < 1 := by omega
  induction fuel with
  | zero => intro d _ _ _; simp [commit, h0]
  | succ f ih =>
    intro d hb hbuf hc
    have hfill : fill d data = d := by
      cases d
      simp only at hbuf hc
      simp [fill, hbuf, hc, memcpy]
    rw [commit_step, if_neg h0, enter_begun _ _ _ hb]
    simp only [Bool.not_true, Bool.false_eq_true, if_false, if_neg h0, set_begun_self d hb]
    have hlen : d.buf_in.length = 0 := by rw [hbuf]; rfl
    rw [if_neg (by omega), if_neg (by omega), hfill, hidle f d hc]
    simp only [hlen, hc, Nat.sub_zero, List.drop_zero]
    exact ih d hb hbuf hc

/-- Helper: what feeding chunks to a compress context that has not begun and
holds nothing comes to; it depends on the chunks through their concatenation
only.  No chunk with bytes: nothing happens.  Otherwise `begin` runs once; if
it fails the loop stops; if the capacity is 0 the first non-empty commit never
returns; otherwise the bytes are accumulated as by `pushAll`. -/
theorem Compress.feed_fresh {σ : Type} (codec : Compressor σ) (fuel : Nat)
    (d : prv (cnative σ)) (hb : d.begun = false) (hc : d.cur_buf_in = 0)
    (chunks : List (List Byte)) (hf : chunks.flatten.length < fuel) :
    feed (Compress.context_update codec fuel) chunks d =
      if chunks.flatten = [] then .ok (true, d)
      else if (Compress.begun_of codec d).1 = false then
        .ok (false, { (Compress.begun_of codec d).2 with begun := false })
      else if capacityFor d.content_size = 0 then .error .fuel
      else .ok (pushAll (Compress.update codec) chunks.flatten
                  { (Compress.begun_of codec d).2 with begun := true }) := by
  induction chunks with
  | nil => rfl
  | cons a rest ih =>
    simp only [List.flatten_cons, List.length_append] at hf
    by_cases ha : a = []
    · subst ha
      rw [feed, Compress.context_update, (commit_noop _ _ fuel d 0).2]
      simp only [List.flatten_cons, List.nil_append]
      exact ih (by omega)
    · have hpos : 0 < a.length := List.length_pos.mpr ha
      have hne : ¬ (a :: rest).flatten = [] := by simp [ha]
      obtain ⟨f, rfl⟩ : ∃ f, fuel = f + 1 := ⟨fuel - 1, by omega⟩
      have hfr := Compress.begin_frame codec d
      rw [feed, Compress.commit_fresh codec f d a hb hpos, if_neg hne]
      rcases hbo : Compress.begun_of codec d with ⟨b, d1⟩
      rw [hbo] at hfr
      cases b
      · simp
      · simp only [if_true, Bool.true_eq_false, if_false]
        by_cases hcap : capacityFor d.content_size = 0
        · rw [if_pos hcap, Compress.context_update,
            commit_zero_capacity _ _ (fun f d h => by
              simp [Compress.vupdate, Compress.update_idle codec d h]) a hpos (f + 1) _ rfl
              (List.length_eq_zero.mp (by simp only; rw [hfr.2.1, hcap]))
              (by simp only; rw [hfr.1, hc])]
        · rw [if_neg hcap, Compress.context_update]
          have hb1 : ({ d1 with begun := true } : prv (cnative σ)).begun = true := rfl
          have hc1 : ({ d1 with begun := true } : prv (cnative σ)).cur_buf_in
              < ({ d1 with begun := true } : prv (cnative σ)).buf_in.length := by
            simp only
            rw [hfr.1, hfr.2.1, hc]
            omega
          rw [commit_eq_pushAll _ (Compress.vupdate codec) (Compress.update codec)
            (fun _ _ => rfl) (Compress.update_cur codec)
            (fun d => (Compress.update_frame codec d).1)
            (fun d => (Compress.update_frame codec d).2.1) (f + 1) a _ hb1 hc1 (by omega),
            List.flatten_cons, pushAll_append]
          have hinv := pushAll_inv (Compress.update codec) (Compress.update_cur codec)
            (fun d => (Compress.update_frame codec d).1)
            (fun d => (Compress.update_frame codec d).2.1) a _ hb1 hc1
          rcases hp : pushAll (Compress.update codec) a { d1 with begun := true } with ⟨b2, d2⟩
          rw [hp] at hinv
          cases b2
          · rfl
          · exact feed_eq_pushAll _ (Compress.vupdate codec) (Compress.update codec)
              (fun _ _ => rfl) (Compress.update_cur codec)
              (fun d => (Compress.update_frame codec d).1)
              (fun d => (Compress.update_frame codec d).2.1) (f + 1) rest d2
              hinv.1 hinv.2.1 (by omega)

/-- Helper: a capacity is 0 only for content size 0. -/
theorem capacityFor_pos (n : Nat) (h : 0 < n) : capacityFor n ≠ 0 := by
  unfold capacityFor SZ_BUFFER MB
  split_ifs <;> omega

/-- Helper: chunking independence between two compress contexts whose native
members start out equal, the uninitialised `pfs` storage included (any
content size, preferences, sink and codec, failing or not): two splittings of
the same byte sequence into successive `update` calls followed by `finish()`
come to the same thing, whenever the fuel exceeds the number of bytes: the
same return value and the same final state, hence the same codec calls in the
same order and the same bytes in the sink.  When the content size is positive,
or there are no bytes, the lifecycle does return. -/
theorem chunking_independent {σ : Type} (codec : Compressor σ) (ctx0 : cnative σ)
    (content_size : Nat) (wt : iwriter) (pfs : preferences)
    (cs1 cs2 : List (List Byte)) (fuel : Nat)
    (hsame : cs1.flatten = cs2.flatten) (hfuel : cs1.flatten.length < fuel) :
    cycle codec fuel cs1 (compress_context ctx0 content_size wt pfs)
      = cycle codec fuel cs2 (compress_context ctx0 content_size wt pfs) ∧
    (0 < content_size ∨ cs1.flatten = [] →
      ∃ r, cycle codec fuel cs1 (compress_context ctx0 content_size wt pfs) = .ok r) := by
  have h1 := Compress.feed_fresh codec fuel (compress_context ctx0 content_size wt pfs)
    rfl rfl cs1 hfuel
  have h2 := Compress.feed_fresh codec fuel (compress_context ctx0 content_size wt pfs)
    rfl rfl cs2 (hsame ▸ hfuel)
  constructor
  · unfold cycle
    rw [h1, h2, hsame]
  · intro hpos
    unfold cycle
    rw [h1]
    split_ifs with ha hb hcap
    · exact ⟨_, rfl⟩
    · exact ⟨_, rfl⟩
    · rcases hpos with hpos | hpos
      · exact absurd hcap (capacityFor_pos _ hpos)
      · exact absurd hpos ha
    · rcases pushAll (Compress.update codec) cs1.flatten _ with ⟨b, d2⟩
      cases b <;> exact ⟨_, rfl⟩

/-- Helper: an instance of `chunking_independent`: three one-byte commits
against one commit of capacity + 1 bytes, on a context of capacity 2. -/
theorem chunking_independent_witness :
    cycle Stored.enc 4 [[1], [2], [3]] (compress_context raw0 2 emptySink prefs0)
      = cycle Stored.enc 4 [[1, 2, 3]] (compress_context raw0 2 emptySink prefs0) ∧
    (0 < 2 ∨ [[(1 : Byte)], [2], [3]].flatten = [] →
      ∃ r, cycle Stored.enc 4 [[1], [2], [3]] (compress_context raw0 2 emptySink prefs0)
        = .ok r) :=
  chunking_independent Stored.enc raw0 2 emptySink prefs0 [[1], [2], [3]] [[1, 2, 3]] 4
    (by decide) (by decide)

/-! ### Invariants of `commit` -/

/-- Helper: a property of the context that `begin`, the two buffer writes and
`update` preserve is preserved by `commit`. -/
theorem commit_preserves {κ : Type}
    (begin : prv κ → List Byte → Except Fault (Bool × List Byte × prv κ))
    (update : Nat → prv κ → Except Fault (Bool × prv κ))
    (P : prv κ → Prop)
    (hbegin : ∀ d data b data1 d1, d.begun = false → begin d data = .ok (b, data1, d1) →
      P d → P { d1 with begun := b })
    (hstore : ∀ d data, d.cur_buf_in + data.length < d.buf_in.length → P d → P (store d data))
    (hfill : ∀ d data, d.cur_buf_in ≤ d.buf_in.length →
      d.buf_in.length ≤ d.cur_buf_in + data.length → P d → P (fill d data))
    (hupd : ∀ f d b d1, update f d = .ok (b, d1) → P d → P d1) :
    ∀ (fuel : Nat) (d : prv κ) (data : Data) (b : Bool) (d1 : prv κ),
      commit begin update fuel d data = .ok (b, d1) → P d → P d1 := by
  intro fuel
  induction fuel with
  | zero =>
    intro d data b d1 h hp
    cases data with
    | null n => simp [commit] at h; rw [← h.2]; exact hp
    | ptr bytes =>
      simp only [commit] at h
      split_ifs at h
      simp at h; rw [← h.2]; exact hp
  | succ f ih =>
    intro d data b d1 h hp
    cases data with
    | null n => simp [commit] at h; rw [← h.2]; exact hp
    | ptr bytes =>
      rw [commit_step] at h
      split_ifs at h with h0
      · simp at h; rw [← h.2]; exact hp
      · have hent : ∀ b2 data2 d2, enter begin d bytes = .ok (b2, data2, d2) →
            P { d2 with begun := b2 } := by
          intro b2 data2 d2 he
          unfold enter at he
          split_ifs at he with hbg
          · simp only [Except.ok.injEq, Prod.mk.injEq] at he
            obtain ⟨rfl, _, rfl⟩ := he
            rw [set_begun_self d hbg]
            exact hp
          · exact hbegin d bytes b2 data2 d2 (by simpa using hbg) he hp
        rcases he : enter begin d bytes with f1 | ⟨b2, data2, d2⟩
        · rw [he] at h; simp at h
        · rw [he] at h
          have hp2 := hent b2 data2 d2 he
          simp only at h
          split_ifs at h with hb2 h1 h2 h3
          · simp at h; rw [← h.2]; exact hp2
          · simp at h; rw [← h.2]; exact hp2
          · simp at h; rw [← h.2]; exact hstore _ data2 h2 hp2
          · have hp3 := hfill { d2 with begun := b2 } data2 (by simp only; omega)
              (by simp only; omega) hp2
            rcases hu : update f (fill { d2 with begun := b2 } data2) with f2 | ⟨b3, d3⟩
            · rw [hu] at h; simp at h
            · rw [hu] at h
              have hp4 := hupd f _ b3 d3 hu hp3
              cases b3
              · simp at h; rw [← h.2]; exact hp4
              · exact ih d3 _ b d1 h hp4

/-- Helper: if `begin`, the two buffer writes and `update` take related
contexts to related contexts with the same results, so does `commit`. -/
theorem commit_sim {κ : Type}
    (begin : prv κ → List Byte → Except Fault (Bool × List Byte × prv κ))
    (update : Nat → prv κ → Except Fault (Bool × prv κ))
    (R : prv κ → prv κ → Prop)
    (hR : ∀ x y, R x y → y.begun = x.begun ∧ y.cur_buf_in = x.cur_buf_in ∧
      (x.begun = true → y.buf_in.length = x.buf_in.length))
    (hbegin : ∀ x y data, R x y → x.begun = false →
      match begin x data, begin y data with
      | .ok (b, data1, x1), .ok (c, data2, y1) =>
        b = c ∧ data1 = data2 ∧ R { x1 with begun := b } { y1 with begun := b }
      | .error f, .error g => f = g
      | _, _ => False)
    (hstore : ∀ x y data, R x y → x.begun = true →
      x.cur_buf_in + data.length < x.buf_in.length → R (store x data) (store y data))
    (hfill : ∀ x y data, R x y → x.begun = true → x.cur_buf_in ≤ x.buf_in.length →
      x.buf_in.length ≤ x.cur_buf_in + data.length → R (fill x data) (fill y data))
    (hupd : ∀ f x y, R x y → SameRun R (update f x) (update f y)) :
    ∀ (fuel : Nat) (x y : prv κ) (data : Data), R x y →
      SameRun R (commit begin update fuel x data) (commit begin update fuel y data) := by
  intro fuel
  induction fuel with
  | zero =>
    intro x y data hr
    cases data with
    | null n => simp only [commit, SameRun]; exact ⟨trivial, hr⟩
    | ptr bytes =>
      simp only [commit]
      split_ifs
      · exact ⟨rfl, hr⟩
      · simp [SameRun]
  | succ f ih =>
    intro x y data hr
    cases data with
    | null n => simp only [commit, SameRun]; exact ⟨trivial, hr⟩
    | ptr bytes =>
      rw [commit_step, commit_step]
      split_ifs with h0
      · exact ⟨rfl, hr⟩
      · -- the `begin` block
        have hent : match enter begin x bytes, enter begin y bytes with
            | .ok (b, data1, x1), .ok (c, data2, y1) =>
              b = c ∧ data1 = data2 ∧ R { x1 with begun := b } { y1 with begun := b } ∧
                ({ x1 with begun := b } : prv κ).begun = b
            | .error f, .error g => f = g
            | _, _ => False := by
          unfold enter
          by_cases hb : x.begun = true
          · have hby : y.begun = true := (hR x y hr).1.trans hb
            rw [if_pos hb, if_pos hby]
            refine ⟨rfl, rfl, ?_, rfl⟩
            rw [set_begun_self x hb, set_begun_self y hby]
            exact hr
          · have hbx : x.begun = false := by simpa using hb
            have hby : y.begun = false := (hR x y hr).1.trans hbx
            simp only [hbx, hby, Bool.false_eq_true, if_false]
            have := hbegin x y bytes hr hbx
            rcases h1 : begin x bytes with f1 | ⟨b, data1, x1⟩ <;>
              rcases h2 : begin y bytes with f2 | ⟨c, data2, y1⟩ <;>
              rw [h1, h2] at this <;> simp only at this ⊢
            · exact this
            · exact ⟨this.1, this.2.1, this.2.2, trivial⟩
        rcases h1 : enter begin x bytes with f1 | ⟨b, data1, x1⟩ <;>
          rcases h2 : enter begin y bytes with f2 | ⟨c, data2, y1⟩ <;>
          rw [h1, h2] at hent <;> simp only at hent ⊢
        · exact hent
        · obtain ⟨rfl, rfl, hr1, hbg⟩ := hent
          have hr1' := hR _ _ hr1
          simp only at hr1' hbg
          cases b
          · simp only [Bool.not_false, if_true, SameRun]
            exact ⟨trivial, hr1⟩
          · simp only [Bool.not_true, Bool.false_eq_true, if_false]
            have hlen := hr1'.2.2 rfl
            have hcur := hr1'.2.1
            by_cases h3 : data1.length < 1
            · rw [if_pos h3, if_pos h3]
              exact ⟨rfl, hr1⟩
            · rw [if_neg h3, if_neg h3]
              by_cases h4 : x1.cur_buf_in + data1.length < x1.buf_in.length
              · have h4y : y1.cur_buf_in + data1.length < y1.buf_in.length := by omega
                rw [if_pos h4, if_pos h4y]
                exact ⟨rfl, hstore _ _ data1 hr1 rfl h4⟩
              · have h4y : ¬ y1.cur_buf_in + data1.length < y1.buf_in.length := by omega
                rw [if_neg h4, if_neg h4y]
                by_cases h5 : x1.buf_in.length < x1.cur_buf_in
                · have h5y : y1.buf_in.length < y1.cur_buf_in := by omega
                  rw [if_pos h5, if_pos h5y]
                  rfl
                · have h5y : ¬ y1.buf_in.length < y1.cur_buf_in := by omega
                  rw [if_neg h5, if_neg h5y]
                  have hr2 := hfill _ _ data1 hr1 rfl (by simp only; omega)
                    (by simp only; omega)
                  have hu := hupd f _ _ hr2
                  have hd : y1.buf_in.length - y1.cur_buf_in
                      = x1.buf_in.length - x1.cur_buf_in := by omega
                  rw [hd]
                  rcases h5 : update f (fill { x1 with begun := true } data1)
                    with f3 | ⟨b3, x3⟩ <;>
                    rcases h6 : update f (fill { y1 with begun := true } data1)
                      with f4 | ⟨c3, y3⟩ <;>
                    rw [h5, h6] at hu <;> simp only [SameRun] at hu ⊢
                  · exact hu
                  · obtain ⟨rfl, hr3⟩ := hu
                    cases b3
                    · exact ⟨rfl, hr3⟩
                    · exact ih x3 y3 _ hr3

/-- Helper: feeding the same chunks to related contexts ends alike. -/
theorem feed_sim {κ : Type} (upd : prv κ → Data → Except Fault (Bool × prv κ))
    (R : prv κ → prv κ → Prop)
    (hupd : ∀ x y data, R x y → SameRun R (upd x data) (upd y data))
    (chunks : List (List Byte)) :
    ∀ x y, R x y → SameRun R (feed upd chunks x) (feed upd chunks y) := by
  induction chunks with
  | nil => intro x y hr; exact ⟨rfl, hr⟩
  | cons a rest ih =>
    intro x y hr
    have h := hupd x y (.ptr a) hr
    simp only [feed]
    rcases h1 : upd x (.ptr a) with f1 | ⟨b, x1⟩ <;>
      rcases h2 : upd y (.ptr a) with f2 | ⟨c, y1⟩ <;>
      rw [h1, h2] at h <;> simp only [SameRun] at h ⊢
    · exact h
    · obtain ⟨rfl, hr1⟩ := h
      cases b
      · exact ⟨rfl, hr1⟩
      · exact ih x1 y1 hr1

/-! ### Compress contexts that behave alike -/

/-- Helper: `Compress.begin` on contexts that are alike and have not begun. -/
theorem Alike.begin_sim {σ : Type} (codec : Compressor σ) {wx wy : List Byte}
    {c : List Call} {s : Nat} {x y : prv (cnative σ)} (h : Alike wx wy c s x y)
    (hb : x.begun = false) :
    (Compress.begun_of codec y).1 = (Compress.begun_of codec x).1 ∧
    ∀ b, Alike wx wy c s { (Compress.begun_of codec x).2 with begun := b }
      { (Compress.begun_of codec y).2 with begun := b } := by
  obtain ⟨o, hox, hoy⟩ := h.sink
  have hc0 := h.idle hb
  have hcy : y.cur_buf_in = 0 := h.cur.trans hc0
  unfold Compress.begun_of Compress.begin
  simp only [h.content_size, h.native, prv.log]
  split_ifs with h1 h2 h2
  all_goals first
    | (refine ⟨rfl, fun b => ?_⟩
       constructor <;>
         simp [__error__, __error_ss__, resize_length, hc0, hcy, h.calls, h.out,
           iwriter.reserve, iwriter.write, hox, hoy])
    | (rcases hcb : codec.LZ4F_compressBegin x.native.ctx
          (codec.LZ4F_compressBound 0 x.native.pfs) x.native.pfs with ⟨ctx, name | header⟩
       all_goals
         refine ⟨rfl, fun b => ?_⟩
         constructor <;>
           simp [__error__, __error_ss__, resize_length, hc0, hcy, h.calls, h.out,
             iwriter.reserve, iwriter.write, hox, hoy])

/-- Helper: a store on begun contexts that are alike. -/
theorem Alike.store_sim {σ : Type} {wx wy : List Byte} {c : List Call} {s : Nat}
    {x y : prv (cnative σ)} (h : Alike wx wy c s x y) (data : List Byte)
    (hb : x.begun = true) (hfit : x.cur_buf_in + data.length < x.buf_in.length) :
    Alike wx wy c s (store x data) (store y data) := by
  have hlen := h.cap hb
  have hcur := h.cur
  constructor
  · exact h.begun
  · exact h.content_size
  · exact h.native
  · simp only [store]; omega
  · intro hf; rw [show (store x data).begun = x.begun from rfl, hb] at hf; simp at hf
  · intro _
    simp only [store]
    rw [memcpy_length _ _ _ (by omega), memcpy_length _ _ _ (by omega)]
    exact hlen
  · simp only [store]
    rw [take_memcpy _ _ _ (by omega), take_memcpy _ _ _ (by omega), h.pending]
  · exact h.sink
  · exact h.calls
  · exact h.out

/-- Helper: a fill on begun contexts that are alike. -/
theorem Alike.fill_sim {σ : Type} {wx wy : List Byte} {c : List Call} {s : Nat}
    {x y : prv (cnative σ)} (h : Alike wx wy c s x y) (data : List Byte)
    (hb : x.begun = true) (h1 : x.cur_buf_in ≤ x.buf_in.length)
    (h2 : x.buf_in.length ≤ x.cur_buf_in + data.length) :
    Alike wx wy c s (fill x data) (fill y data) := by
  have hlen := h.cap hb
  have hcur := h.cur
  have htl : (data.take (x.buf_in.length - x.cur_buf_in)).length
      = x.buf_in.length - x.cur_buf_in := by
    simp; omega
  have hx : (fill x data).buf_in.take (fill x data).cur_buf_in
      = x.buf_in.take x.cur_buf_in ++ data.take (x.buf_in.length - x.cur_buf_in) := by
    have := take_memcpy x.buf_in x.cur_buf_in (data.take (x.buf_in.length - x.cur_buf_in))
      (by omega)
    rw [htl, show x.cur_buf_in + (x.buf_in.length - x.cur_buf_in) = x.buf_in.length by omega]
      at this
    exact this
  have hy : (fill y data).buf_in.take (fill y data).cur_buf_in
      = y.buf_in.take y.cur_buf_in ++ data.take (x.buf_in.length - x.cur_buf_in) := by
    have := take_memcpy y.buf_in y.cur_buf_in (data.take (x.buf_in.length - x.cur_buf_in))
      (by omega)
    rw [htl, show y.cur_buf_in + (x.buf_in.length - x.cur_buf_in) = y.buf_in.length by omega]
      at this
    simp only [fill]
    rw [hlen, hcur]
    rw [hlen, hcur] at this
    exact this
  constructor
  · exact h.begun
  · exact h.content_size
  · exact h.native
  · exact hlen
  · intro hf; rw [show (fill x data).begun = x.begun from rfl, hb] at hf; simp at hf
  · intro _
    simp only [fill]
    rw [memcpy_length _ _ _ (by simp; omega), memcpy_length _ _ _ (by simp; omega)]
    exact hlen
  · rw [hx, hy, h.pending]
  · exact h.sink
  · exact h.calls
  · exact h.out

/-- Helper: `Compress.update` on contexts that are alike. -/
theorem Alike.update_sim {σ : Type} (codec : Compressor σ) {wx wy : List Byte}
    {c : List Call} {s : Nat} {x y : prv (cnative σ)} (h : Alike wx wy c s x y) :
    (Compress.update codec y).1 = (Compress.update codec x).1 ∧
    Alike wx wy c s (Compress.update codec x).2 (Compress.update codec y).2 := by
  obtain ⟨o, hox, hoy⟩ := h.sink
  unfold Compress.update
  simp only [h.cur, h.native, h.pending, prv.log]
  split_ifs with h1
  · exact ⟨rfl, h⟩
  · have hp := h.pending
    rw [h.cur] at hp
    simp only [hp]
    rcases hcu : codec.LZ4F_compressUpdate x.native.ctx
        (codec.LZ4F_compressBound x.cur_buf_in x.native.pfs)
        (List.take x.cur_buf_in x.buf_in) with ⟨ctx, name | out⟩
    all_goals
      refine ⟨rfl, ?_⟩
      constructor <;>
        simp [__error__, h.begun, h.content_size, h.calls, iwriter.write, hox, hoy]
    all_goals exact h.cap

/-- Helper: `commit_preserves` with a second property `Q`, established
whenever `begin` or `update` fails, for the states `commit` returns false
with. -/
theorem commit_post {κ : Type}
    (begin : prv κ → List Byte → Except Fault (Bool × List Byte × prv κ))
    (update : Nat → prv κ → Except Fault (Bool × prv κ))
    (P Q : prv κ → Prop)
    (hbegin : ∀ d data b data1 d1, d.begun = false → begin d data = .ok (b, data1, d1) →
      P d → P { d1 with begun := b } ∧ (b = false → Q { d1 with begun := b }))
    (hstore : ∀ d data, d.begun = true → d.cur_buf_in + data.length < d.buf_in.length →
      P d → P (store d data))
    (hfill : ∀ d data, d.begun = true → d.cur_buf_in ≤ d.buf_in.length →
      d.buf_in.length ≤ d.cur_buf_in + data.length → P d → P (fill d data))
    (hupd : ∀ f d b d1, update f d = .ok (b, d1) → P d → P d1 ∧ (b = false → Q d1)) :
    ∀ (fuel : Nat) (d : prv κ) (data : Data) (b : Bool) (d1 : prv κ),
      commit begin update fuel d data = .ok (b, d1) → P d → P d1 ∧ (b = false → Q d1) := by
  intro fuel
  induction fuel with
  | zero =>
    intro d data b d1 h hp
    cases data with
    | null n =>
      simp [commit] at h
      obtain ⟨rfl, rfl⟩ := h
      exact ⟨hp, by simp⟩
    | ptr bytes =>
      simp only [commit] at h
      split_ifs at h
      simp at h
      obtain ⟨rfl, rfl⟩ := h
      exact ⟨hp, by simp⟩
  | succ f ih =>
    intro d data b d1 h hp
    cases data with
    | null n =>
      simp [commit] at h
      obtain ⟨rfl, rfl⟩ := h
      exact ⟨hp, by simp⟩
    | ptr bytes =>
      rw [commit_step] at h
      split_ifs at h with h0
      · simp at h
        obtain ⟨rfl, rfl⟩ := h
        exact ⟨hp, by simp⟩
      · have hent : ∀ b2 data2 d2, enter begin d bytes = .ok (b2, data2, d2) →
            P { d2 with begun := b2 } ∧ (b2 = false → Q { d2 with begun := b2 }) := by
          intro b2 data2 d2 he
          unfold enter at he
          split_ifs at he with hbg
          · simp only [Except.ok.injEq, Prod.mk.injEq] at he
            obtain ⟨rfl, _, rfl⟩ := he
            rw [set_begun_self d hbg]
            exact ⟨hp, by simp⟩
          · exact hbegin d bytes b2 data2 d2 (by simpa using hbg) he hp
        rcases he : enter begin d bytes with f1 | ⟨b2, data2, d2⟩
        · rw [he] at h; simp at h
        · rw [he] at h
          have hp2 := hent b2 data2 d2 he
          simp only at h
          split_ifs at h with hb2 h1 h2 h3
          · simp at h
            obtain ⟨rfl, rfl⟩ := h
            exact ⟨hp2.1, fun _ => hp2.2 (by simpa using hb2)⟩
          · simp at h
            obtain ⟨rfl, rfl⟩ := h
            exact ⟨hp2.1, by simp⟩
          · simp at h
            obtain ⟨rfl, rfl⟩ := h
            exact ⟨hstore _ data2 (by simpa using hb2) h2 hp2.1, by simp⟩
          · have hp3 := hfill { d2 with begun := b2 } data2 (by simpa using hb2)
              (by simp only; omega) (by simp only; omega) hp2.1
            rcases hu : update f (fill { d2 with begun := b2 } data2) with f2 | ⟨b3, d3⟩
            · rw [hu] at h; simp at h
            · rw [hu] at h
              have hp4 := hupd f _ b3 d3 hu hp3
              cases b3
              · simp at h
                obtain ⟨rfl, rfl⟩ := h
                exact ⟨hp4.1, fun _ => hp4.2 rfl⟩
              · exact ih d3 _ b d1 h hp4.1

/-- Helper: `commit_post` along a `feed`. -/
theorem feed_post {κ : Type} (upd : prv κ → Data → Except Fault (Bool × prv κ))
    (P Q : prv κ → Prop)
    (hupd : ∀ d data b d1, upd d data = .ok (b, d1) → P d → P d1 ∧ (b = false → Q d1))
    (chunks : List (List Byte)) :
    ∀ (d : prv κ) (b : Bool) (d1 : prv κ),
      feed upd chunks d = .ok (b, d1) → P d → P d1 ∧ (b = false → Q d1) := by
  induction chunks with
  | nil =>
    intro d b d1 h hp
    simp [feed] at h
    obtain ⟨rfl, rfl⟩ := h
    exact ⟨hp, by simp⟩
  | cons a rest ih =>
    intro d b d1 h hp
    simp only [feed] at h
    rcases hu : upd d (.ptr a) with f | ⟨b2, d2⟩
    · rw [hu] at h; simp at h
    · rw [hu] at h
      have h2 := hupd d _ b2 d2 hu hp
      cases b2
      · simp at h
        obtain ⟨rfl, rfl⟩ := h
        exact ⟨h2.1, fun _ => h2.2 rfl⟩
      · exact ih d2 b d1 h h2.1

/-- Helper: along a feed, a compress context keeps its content size and its
preferences, holds nothing while it has not begun, and holds nothing after a
commit that returned false. -/
theorem Compress.feed_frame {σ : Type} (codec : Compressor σ) (fuel : Nat)
    (chunks : List (List Byte)) (d d1 : prv (cnative σ)) (b : Bool)
    (h : feed (Compress.context_update codec fuel) chunks d = .ok (b, d1))
    (hidle : d.begun = false → d.cur_buf_in = 0) :
    ((d1.begun = false → d1.cur_buf_in = 0) ∧ d1.content_size = d.content_size ∧
      d1.native.pfs = d.native.pfs) ∧ (b = false → d1.cur_buf_in = 0) := by
  refine feed_post (Compress.context_update codec fuel)
    (fun x => (x.begun = false → x.cur_buf_in = 0) ∧ x.content_size = d.content_size ∧
      x.native.pfs = d.native.pfs)
    (fun x => x.cur_buf_in = 0) ?_ chunks d b d1 h ⟨hidle, rfl, rfl⟩
  intro x data b2 x1 hx hp
  refine commit_post (Compress.begin codec) (Compress.vupdate codec)
    (fun x => (x.begun = false → x.cur_buf_in = 0) ∧ x.content_size = d.content_size ∧
      x.native.pfs = d.native.pfs)
    (fun x => x.cur_buf_in = 0) ?_ ?_ ?_ ?_ fuel x data b2 x1 hx hp
  · intro y data2 b3 data3 y1 hyb hbeg hpy
    have hpost := Compress.begin_post codec y y1 data2 data3 b3 hbeg
    have hc0 : y1.cur_buf_in = 0 := hpost.1.trans (hpy.1 hyb)
    exact ⟨⟨fun _ => hc0, hpost.2.2.1.trans hpy.2.1, hpost.2.2.2.1.trans hpy.2.2⟩,
      fun _ => hc0⟩
  · intro y data2 hbn hfit hpy
    exact ⟨fun hf => by rw [show (store y data2).begun = y.begun from rfl, hbn] at hf; simp at hf,
      hpy.2.1, hpy.2.2⟩
  · intro y data2 hbn h1 h2 hpy
    exact ⟨fun hf => by rw [show (fill y data2).begun = y.begun from rfl, hbn] at hf; simp at hf,
      hpy.2.1, hpy.2.2⟩
  · intro f y b3 y1 hu hpy
    simp only [Compress.vupdate, Except.ok.injEq] at hu
    have hf := Compress.update_frame codec y
    have hc := Compress.update_cur codec y
    rw [hu] at hf hc
    exact ⟨⟨fun _ => hc, hf.2.2.1.trans hpy.2.1, hf.2.2.2.trans hpy.2.2⟩, fun _ => hc⟩

/-- Helper: `Compress.finish` keeps the fill level, the content size, the
preferences and the size of the output buffer, and clears `begun`. -/
theorem Compress.finish_frame {σ : Type} (codec : Compressor σ) (d : prv (cnative σ)) :
    (Compress.finish codec d).2.cur_buf_in = d.cur_buf_in ∧
    (Compress.finish codec d).2.content_size = d.content_size ∧
    (Compress.finish codec d).2.native.pfs = d.native.pfs ∧
    (Compress.finish codec d).2.buf_out_size = d.buf_out_size ∧
    (Compress.finish codec d).2.begun = false := by
  unfold Compress.finish
  dsimp only
  split <;> simp [__error__, __error_ss__, prv.log]

/-- Helper: `Compress.finish` on contexts that are alike and hold nothing, when
the first has the output buffer size it ends its lifecycle with. -/
theorem Alike.finish_sim {σ : Type} (codec : Compressor σ) {wx wy : List Byte}
    {c : List Call} {s : Nat} {x y : prv (cnative σ)} (h : Alike wx wy c s x y)
    (hs : x.buf_out_size = s) (hc : x.cur_buf_in = 0) :
    (Compress.finish codec y).1 = (Compress.finish codec x).1 ∧
    Alike wx wy c s (Compress.finish codec x).2 (Compress.finish codec y).2 := by
  obtain ⟨o, hox, hoy⟩ := h.sink
  have hsz : y.buf_out_size = x.buf_out_size := by
    rcases h.out with h1 | ⟨_, h2⟩
    · exact h1
    · rw [h2, hs]
  have hcy : y.cur_buf_in = 0 := h.cur.trans hc
  unfold Compress.finish
  simp only [h.native, hsz, prv.log]
  rcases hce : codec.LZ4F_compressEnd x.native.ctx x.buf_out_size with ⟨ctx, name | out⟩
  all_goals
    refine ⟨rfl, ?_⟩
    constructor <;>
      simp [__error__, __error_ss__, h.content_size, h.calls, iwriter.write, hox, hoy, hc,
        hcy, hsz]

/-- Helper: the same commit on compress contexts that are alike ends alike. -/
theorem Alike.commit_alike {σ : Type} (codec : Compressor σ) {wx wy : List Byte}
    {c : List Call} {s : Nat} (fuel : Nat) (x y : prv (cnative σ)) (data : Data)
    (h : Alike wx wy c s x y) :
    SameRun (Alike wx wy c s) (Compress.context_update codec fuel x data)
      (Compress.context_update codec fuel y data) := by
  refine commit_sim (Compress.begin codec) (Compress.vupdate codec)
    (Alike wx wy c s) ?_ ?_ ?_ ?_ ?_ fuel x y data h
  · intro x y hr
    exact ⟨hr.begun, hr.cur, hr.cap⟩
  · intro x y data hr hb
    rw [Compress.begin_eq, Compress.begin_eq]
    have := Alike.begin_sim codec hr hb
    exact ⟨this.1.symm, rfl, this.2 _⟩
  · intro x y data hr hb hfit
    exact hr.store_sim data hb hfit
  · intro x y data hr hb h1 h2
    exact hr.fill_sim data hb h1 h2
  · intro f x y hr
    have := Alike.update_sim codec hr
    simp only [Compress.vupdate, SameRun]
    exact ⟨this.1.symm, this.2⟩

/-- Helper: a reset context against its own first lifecycle.  Let a fresh
compress context run a lifecycle (the `update` calls of a chunk list, then
`finish()`) that returns, and let the codec's native state after it be the
state it started from.  After `reset()` the context has `begun` false and fill
level 0, and the same lifecycle run again returns the same value, makes the
same codec calls in the same order (the log is the first log twice) and
appends to the sink the very bytes the first lifecycle wrote. -/
theorem reset_then_same_cycle {σ : Type} (codec : Compressor σ) (ctx0 : cnative σ)
    (content_size : Nat) (wt : iwriter) (pfs : preferences) (fuel : Nat)
    (chunks : List (List Byte)) (ok1 : Bool) (d1 : prv (cnative σ))
    (hrun : cycle codec fuel chunks (compress_context ctx0 content_size wt pfs)
      = .ok (ok1, d1))
    (hctx : d1.native.ctx = ctx0.ctx) :
    (reset d1).begun = false ∧ (reset d1).cur_buf_in = 0 ∧
    ∃ d2 out, cycle codec fuel chunks (reset d1) = .ok (ok1, d2) ∧
      d1.wt.data = wt.data ++ out ∧ d2.wt.data = d1.wt.data ++ out ∧
      d2.calls = d1.calls ++ d1.calls := by
  unfold cycle at hrun
  rcases hf : feed (Compress.context_update codec fuel) chunks
      (compress_context ctx0 content_size wt pfs) with f | ⟨bf, xf⟩
  · rw [hf] at hrun; simp at hrun
  rw [hf] at hrun
  have hfr := Compress.feed_frame codec fuel chunks _ xf bf hf (fun _ => rfl)
  -- what the first lifecycle leaves
  have hd1 : d1.cur_buf_in = 0 ∧ d1.content_size = content_size ∧
      d1.native.pfs = cast_preferences pfs content_size ctx0.pfs ∧
      (bf = true → d1.buf_out_size = (Compress.update codec xf).2.buf_out_size) := by
    cases bf
    · simp only [Except.ok.injEq, Prod.mk.injEq] at hrun
      obtain ⟨_, rfl⟩ := hrun
      exact ⟨hfr.2 rfl, hfr.1.2.1, hfr.1.2.2, by simp⟩
    · simp only [Except.ok.injEq, Compress.context_finish] at hrun
      have hfin := Compress.finish_frame codec (Compress.update codec xf).2
      have hupd := Compress.update_frame codec xf
      rw [hrun] at hfin
      simp only at hfin
      exact ⟨hfin.1.trans (Compress.update_cur codec xf),
        hfin.2.1.trans (hupd.2.2.1.trans hfr.1.2.1),
        hfin.2.2.1.trans (hupd.2.2.2.trans hfr.1.2.2), fun _ => hfin.2.2.2.1⟩
  have hnat : d1.native = (compress_context ctx0 content_size wt pfs).native := by
    rcases hn : d1.native with ⟨ctx, p⟩
    rw [hn] at hctx
    have hp := hd1.2.2.1
    rw [hn] at hp
    simp only at hctx hp
    rw [hctx, hp]
    rfl
  have halike : Alike wt.data d1.wt.data d1.calls d1.buf_out_size
      (compress_context ctx0 content_size wt pfs) (reset d1) := by
    constructor
    · rfl
    · exact hd1.2.1
    · exact hnat
    · exact hd1.1
    · intro _; rfl
    · intro h; simp [compress_context] at h
    · show List.take d1.cur_buf_in d1.buf_in = _
      rw [hd1.1]; rfl
    · exact ⟨[], by simp [compress_context], by simp [reset]⟩
    · simp [reset, compress_context]
    · right; exact ⟨rfl, rfl⟩
  refine ⟨rfl, hd1.1, ?_⟩
  have hsim := feed_sim (Compress.context_update codec fuel)
    (Alike wt.data d1.wt.data d1.calls d1.buf_out_size)
    (fun x y data hr => Alike.commit_alike codec fuel x y data hr) chunks _ _ halike
  rw [hf] at hsim
  rcases hf2 : feed (Compress.context_update codec fuel) chunks (reset d1) with g | ⟨bg, yf⟩
  · rw [hf2] at hsim; simp [SameRun] at hsim
  rw [hf2] at hsim
  simp only [SameRun] at hsim
  obtain ⟨rfl, hal⟩ := hsim
  unfold cycle
  rw [hf2]
  cases bf
  · simp only [Except.ok.injEq, Prod.mk.injEq] at hrun
    obtain ⟨rfl, rfl⟩ := hrun
    obtain ⟨o, ho1, ho2⟩ := hal.sink
    exact ⟨yf, o, rfl, ho1, ho2, hal.calls⟩
  · simp only [Except.ok.injEq] at hrun
    have hu := Alike.update_sim codec hal
    have hfin := Alike.finish_sim codec hu.2 (hd1.2.2.2 rfl).symm (Compress.update_cur codec xf)
    have hx : Compress.context_finish codec xf = (ok1, d1) := hrun
    simp only [Compress.context_finish] at hx ⊢
    rw [hx] at hfin
    obtain ⟨o, ho1, ho2⟩ := hfin.2.sink
    have h1 : (Compress.finish codec (Compress.update codec yf).2).1 = ok1 := hfin.1
    refine ⟨(Compress.finish codec (Compress.update codec yf).2).2, o, ?_, ho1, ho2,
      hfin.2.calls⟩
    rw [← h1]

/-- Helper: an instance of `reset_then_same_cycle`: the lifecycle `[1]`,
`[2, 3]`, `finish()` on a context for 2 bytes, run, reset and run again. -/
theorem reset_then_same_cycle_witness :
    (reset firstRun).begun = false ∧ (reset firstRun).cur_buf_in = 0 ∧
    ∃ d2 out, cycle Stored.enc 4 [[1], [2, 3]] (reset firstRun) = .ok (true, d2) ∧
      firstRun.wt.data = emptySink.data ++ out ∧ d2.wt.data = firstRun.wt.data ++ out ∧
      d2.calls = firstRun.calls ++ firstRun.calls :=
  reset_then_same_cycle Stored.enc raw0 2 emptySink prefs0 4 [[1], [2, 3]] true firstRun rfl rfl

/-! ### The orchestration loop as a feed of chunks -/

/-- Helper: the chunks are non-empty, at most `bs` long, and together they are
the bytes, the iterations being at least as many as the bytes. -/
theorem chunks_flatten (bs : Nat) (hbs : 0 < bs) (n : Nat) :
    ∀ l : List Byte, l.length ≤ n → (chunks bs n l).flatten = l := by
  induction n with
  | zero =>
    intro l h
    have : l = [] := List.length_eq_zero.mp (by omega)
    subst this
    rfl
  | succ n ih =>
    intro l h
    simp only [chunks]
    split_ifs with h0
    · have : l = [] := by
        rcases List.take_eq_nil_iff.mp h0 with h1 | h1
        · omega
        · exact h1
      subst this
      rfl
    · have hl : l ≠ [] := by
        intro hn
        subst hn
        simp at h0
      have hlen : 0 < l.length := List.length_pos.mpr hl
      rw [List.flatten_cons, ih (l.drop bs) (by simp; omega), List.take_append_drop]

/-- Helper: the bytes left after a read of at most `bs` bytes. -/
theorem drop_read (l : List Byte) (p bs : Nat) :
    l.drop (p + ((l.drop p).take bs).length) = (l.drop p).drop bs := by
  rw [List.drop_drop]
  simp only [List.length_take, List.length_drop]
  by_cases h : bs ≤ l.length - p
  · rw [Nat.min_eq_left h, Nat.add_comm]
  · rw [Nat.min_eq_right (by omega), List.drop_eq_nil_of_le (by omega),
      List.drop_eq_nil_of_le (by omega)]

/-- Helper: with no `progress`, the orchestration loop over a source is the
feed of its chunks: same faults, same return value and context state, and
`ok` keeps its initial value exactly when there is no chunk. -/
theorem pump_eq_feed {κ : Type} (upd : prv κ → Data → Except Fault (Bool × prv κ))
    (elapsed : Nat → Bool) (total bs : Nat) (n : Nat) :
    ∀ (i : Nat) (rd : ireader) (d : prv κ) (current : Nat) (ok : Bool),
      (rd.bytes.drop rd.position).length ≤ n →
      match feed upd (chunks bs n (rd.bytes.drop rd.position)) d with
      | .error f => pump upd elapsed total bs n i rd d none current ok = .error f
      | .ok (b, d1) =>
        ∃ rd1, pump upd elapsed total bs n i rd d none current ok
          = .ok (if chunks bs n (rd.bytes.drop rd.position) = [] then ok else b,
                 rd1, d1, none) := by
  induction n with
  | zero =>
    intro i rd d current ok h
    have hnil : rd.bytes.drop rd.position = [] := List.length_eq_zero.mp (by omega)
    simp only [chunks, feed, pump, ireader.read, hnil, List.take_nil, List.length_nil,
      Nat.lt_irrefl, if_false, if_true]
    exact ⟨_, rfl⟩
  | succ n ih =>
    intro i rd d current ok h
    simp only [chunks, pump, ireader.read]
    by_cases h0 : (rd.bytes.drop rd.position).take bs = []
    · simp only [h0, if_true, feed, List.length_nil, Nat.lt_irrefl, if_false]
      exact ⟨_, rfl⟩
    · have hpos : 0 < ((rd.bytes.drop rd.position).take bs).length := List.length_pos.mpr h0
      have hne : rd.bytes.drop rd.position ≠ [] := by
        intro hn
        rw [hn] at h0
        simp at h0
      have hlen : 0 < (rd.bytes.drop rd.position).length := List.length_pos.mpr hne
      have hbs : 0 < bs := by
        rcases Nat.eq_zero_or_pos bs with hz | hz
        · rw [hz] at h0; simp at h0
        · exact hz
      simp only [h0, if_false, feed, hpos, if_true]
      rcases hu : upd d (.ptr ((rd.bytes.drop rd.position).take bs)) with f | ⟨b, d2⟩
      · rfl
      · cases b
        · exact ⟨_, rfl⟩
        · simp only [Option.map_none', List.cons_ne_nil, if_false, ite_self]
          have hi := ih (i + 1)
            { rd with position := rd.position + ((rd.bytes.drop rd.position).take bs).length }
            d2
            (if current + ((rd.bytes.drop rd.position).take bs).length > total then total
              else current + ((rd.bytes.drop rd.position).take bs).length)
            true
            (by simp only [drop_read]; simp only [List.length_drop] at hlen h ⊢; omega)
          simp only [drop_read] at hi
          rcases hfe : feed upd (chunks bs n ((rd.bytes.drop rd.position).drop bs)) d2
            with f | ⟨b, d1⟩
          · rw [hfe] at hi
            exact hi
          · rw [hfe] at hi
            obtain ⟨rd1, hrd1⟩ := hi
            refine ⟨rd1, ?_⟩
            rw [hrd1]
            by_cases hc : chunks bs n ((rd.bytes.drop rd.position).drop bs) = []
            · rw [if_pos hc]
              rw [hc] at hfe
              simp only [feed, Except.ok.injEq, Prod.mk.injEq] at hfe
              rw [← hfe.1]
            · rw [if_neg hc]

/-! ### The compress side returns -/

/-- Helper: `Compress.begin` succeeds when the bound reaches the minimal header
size and the codec composes the header. -/
theorem Compress.begun_of_ok {σ : Type} (codec : Compressor σ) (d : prv (cnative σ))
    (hbound : LZ4F_HEADER_SIZE_MIN ≤ codec.LZ4F_compressBound d.content_size d.native.pfs)
    (hbegin : ∀ c cap p, ∃ c1 out, codec.LZ4F_compressBegin c cap p = (c1, .ok out)) :
    (Compress.begun_of codec d).1 = true := by
  unfold Compress.begun_of Compress.begin
  have hb : ¬ codec.LZ4F_compressBound d.content_size d.native.pfs < LZ4F_HEADER_SIZE_MIN := by
    omega
  obtain ⟨c1, out, ho⟩ := hbegin d.native.ctx (codec.LZ4F_compressBound 0 d.native.pfs)
    d.native.pfs
  split_ifs with h1 <;> simp [prv.log, hb, ho]

/-- Helper: `Compress.update` returns true when the codec's update does not fail. -/
theorem Compress.update_ok {σ : Type} (codec : Compressor σ)
    (hupdate : ∀ c cap src, ∃ c1 out, codec.LZ4F_compressUpdate c cap src = (c1, .ok out))
    (d : prv (cnative σ)) : (Compress.update codec d).1 = true := by
  unfold Compress.update
  simp only [prv.log]
  split_ifs with h1
  · rfl
  · obtain ⟨c1, out, ho⟩ := hupdate d.native.ctx
      (codec.LZ4F_compressBound d.cur_buf_in d.native.pfs) (d.buf_in.take d.cur_buf_in)
    simp only [ho]

/-- Helper: `Compress.finish` returns true when the codec ends the frame with at
least 4 bytes. -/
theorem Compress.finish_ok {σ : Type} (codec : Compressor σ)
    (hend : ∀ c cap, ∃ c1 out, codec.LZ4F_compressEnd c cap = (c1, .ok out) ∧ 4 ≤ out.length)
    (d : prv (cnative σ)) : (Compress.finish codec d).1 = true := by
  unfold Compress.finish
  simp only [prv.log]
  obtain ⟨c1, out, ho, h4⟩ := hend d.native.ctx d.buf_out_size
  simp only [ho]
  simpa using h4

/-- Helper: `pushAll` returns true when its flush always does. -/
theorem pushAll_true {κ : Type} (u : prv κ → Bool × prv κ) (hu : ∀ d, (u d).1 = true)
    (data : List Byte) : ∀ d : prv κ, (pushAll u data d).1 = true := by
  induction data with
  | nil => intro d; rfl
  | cons x xs ih =>
    intro d
    simp only [pushAll]
    split_ifs with h
    · exact ih _
    · have := hu (fill d [x])
      rcases hf : u (fill d [x]) with ⟨b, d2⟩
      rw [hf] at this
      simp only at this
      subst this
      exact ih _

/-- Helper: the orchestrated compress of a non-empty source returns true and
leaves `Compress.frame` in the sink when the codec does not fail: the bound
reaches the minimal header size, the header and every block are composed, and
the frame end has at least 4 bytes. -/
theorem compress_returns {σ : Type} (enc : Compressor σ) (c0 : cnative σ)
    (elapsed : Nat → Bool)
    (fuel : Nat) (input : List Byte) (wt : iwriter) (pfs : preferences)
    (hne : input ≠ []) (hfuel : input.length < fuel)
    (hbound : LZ4F_HEADER_SIZE_MIN
      ≤ enc.LZ4F_compressBound input.length (cast_preferences pfs input.length c0.pfs))
    (hbegin : ∀ c cap p, ∃ c1 out, enc.LZ4F_compressBegin c cap p = (c1, .ok out))
    (hupdate : ∀ c cap src, ∃ c1 out, enc.LZ4F_compressUpdate c cap src = (c1, .ok out))
    (hend : ∀ c cap, ∃ c1 out, enc.LZ4F_compressEnd c cap = (c1, .ok out) ∧ 4 ≤ out.length) :
    ∃ r, compress enc c0 elapsed fuel { bytes := input, position := 0 } wt none pfs = .ok r ∧
      r.ok = true ∧ r.wt.data = Compress.frame enc c0 input wt pfs := by
  have hlen : 0 < input.length := List.length_pos.mpr hne
  obtain ⟨bs, hbsdef⟩ : ∃ bs, bs = (if input.length < SZ_BUFFER then input.length else SZ_BUFFER) :=
    ⟨_, rfl⟩
  have hbs : 0 < bs := by
    rw [hbsdef]
    unfold SZ_BUFFER MB
    split_ifs <;> omega
  have hflat := chunks_flatten bs hbs fuel input (by omega)
  have hcne : chunks bs fuel input ≠ [] := by
    intro hn
    rw [hn] at hflat
    exact hne hflat.symm
  have hfeed := Compress.feed_fresh enc fuel (compress_context c0 input.length wt pfs) rfl rfl
    (chunks bs fuel input) (by rw [hflat]; exact hfuel)
  have hbo := Compress.begun_of_ok enc (compress_context c0 input.length wt pfs) hbound hbegin
  have hcap : ¬ capacityFor (compress_context c0 input.length wt pfs).content_size = 0 :=
    capacityFor_pos _ hlen
  rw [hflat, if_neg hne, hbo, if_neg hcap] at hfeed
  simp only [Bool.true_eq_false, if_false] at hfeed
  have hpump := pump_eq_feed (Compress.context_update enc fuel) elapsed input.length
    bs fuel 0 { bytes := input, position := 0 } (compress_context c0 input.length wt pfs) 0
    false (by simp only [List.drop_zero]; omega)
  simp only [List.drop_zero] at hpump
  rw [hfeed] at hpump
  simp only [if_neg hcne] at hpump
  obtain ⟨rd1, hrd1⟩ := hpump
  have htrue := pushAll_true (Compress.update enc) (Compress.update_ok enc hupdate) input
    { (Compress.begun_of enc (compress_context c0 input.length wt pfs)).2 with begun := true }
  unfold compress
  simp only [ireader.seek, Int.reduceNeg, Int.reduceLT, if_true, Int.lt_irrefl, if_false,
    Int.toNat_zero, Nat.zero_min, ← hbsdef]
  rw [hrd1]
  simp only [htrue, if_true, report, Compress.context_finish, Compress.finish_ok enc hend,
    Bool.not_true, Bool.false_eq_true, if_false]
  exact ⟨_, rfl, rfl, rfl⟩

/-! ### The decompress side under a streaming decoder -/

/-- Helper: the loop of `Decompress.update` over pending bytes that are the
front of the stream: with enough fuel it returns true, has consumed all of
them, and has written to the sink what the decoder produced for them. -/
theorem Decompress.updateLoop_decodes {δ : Type} (dec : Decompressor δ)
    (Rem : δ → List Byte → List Byte → Prop) (hdec : StreamDecoder dec Rem) (fuel : Nat) :
    ∀ (d : prv δ) (remain pos : Nat) (r o : List Byte),
      Rem d.native r o → d.cur_buf_in = remain →
      (d.buf_in.drop pos).take remain = r.take remain → remain ≤ r.length →
      0 < d.buf_out_cap → remain + o.length < fuel →
      ∃ d1 out o1, Decompress.updateLoop dec fuel d remain pos = .ok (true, d1) ∧
        d1.cur_buf_in = 0 ∧ d1.buf_in = d.buf_in ∧ d1.begun = d.begun ∧
        d1.buf_out_cap = d.buf_out_cap ∧ o = out ++ o1 ∧
        d1.wt.data = d.wt.data ++ out ∧ Rem d1.native (r.drop remain) o1 := by
  induction fuel with
  | zero => intro d remain pos r o _ _ _ _ _ h; omega
  | succ f ih =>
    intro d remain pos r o hrem hcur hwin hle hcap hfuel
    simp only [Decompress.updateLoop]
    by_cases h0 : 0 < remain
    · rw [if_pos h0]
      have hr : r ≠ [] := by
        intro hn
        rw [hn] at hle
        simp at hle
        omega
      obtain ⟨st1, c, out, o1, hcall, hc, ho, hrem1, hprog⟩ :=
        hdec.step d.native r o remain d.buf_out_cap hrem hr h0 hcap
      have hlen : (r.take remain).length = remain := by simp; omega
      rw [hlen] at hc
      simp only [prv.log, hcur, hwin, hcall]
      rw [if_neg (by omega)]
      have hol : o.length = out.length + o1.length := by rw [ho]; simp
      obtain ⟨d1, out2, o2, hrun, h1, h2, h3, h4, h5, h6, h7⟩ := ih
        { d with buf_out_size := d.buf_out_cap,
                 calls := d.calls ++ [Call.decompress d.buf_out_cap (r.take remain)],
                 native := st1, cur_buf_in := remain - c, wt := d.wt.write out }
        (remain - c) (pos + c) (r.drop c) o1 hrem1 rfl
        (by
          have := congrArg (List.drop c) hwin
          rw [List.drop_take, List.drop_take, List.drop_drop] at this
          exact this)
        (by simp; omega) hcap (by omega)
      refine ⟨d1, out ++ out2, o2, hrun, h1, h2, h3, h4, ?_, ?_, ?_⟩
      · rw [ho, h5, List.append_assoc]
      · rw [h6]
        simp [iwriter.write]
      · rw [List.drop_drop] at h7
        rw [show remain = c + (remain - c) by omega]
        exact h7
    · have hz : remain = 0 := by omega
      subst hz
      rw [if_neg h0]
      exact ⟨d, [], o, rfl, hcur, rfl, rfl, rfl, rfl, by simp, hrem⟩

/-- Helper: `Decompress.update` on pending bytes that are the next bytes of the
stream: with enough fuel it returns true and leaves a context that has
consumed them. -/
theorem Decompress.update_decodes {δ : Type} (dec : Decompressor δ)
    (Rem : δ → List Byte → List Byte → Prop) (hdec : StreamDecoder dec Rem)
    (B input : List Byte) (fuel : Nat) (d : prv δ) (k : Nat) (o : List Byte)
    (hbegun : d.begun = true) (hlen : 0 < d.buf_in.length) (hcap : 0 < d.buf_out_cap)
    (hrem : Rem d.native (B.drop k) o)
    (hpend : d.buf_in.take d.cur_buf_in = (B.drop k).take d.cur_buf_in)
    (hwithin : k + d.cur_buf_in ≤ B.length) (hsink : d.wt.data ++ o = input)
    (hfuel : d.cur_buf_in + o.length < fuel) :
    ∃ d1 o1, Decompress.update dec fuel d = .ok (true, d1) ∧
      Decoding Rem B input d1 (k + d.cur_buf_in) o1 ∧ d1.cur_buf_in = 0 ∧
      d1.buf_in = d.buf_in := by
  unfold Decompress.update
  by_cases h0 : d.cur_buf_in < 1
  · have hz : d.cur_buf_in = 0 := by omega
    rw [if_pos h0]
    refine ⟨d, o, rfl, ⟨hbegun, by omega, hcap, by rw [hz]; exact hrem, by rw [hz]; rfl,
      by rw [hz] at hwithin ⊢; exact hwithin, hsink⟩, hz, rfl⟩
  · rw [if_neg h0]
    obtain ⟨d1, out, o1, hrun, h1, h2, h3, h4, h5, h6, h7⟩ :=
      Decompress.updateLoop_decodes dec Rem hdec fuel d d.cur_buf_in 0 (B.drop k) o hrem rfl
        (by rw [List.drop_zero]; exact hpend) (by simp; omega) hcap hfuel
    refine ⟨d1, o1, hrun, ⟨h3.trans hbegun, by rw [h1, h2]; exact hlen, by rw [h4]; exact hcap,
      by rw [List.drop_drop] at h7; exact h7, by rw [h1]; rfl,
      by rw [h1]; omega, ?_⟩, h1, h2⟩
    rw [h6, List.append_assoc, ← h5]
    exact hsink

/-- Helper: a commit of the next bytes of the stream on a decoding context:
with enough fuel it returns true and leaves a decoding context that has taken
them in. -/
theorem Decompress.commit_decodes {δ : Type} (dec : Decompressor δ)
    (Rem : δ → List Byte → List Byte → Prop) (hdec : StreamDecoder dec Rem)
    (B input : List Byte) (fuel : Nat) :
    ∀ (d : prv δ) (data : List Byte) (k : Nat) (o : List Byte),
      Decoding Rem B input d k o →
      k + d.cur_buf_in + data.length ≤ B.length →
      data = (B.drop (k + d.cur_buf_in)).take data.length →
      data.length + d.buf_in.length + input.length + 1 < fuel →
      ∃ d1 k1 o1, Decompress.context_update dec fuel d (.ptr data) = .ok (true, d1) ∧
        Decoding Rem B input d1 k1 o1 ∧
        k1 + d1.cur_buf_in = k + d.cur_buf_in + data.length ∧
        d1.buf_in.length = d.buf_in.length := by
  induction fuel with
  | zero => intro d data k o _ _ _ h; omega
  | succ f ih =>
    intro d data k o hd hwithin hdata hfuel
    unfold Decompress.context_update
    rw [commit_step]
    by_cases h0 : data.length < 1
    · rw [if_pos h0]
      exact ⟨d, k, o, rfl, hd, by omega, rfl⟩
    · rw [if_neg h0, enter_begun _ _ _ hd.begun]
      simp only [Bool.not_true, Bool.false_eq_true, if_false, if_neg h0,
        set_begun_self d hd.begun]
      have hol : o.length ≤ input.length := by
        rw [← hd.sink]; simp
      have hsplit : ∀ n, (B.drop k).take (d.cur_buf_in + n)
          = d.buf_in.take d.cur_buf_in ++ (B.drop (k + d.cur_buf_in)).take n := by
        intro n
        rw [List.take_add, hd.pending, List.drop_drop]
      by_cases h1 : d.cur_buf_in + data.length < d.buf_in.length
      · rw [if_pos h1]
        refine ⟨store d data, k, o, rfl, ⟨hd.begun, ?_, hd.cap, hd.rem, ?_, ?_, hd.sink⟩,
          ?_, ?_⟩
        · simp only [store]
          rw [memcpy_length _ _ _ (by omega)]
          exact h1
        · simp only [store]
          rw [take_memcpy _ _ _ (by omega), hsplit, ← hdata]
        · simp only [store]; omega
        · simp only [store]; omega
        · simp only [store]
          exact memcpy_length _ _ _ (by omega)
      · rw [if_neg h1, if_neg (by have := hd.room; omega)]
        have hroom := hd.room
        have htl : (data.take (d.buf_in.length - d.cur_buf_in)).length
            = d.buf_in.length - d.cur_buf_in := by
          simp; omega
        have hfl : (fill d data).buf_in.length = d.buf_in.length := by
          simp only [fill]
          exact memcpy_length _ _ _ (by omega)
        have hfp : (fill d data).buf_in.take (fill d data).cur_buf_in
            = (B.drop k).take (fill d data).cur_buf_in := by
          have h2 := take_memcpy d.buf_in d.cur_buf_in
            (data.take (d.buf_in.length - d.cur_buf_in)) (by omega)
          rw [htl, show d.cur_buf_in + (d.buf_in.length - d.cur_buf_in) = d.buf_in.length
            by omega] at h2
          have h3 := hsplit (d.buf_in.length - d.cur_buf_in)
          rw [show d.cur_buf_in + (d.buf_in.length - d.cur_buf_in) = d.buf_in.length
            by omega] at h3
          show List.take d.buf_in.length (memcpy _ _ _) = List.take d.buf_in.length _
          rw [h2, h3]
          congr 1
          rw [hdata, List.take_take]
          congr 1
          omega
        obtain ⟨d2, o2, hrun, hd2, hc2, hb2⟩ := Decompress.update_decodes dec Rem hdec B input f
          (fill d data) k o hd.begun (by rw [hfl]; omega) hd.cap hd.rem hfp
          (by show k + d.buf_in.length ≤ B.length; omega) hd.sink
          (by show d.buf_in.length + o.length < f; omega)
        rw [hrun]
        simp only
        have hd2l : d2.buf_in.length = d.buf_in.length := by rw [hb2, hfl]
        obtain ⟨d3, k3, o3, hrun3, hd3, hk3, hl3⟩ := ih d2
          (data.drop (d.buf_in.length - d.cur_buf_in)) (k + d.buf_in.length) o2 hd2
          (by rw [hc2]; simp; omega)
          (by
            rw [hc2, Nat.add_zero]
            conv_lhs => rw [hdata]
            rw [List.drop_take, List.drop_drop, List.length_drop]
            congr 2
            omega)
          (by rw [hd2l]; simp; omega)
        refine ⟨d3, k3, o3, hrun3, hd3, ?_, hl3.trans hd2l⟩
        rw [hk3, hc2]
        simp
        omega

/-- Helper: a feed of the next bytes of the stream, in any chunks, on a
decoding context: with enough fuel it returns true and leaves a decoding
context that has taken them in. -/
theorem Decompress.feed_decodes {δ : Type} (dec : Decompressor δ)
    (Rem : δ → List Byte → List Byte → Prop) (hdec : StreamDecoder dec Rem)
    (B input : List Byte) (fuel : Nat) (chunks : List (List Byte)) :
    ∀ (d : prv δ) (k : Nat) (o : List Byte),
      Decoding Rem B input d k o →
      k + d.cur_buf_in + chunks.flatten.length ≤ B.length →
      chunks.flatten = (B.drop (k + d.cur_buf_in)).take chunks.flatten.length →
      chunks.flatten.length + d.buf_in.length + input.length + 1 < fuel →
      ∃ d1 k1 o1, feed (Decompress.context_update dec fuel) chunks d = .ok (true, d1) ∧
        Decoding Rem B input d1 k1 o1 ∧
        k1 + d1.cur_buf_in = k + d.cur_buf_in + chunks.flatten.length ∧
        d1.buf_in.length = d.buf_in.length := by
  induction chunks with
  | nil =>
    intro d k o hd _ _ _
    exact ⟨d, k, o, rfl, hd, by simp, rfl⟩
  | cons a rest ih =>
    intro d k o hd hwithin hdata hfuel
    simp only [List.flatten_cons, List.length_append] at hwithin hdata hfuel
    rw [List.take_add] at hdata
    have hla : ((B.drop (k + d.cur_buf_in)).take a.length).length = a.length := by
      simp; omega
    obtain ⟨ha, hr⟩ := List.append_inj hdata hla.symm
    obtain ⟨d1, k1, o1, hrun, hd1, hk1, hl1⟩ := Decompress.commit_decodes dec Rem hdec B input
      fuel d a k o hd (by omega) ha (by omega)
    rw [List.drop_drop] at hr
    obtain ⟨d2, k2, o2, hrun2, hd2, hk2, hl2⟩ := ih d1 k1 o1 hd1 (by omega)
      (by rw [hk1]; exact hr) (by omega)
    refine ⟨d2, k2, o2, ?_, hd2, ?_, hl2.trans hl1⟩
    · simp only [feed, hrun]
      exact hrun2
    · simp only [List.flatten_cons, List.length_append]
      omega

/-- Helper: the first non-empty commit on a context that has not begun, when
`begin` succeeds, goes on as a commit of what `begin` left of the data on the
begun context. -/
theorem commit_enter {κ : Type}
    (begin : prv κ → List Byte → Except Fault (Bool × List Byte × prv κ))
    (update : Nat → prv κ → Except Fault (Bool × prv κ))
    (fuel : Nat) (d d1 : prv κ) (data data1 : List Byte)
    (hb : d.begun = false) (hne : 0 < data.length)
    (hbegin : begin d data = .ok (true, data1, d1)) :
    commit begin update (fuel + 1) d (.ptr data)
      = commit begin update (fuel + 1) { d1 with begun := true } (.ptr data1) := by
  have h0 : ¬ data.length < 1 := by omega
  rw [commit_step, commit_step]
  simp only [enter, hb, Bool.false_eq_true, if_false, hbegin, if_neg h0, if_true,
    Bool.not_true]
  by_cases h1 : data1.length < 1
  · simp [h1]
  · simp [h1]

/-- Helper: the orchestrated decompress of a stream `S` whose header announces
the length of `input` and whose body a streaming decoder turns into `input`:
with enough fuel it returns true and the sink holds `input`. -/
theorem decompress_decodes {δ : Type} (dec : Decompressor δ)
    (Rem : δ → List Byte → List Byte → Prop) (hdec : StreamDecoder dec Rem)
    (d0 d1 : δ) (S input : List Byte) (h : Nat) (elapsed : Nat → Bool) (fuel : Nat)
    (hne : input ≠ []) (hlong : LZ4F_HEADER_SIZE_MAX ≤ S.length)
    (hh : h ≤ LZ4F_HEADER_SIZE_MAX)
    (hhdr : ∀ n, LZ4F_HEADER_SIZE_MAX ≤ n →
      dec.LZ4F_getFrameInfo d0 (S.take n) = (d1, .ok (input.length, h)))
    (hrem : Rem d1 (S.drop h) input)
    (hfuel : S.length + 2 * input.length + 1 < fuel) :
    ∃ r, decompress dec d0 elapsed fuel { bytes := S, position := 0 } emptySink none = .ok r ∧
      r.ok = true ∧ r.wt.data = input := by
  have hmax : LZ4F_HEADER_SIZE_MAX = 19 := rfl
  have hilen : 0 < input.length := List.length_pos.mpr hne
  obtain ⟨bs, hbsdef⟩ : ∃ bs, bs = (if S.length < SZ_BUFFER then S.length else SZ_BUFFER) :=
    ⟨_, rfl⟩
  have hbs : LZ4F_HEADER_SIZE_MAX ≤ bs ∧ bs ≤ S.length := by
    rw [hbsdef]
    unfold SZ_BUFFER MB
    split_ifs <;> omega
  obtain ⟨f, rfl⟩ : ∃ f, fuel = f + 1 := ⟨fuel - 1, by omega⟩
  -- the chunks the loop reads
  have hw1 : (S.take bs).length = bs := by simp; omega
  have hw1ne : ¬ S.take bs = [] := by
    intro hn
    rw [hn] at hw1
    simp at hw1
    omega
  have hchunks : chunks bs (f + 1) S = S.take bs :: chunks bs f (S.drop bs) := by
    simp only [chunks, if_neg hw1ne]
  have hrest := chunks_flatten bs (by omega) f (S.drop bs) (by simp; omega)
  -- `begin` on the first chunk
  have hbegin : Decompress.begin dec (decompress_context d0 emptySink) (S.take bs)
      = .ok (true, (S.take bs).drop h,
          { (decompress_context d0 emptySink) with
            calls := [Call.getFrameInfo (S.take bs)],
            native := d1,
            wt := emptySink.reserve (input.length + bufsz input.length),
            buf_in := resize [] (capacityFor input.length),
            buf_out_cap := max 0 (if input.length < SZ_BUFFER
              then input.length + bufsz input.length else SZ_BUFFER) }) := by
    unfold Decompress.begin
    rw [if_neg (by rw [hw1]; omega)]
    simp only [prv.log, decompress_context, hhdr bs hbs.1, List.nil_append]
    rw [if_neg (by rw [hw1]; omega)]
    unfold capacityFor
    split_ifs <;> rfl
  -- the context after `begin`
  have hcapL : 0 < capacityFor input.length ∧ capacityFor input.length ≤ input.length := by
    unfold capacityFor SZ_BUFFER MB
    split_ifs <;> omega
  have hdec0 : Decoding Rem (S.drop h) input
      ({ ({ (decompress_context d0 emptySink) with
            calls := [Call.getFrameInfo (S.take bs)],
            native := d1,
            wt := emptySink.reserve (input.length + bufsz input.length),
            buf_in := resize [] (capacityFor input.length),
            buf_out_cap := max 0 (if input.length < SZ_BUFFER
              then input.length + bufsz input.length else SZ_BUFFER) } : prv δ)
          with begun := true }) 0 input := by
    constructor
    · rfl
    · simp only [decompress_context, resize_length]
      exact hcapL.1
    · simp only
      unfold SZ_BUFFER MB bufsz
      split_ifs <;> simp <;> omega
    · exact hrem
    · rfl
    · simp [decompress_context]
    · rfl
  -- the first commit
  obtain ⟨d2, k2, o2, hrun2, hd2, hk2, hl2⟩ := Decompress.commit_decodes dec Rem hdec (S.drop h)
    input (f + 1) _ ((S.take bs).drop h) 0 input hdec0
    (by simp [decompress_context]; omega)
    (by
      simp only [decompress_context, Nat.add_zero, List.drop_zero, List.length_drop, hw1]
      rw [List.drop_take])
    (by simp only [decompress_context, resize_length, List.length_drop, hw1]; omega)
  have hfirst : Decompress.context_update dec (f + 1) (decompress_context d0 emptySink)
      (.ptr (S.take bs)) = .ok (true, d2) := by
    unfold Decompress.context_update at hrun2 ⊢
    rw [commit_enter _ _ f _ _ _ _ rfl (by rw [hw1]; omega) hbegin]
    exact hrun2
  simp only [decompress_context, Nat.add_zero, Nat.zero_add, List.length_drop, hw1,
    resize_length] at hk2 hl2
  -- the other commits
  obtain ⟨d3, k3, o3, hrun3, hd3, hk3, hl3⟩ := Decompress.feed_decodes dec Rem hdec (S.drop h)
    input (f + 1) (chunks bs f (S.drop bs)) d2 k2 o2 hd2
    (by rw [hrest, hk2]; simp; omega)
    (by
      rw [hrest, hk2, List.drop_drop, show h + (bs - h) = bs by omega, List.take_length])
    (by rw [hrest, hl2]; simp; omega)
  rw [hrest] at hk3
  simp only [List.length_drop] at hk3
  -- the loop
  have hpump := pump_eq_feed (Decompress.context_update dec (f + 1)) elapsed S.length bs
    (f + 1) 0 { bytes := S, position := 0 } (decompress_context d0 emptySink) 0 false
    (by simp only [List.drop_zero]; omega)
  simp only [List.drop_zero, hchunks, feed, hfirst, hrun3, List.cons_ne_nil, if_false]
    at hpump
  obtain ⟨rd1, hrd1⟩ := hpump
  -- `finish()`
  have hol : o3.length ≤ input.length := by
    rw [← hd3.sink]; simp
  have hroom3 := hd3.room
  obtain ⟨d4, o4, hrun4, hd4, hc4, hb4⟩ := Decompress.update_decodes dec Rem hdec (S.drop h)
    input (f + 1) d3 k3 o3 hd3.begun (by omega) hd3.cap hd3.rem hd3.pending hd3.within hd3.sink
    (by omega)
  have ho4 : o4 = [] := by
    have hr4 := hd4.rem
    rw [List.drop_eq_nil_of_le (by simp; omega)] at hr4
    exact hdec.done _ _ hr4
  have hs4 := hd4.sink
  rw [ho4, List.append_nil] at hs4
  unfold decompress
  simp only [ireader.pos, ireader.seek, Int.reduceNeg, Int.reduceLT, if_true, Int.lt_irrefl,
    if_false, Int.toNat_zero, Nat.zero_min, ← hbsdef, Nat.cast_zero]
  rw [hrd1]
  simp only [if_true, Decompress.context_finish, hrun4, Decompress.finish, report,
    Bool.not_true, Bool.false_eq_true, if_false]
  exact ⟨_, rfl, rfl, hs4⟩

/-- Round trip on non-empty input.  Let the codec's compressor not fail, let
the frame it writes for `input` be at least a maximal header long, let the
decoder read from any window of at least that size the length of `input` and
a header size `h`, and let it be a streaming decoder that turns the rest of
the frame into `input`.  Then, with enough fuel, the round trip of `test.cpp`
on a non-empty `input` returns true and leaves exactly `input` in the output
sink. -/
theorem roundtrip_reproduces {σ δ : Type} (enc : Compressor σ) (dec : Decompressor δ)
    (c0 : cnative σ) (d0 d1 : δ) (Rem : δ → List Byte → List Byte → Prop)
    (hdec : StreamDecoder dec Rem) (elapsed : Nat → Bool) (fuel : Nat)
    (defaults : preferences) (input : List Byte) (h : Nat)
    (hne : input ≠ [])
    (hbound : LZ4F_HEADER_SIZE_MIN
      ≤ enc.LZ4F_compressBound input.length
          (cast_preferences defaults input.length c0.pfs))
    (hbegin : ∀ c cap p, ∃ c1 out, enc.LZ4F_compressBegin c cap p = (c1, .ok out))
    (hupdate : ∀ c cap src, ∃ c1 out, enc.LZ4F_compressUpdate c cap src = (c1, .ok out))
    (hend : ∀ c cap, ∃ c1 out, enc.LZ4F_compressEnd c cap = (c1, .ok out) ∧ 4 ≤ out.length)
    (hlong : LZ4F_HEADER_SIZE_MAX ≤ (Compress.frame enc c0 input emptySink defaults).length)
    (hh : h ≤ LZ4F_HEADER_SIZE_MAX)
    (hhdr : ∀ n, LZ4F_HEADER_SIZE_MAX ≤ n →
      dec.LZ4F_getFrameInfo d0 ((Compress.frame enc c0 input emptySink defaults).take n)
        = (d1, .ok (input.length, h)))
    (hrem : Rem d1 ((Compress.frame enc c0 input emptySink defaults).drop h) input)
    (hfuel : (Compress.frame enc c0 input emptySink defaults).length + 2 * input.length + 1
      < fuel) :
    ∃ r, roundtrip enc dec c0 d0 elapsed fuel defaults input = .ok r ∧ r.ok = true ∧
      r.wt.data = input := by
  obtain ⟨rc, hrc, _, hdata⟩ := compress_returns enc c0 elapsed fuel input emptySink defaults
    hne (by omega) hbound hbegin hupdate hend
  unfold roundtrip
  rw [hrc]
  simp only [hdata]
  exact decompress_decodes dec Rem hdec d0 d1 _ input h elapsed fuel hne hlong hh hhdr hrem
    hfuel

/-- Helper: the stored decoder is a streaming decoder. -/
theorem Stored.streams : StreamDecoder Stored.dec Stored.Rem := by
  constructor
  · intro st r o n cap hrem hr hn hcap
    have hrl : 0 < r.length := List.length_pos.mpr hr
    unfold Stored.Rem at hrem
    by_cases hst : st = 0
    · subst hst
      refine ⟨0, (r.take n).length, [], [], ?_, Nat.le_refl _, ?_, ?_, ?_⟩
      · simp [Stored.dec]
      · simp [hrem]
      · simp [Stored.Rem]
      · left; simp; omega
    · refine ⟨st - min (min (r.take n).length cap) st, min (min (r.take n).length cap) st,
        (r.take n).take (min (min (r.take n).length cap) st),
        (r.drop (min (min (r.take n).length cap) st)).take
          (st - min (min (r.take n).length cap) st), ?_, ?_, ?_, rfl, ?_⟩
      · simp [Stored.dec, hst]
      · omega
      · rw [hrem, List.take_take]
        have hk : min (min (min (r.take n).length cap) st) n
            = min (min (r.take n).length cap) st := by
          simp only [List.length_take]
          omega
        rw [hk]
        conv_lhs => rw [show st = min (min (r.take n).length cap) st
          + (st - min (min (r.take n).length cap) st) by omega]
        rw [List.take_add]
      · left
        simp only [List.length_take]
        omega
  · intro st o h
    unfold Stored.Rem at h
    simpa using h

/-- Helper: the size read by the stored decoder depends on the first 8 bytes
only. -/
theorem Stored.decode64_take (l : List Byte) (n : Nat) (hn : 8 ≤ n) :
    Stored.decode64 (l.take n) = Stored.decode64 l := by
  unfold Stored.decode64
  rw [List.take_take, Nat.min_eq_left hn]

/-- Witness of `roundtrip_reproduces`: the stored codec on the input 1, 2, 3. -/
theorem roundtrip_reproduces_stored :
    ∃ r, roundtrip Stored.enc Stored.dec raw0 0 never 40 prefs0 [1, 2, 3] = .ok r ∧
      r.ok = true ∧ r.wt.data = [1, 2, 3] :=
  roundtrip_reproduces Stored.enc Stored.dec raw0 0 3 Stored.Rem Stored.streams never 40 prefs0
    [1, 2, 3] 19 (by decide) (by decide) (fun _ _ _ => ⟨_, _, rfl⟩) (fun _ _ _ => ⟨_, _, rfl⟩)
    (fun _ _ => ⟨_, _, rfl, by decide⟩) (by decide) (by decide)
    (fun n hn => by
      have hl : ¬ ((Compress.frame Stored.enc raw0 [1, 2, 3] emptySink prefs0).take n).length
          < 19 := by
        have : (Compress.frame Stored.enc raw0 [1, 2, 3] emptySink prefs0).length = 26 := rfl
        simp only [List.length_take, this]
        have : LZ4F_HEADER_SIZE_MAX = 19 := rfl
        omega
      have hn8 : 8 ≤ n := by
        have : LZ4F_HEADER_SIZE_MAX = 19 := rfl
        omega
      show Stored.dec.LZ4F_getFrameInfo 0 _ = _
      simp only [Stored.dec, hl, if_false, Stored.decode64_take _ n hn8]
      rfl)
    rfl (by decide)

/-! ### `Compress.update` on a codec error -/

/-- C14. Compress update on a codec error: on a compress context whose fill
level is above 0, if `LZ4F_compressUpdate` reports an error on the pending
bytes then `update` returns false, `last_error` is the text of the context's
stream followed by the error line carrying the codec's error name, the sink
is as it was and the fill level is 0; on a context whose fill level is 0,
`update` returns true and leaves the context, its sink and its log of codec
calls as they were. -/
theorem compress_update_on_error {σ : Type} (codec : Compressor σ) (d : prv (cnative σ)) :
    (0 < d.cur_buf_in → ∀ ctx name,
      codec.LZ4F_compressUpdate d.native.ctx
          (codec.LZ4F_compressBound d.cur_buf_in d.native.pfs)
          (d.buf_in.take d.cur_buf_in) = (ctx, .error name) →
      (Compress.update codec d).1 = false ∧
      (Compress.update codec d).2.last_error
        = d.ss ++ "error: " ++ name ++ " @" ++ srcFile ++ "#" ++ "320" ∧
      (Compress.update codec d).2.wt = d.wt ∧
      (Compress.update codec d).2.cur_buf_in = 0 ∧
      (Compress.update codec d).2.calls
        = d.calls ++ [.compressBound d.cur_buf_in,
            .compressUpdate (codec.LZ4F_compressBound d.cur_buf_in d.native.pfs)
              (d.buf_in.take d.cur_buf_in)]) ∧
    (d.cur_buf_in = 0 → Compress.update codec d = (true, d)) := by
  constructor
  · intro hpos ctx name herr
    have h1 : ¬ d.cur_buf_in < 1 := by omega
    simp [Compress.update, h1, prv.log, herr, __error__]
  · intro h0
    exact Compress.update_idle codec d h0

/-- Witness for C14: the failing codec on a context holding two pending bytes,
and on a fresh context. -/
theorem compress_update_on_error_witness :
    ((Compress.update Broken.enc partlyFilled).1 = false ∧
      (Compress.update Broken.enc partlyFilled).2.last_error
        = "error: ERROR_GENERIC @lz4xx.cpp#320" ∧
      (Compress.update Broken.enc partlyFilled).2.wt = partlyFilled.wt ∧
      (Compress.update Broken.enc partlyFilled).2.cur_buf_in = 0) ∧
    Compress.update Broken.enc (compress_context raw0 5 emptySink prefs0)
      = (true, compress_context raw0 5 emptySink prefs0) :=
  ⟨⟨((compress_update_on_error Broken.enc partlyFilled).1 (by decide) () "ERROR_GENERIC" rfl).1,
    ((compress_update_on_error Broken.enc partlyFilled).1 (by decide) () "ERROR_GENERIC" rfl).2.1,
    ((compress_update_on_error Broken.enc partlyFilled).1 (by decide) () "ERROR_GENERIC" rfl).2.2.1,
    ((compress_update_on_error Broken.enc partlyFilled).1 (by decide) () "ERROR_GENERIC"
      rfl).2.2.2.1⟩,
   (compress_update_on_error Broken.enc (compress_context raw0 5 emptySink prefs0)).2 rfl⟩

/-! ### The tail of the orchestrated calls -/

/-- C18, at the failing input. An orchestrated call whose commit fails, run
with no `progress`: the decompress of a three-byte source (its first commit
fails on the short header) and the compress of three bytes with a codec whose
block call fails both leave the loop with `ok` false and then store through
the null `progress` pointer instead of returning false.  For every context
the tail `if(!ok) pgs->last_error = ...` faults on a null `progress` and, on
a `progress` that was passed, copies `last_error` and returns false. -/
theorem failed_run_without_progress_faults :
    decompress Stored.dec 0 never 5 { bytes := [1, 2, 3], position := 0 } emptySink none
      = .error .nullptr ∧
    compress Broken.enc raw0 never 5 { bytes := [1, 2, 3], position := 0 } emptySink none prefs0
      = .error .nullptr ∧
    (decompress Stored.dec 0 never 5 { bytes := [1, 2, 3], position := 0 } emptySink
        (some { attached := false, reports := [], last_error := "" })).map
        (fun r => (r.ok, r.pgs.map (fun p => decide (p.last_error = ""))))
      = .ok (false, some false) ∧
    (∀ (κ : Type) (rd : ireader) (d : prv κ), report false rd d none = .error .nullptr) ∧
    (∀ (κ : Type) (rd : ireader) (d : prv κ) (p : progress),
      report false rd d (some p)
        = .ok { ok := false, rd := rd, wt := d.wt,
                pgs := some { p with last_error := d.last_error }, calls := d.calls }) :=
  ⟨rfl, rfl, rfl, fun _ _ _ => rfl, fun _ _ _ _ => rfl⟩

/-! ### `commit` on a buffer of capacity 0 -/

/-- C17, at the failing input. A compress context declared for content size 0
gets an accumulation buffer of capacity 0 from `begin`; `commit` of one byte
on it does not return, whatever the fuel: the block it flushes is empty,
`update` is a no-op and `commit` calls itself with the same byte.  The same
holds on a decompress context whose frame header declares content size 0. -/
theorem commit_never_returns_on_zero_capacity (fuel : Nat) :
    Compress.context_update Stored.enc fuel (compress_context raw0 0 emptySink prefs0)
      (.ptr [65]) = .error .fuel ∧
    Decompress.context_update Stored.dec fuel (decompress_context 0 emptySink)
      (.ptr (Stored.header 0 ++ [65])) = .error .fuel := by
  constructor
  · cases fuel with
    | zero => rfl
    | succ n =>
      rw [Compress.commit_fresh Stored.enc n _ [65] rfl (by decide)]
      have hb : (Compress.begun_of Stored.enc (compress_context raw0 0 emptySink prefs0)).1
          = true := rfl
      rw [if_pos hb]
      exact commit_zero_capacity _ _
        (fun f d h => by
          show Except.ok (Compress.update Stored.enc d) = _
          rw [Compress.update_idle Stored.enc d h])
        [65] (by decide) (n + 1) _ rfl rfl rfl
  · cases fuel with
    | zero => rfl
    | succ n =>
      have hrun : (Decompress.begin Stored.dec (decompress_context 0 emptySink)
          (Stored.header 0 ++ [65])).map
            (fun r => (r.1, r.2.1, r.2.2.buf_in, r.2.2.cur_buf_in))
          = .ok (true, [65], [], 0) := rfl
      obtain ⟨d1, hd1, hbuf, hcur⟩ : ∃ d1,
          Decompress.begin Stored.dec (decompress_context 0 emptySink) (Stored.header 0 ++ [65])
            = .ok (true, [65], d1) ∧ d1.buf_in = [] ∧ d1.cur_buf_in = 0 := by
        cases hbeg : Decompress.begin Stored.dec (decompress_context 0 emptySink)
            (Stored.header 0 ++ [65]) with
        | error f => rw [hbeg] at hrun; cases hrun
        | ok r =>
          obtain ⟨b, data1, d1⟩ := r
          rw [hbeg] at hrun
          simp only [Except.map, Except.ok.injEq, Prod.mk.injEq] at hrun
          obtain ⟨rfl, rfl, h3, h4⟩ := hrun
          exact ⟨d1, rfl, h3, h4⟩
      unfold Decompress.context_update
      rw [commit_enter (Decompress.begin Stored.dec) (Decompress.update Stored.dec) n
        (decompress_context 0 emptySink) d1 (Stored.header 0 ++ [65]) [65] rfl (by decide) hd1]
      exact commit_zero_capacity _ _
        (fun f d h => by simp [Decompress.update, h])
        [65] (by decide) (n + 1) _ rfl hbuf hcur

/-! ### `Decompress.update` on a codec error -/

/-- C11, at the failing input. On a decompress context: `update` of a whole
frame of 4 content bytes (header, content, end mark) followed by the two
stray bytes 9, 9 decodes the frame and leaves fill level 2 in a buffer of
capacity 4; `reset()` keeps the fill level; `update` of a frame header
declaring 1 byte then runs `begin`, which resizes the buffer to capacity 1,
and returns true with fill level 2 above capacity 1.  The next `update` of one
byte computes `capacity - cur_buf_in` below zero. -/
theorem fill_exceeds_capacity_after_reset :
    (Decompress.run Stored.dec 5
        [.update (.ptr (Stored.header 4 ++ [1, 2, 3, 4] ++ [0, 0, 0, 0] ++ [9, 9]))]
        (decompress_context 0 emptySink)).map
        (fun d => (d.cur_buf_in, d.buf_in.length, d.native, d.wt.data))
      = .ok (2, 4, 0, [1, 2, 3, 4]) ∧
    (Decompress.run Stored.dec 5
        [.update (.ptr (Stored.header 4 ++ [1, 2, 3, 4] ++ [0, 0, 0, 0] ++ [9, 9])), .reset,
         .update (.ptr (Stored.header 1))]
        (decompress_context 0 emptySink)).map (fun d => (d.cur_buf_in, d.buf_in.length))
      = .ok (2, 1) ∧
    Decompress.run Stored.dec 5
        [.update (.ptr (Stored.header 4 ++ [1, 2, 3, 4] ++ [0, 0, 0, 0] ++ [9, 9])), .reset,
         .update (.ptr (Stored.header 1)), .update (.ptr [7])]
        (decompress_context 0 emptySink)
      = .error .bounds :=
  ⟨rfl, rfl, rfl⟩

/-- Helper: `commit` on a compress context keeps the fill level within the
capacity. -/
theorem Compress.commit_within {σ : Type} (codec : Compressor σ) (fuel : Nat)
    (d : prv (cnative σ)) (data : Data) (b : Bool) (d1 : prv (cnative σ))
    (h : Compress.context_update codec fuel d data = .ok (b, d1)) (hd : FillWithin d) :
    FillWithin d1 := by
  refine commit_preserves (Compress.begin codec) (Compress.vupdate codec) FillWithin
    ?_ ?_ ?_ ?_ fuel d data b d1 h hd
  · intro d data b data1 d1 _ hbeg hP
    obtain ⟨h1, h2, h3, _, _⟩ := Compress.begin_post codec d d1 data data1 b hbeg
    obtain ⟨hP1, hP2⟩ := hP
    refine ⟨?_, Or.inr ?_⟩
    · show d1.cur_buf_in ≤ d1.buf_in.length
      rw [h1, h2]
      rcases hP2 with h0 | hc <;> omega
    · show d1.buf_in.length = capacityFor d1.content_size
      rw [h2, h3]
  · intro d data hlt hP
    have hl : (store d data).buf_in.length = d.buf_in.length :=
      memcpy_length _ _ _ (by omega)
    refine ⟨?_, ?_⟩
    · rw [hl]
      show d.cur_buf_in + data.length ≤ d.buf_in.length
      omega
    · rw [hl]
      exact hP.2
  · intro d data hle _ hP
    have hl : (fill d data).buf_in.length = d.buf_in.length :=
      memcpy_length _ _ _ (by
        rw [List.length_take]
        omega)
    refine ⟨?_, ?_⟩
    · rw [hl]
      exact Nat.le_refl _
    · rw [hl]
      exact hP.2
  · intro f d b d1 hu hP
    simp only [Compress.vupdate, Except.ok.injEq] at hu
    have hc := Compress.update_cur codec d
    obtain ⟨hb, _, hs, _⟩ := Compress.update_frame codec d
    rw [hu] at hc hb hs
    refine ⟨?_, ?_⟩
    · show d1.cur_buf_in ≤ d1.buf_in.length
      rw [hc]
      exact Nat.zero_le _
    · show d1.buf_in.length = 0 ∨ d1.buf_in.length = capacityFor d1.content_size
      rw [hb, hs]
      exact hP.2

/-- Helper: on a compress context created by `compress_context`, the fill
level stays within the capacity through every sequence of `update`, `finish`
and `reset` calls that return. -/
theorem Compress.run_within {σ : Type} (codec : Compressor σ) (fuel : Nat) (ops : List Op) :
    ∀ d d1 : prv (cnative σ), FillWithin d → Compress.run codec fuel ops d = .ok d1 →
      d1.cur_buf_in ≤ d1.buf_in.length := by
  induction ops with
  | nil =>
    intro d d1 hd h
    simp only [Compress.run, Except.ok.injEq] at h
    rw [← h]
    exact hd.1
  | cons op ops ih =>
    intro d d1 hd h
    cases op with
    | update data =>
      simp only [Compress.run] at h
      split at h
      · simp at h
      · next b d2 heq => exact ih d2 d1 (Compress.commit_within codec fuel d data b d2 heq hd) h
    | finish =>
      simp only [Compress.run] at h
      refine ih _ d1 ?_ h
      have hc := Compress.update_cur codec d
      obtain ⟨hb, _, hs, _⟩ := Compress.update_frame codec d
      have hf : ∀ x : prv (cnative σ),
          (Compress.finish codec x).2.cur_buf_in = x.cur_buf_in ∧
          (Compress.finish codec x).2.buf_in = x.buf_in ∧
          (Compress.finish codec x).2.content_size = x.content_size := by
        intro x
        simp only [Compress.finish]
        split <;> exact ⟨rfl, rfl, rfl⟩
      obtain ⟨f1, f2, f3⟩ := hf (Compress.update codec d).2
      refine ⟨?_, ?_⟩
      · show (Compress.finish codec (Compress.update codec d).2).2.cur_buf_in ≤ _
        rw [f1, hc]
        exact Nat.zero_le _
      · show (Compress.finish codec (Compress.update codec d).2).2.buf_in.length = 0 ∨
          (Compress.finish codec (Compress.update codec d).2).2.buf_in.length
            = capacityFor (Compress.finish codec (Compress.update codec d).2).2.content_size
        rw [f2, f3, hb, hs]
        exact hd.2
    | reset =>
      simp only [Compress.run] at h
      exact ih (reset d) d1 ⟨hd.1, hd.2⟩ h

/-- Helper: a flush of a decompress context that returns true leaves fill
level 0. -/
theorem Decompress.updateLoop_cur {δ : Type} (dec : Decompressor δ) (fuel : Nat) :
    ∀ (d : prv δ) (remain pos : Nat) (d1 : prv δ), d.cur_buf_in = remain →
      Decompress.updateLoop dec fuel d remain pos = .ok (true, d1) → d1.cur_buf_in = 0 := by
  induction fuel with
  | zero =>
    intro d remain pos d1 hc h
    simp only [Decompress.updateLoop] at h
    split_ifs at h with hr
    simp only [Except.ok.injEq, Prod.mk.injEq, true_and] at h
    rw [← h]
    omega
  | succ n ih =>
    intro d remain pos d1 hc h
    simp only [Decompress.updateLoop] at h
    split_ifs at h with hr
    · split at h
      · simp at h
      · split_ifs at h
        exact ih _ _ _ d1 rfl h
    · simp only [Except.ok.injEq, Prod.mk.injEq, true_and] at h
      rw [← h]
      omega

/-- Helper: a flush that returns true leaves fill level 0, on a compress and
on a decompress context. -/
theorem flush_leaves_zero {σ δ : Type} (enc : Compressor σ) (dec : Decompressor δ) :
    (∀ c : prv (cnative σ), (Compress.update enc c).2.cur_buf_in = 0) ∧
    (∀ (fuel : Nat) (d d1 : prv δ), Decompress.update dec fuel d = .ok (true, d1) →
      d1.cur_buf_in = 0) := by
  refine ⟨Compress.update_cur enc, ?_⟩
  intro fuel d d1 h
  simp only [Decompress.update] at h
  split_ifs at h with hlt
  · simp only [Except.ok.injEq, Prod.mk.injEq, true_and] at h
    rw [← h]
    omega
  · exact Decompress.updateLoop_cur dec fuel d _ _ d1 rfl h

/-! ### The log of codec calls of a compress lifecycle -/

/-- Helper: the update inputs of two logs in a row. -/
theorem updateInputs_append (a b : List Call) :
    updateInputs (a ++ b) = updateInputs a ++ updateInputs b := by
  induction a with
  | nil => rfl
  | cons c cs ih => cases c <;> simp [updateInputs, ih]

/-- Helper: the begin calls of two logs in a row. -/
theorem beginCalls_append (a b : List Call) :
    beginCalls (a ++ b) = beginCalls a + beginCalls b := by
  induction a with
  | nil => simp [beginCalls]
  | cons c cs ih => cases c <;> simp [beginCalls, ih, Nat.add_right_comm]

/-- Helper: what a flush of a non-empty compress buffer adds to the log and
to the sink. -/
theorem Compress.update_log {σ : Type} (codec : Compressor σ) (d : prv (cnative σ))
    (h : 0 < d.cur_buf_in) :
    (Compress.update codec d).2.calls
      = d.calls ++ [.compressBound d.cur_buf_in,
          .compressUpdate (codec.LZ4F_compressBound d.cur_buf_in d.native.pfs)
            (d.buf_in.take d.cur_buf_in)] ∧
    ∃ out, (Compress.update codec d).2.wt.data = d.wt.data ++ out := by
  have h1 : ¬ d.cur_buf_in < 1 := by omega
  simp only [Compress.update, if_neg h1, prv.log]
  split
  · exact ⟨by simp [__error__], [], by simp [__error__]⟩
  · next ctx out heq => exact ⟨by simp, out, by simp [iwriter.write]⟩

/-- Helper: what `finish` adds to the log and to the sink. -/
theorem Compress.finish_log {σ : Type} (codec : Compressor σ) (d : prv (cnative σ)) :
    (Compress.finish codec d).2.calls = d.calls ++ [.compressEnd d.buf_out_size] ∧
    ∃ out, (Compress.finish codec d).2.wt.data = d.wt.data ++ out := by
  simp only [Compress.finish, prv.log]
  split
  · exact ⟨by simp [__error_ss__, __error__], [], by simp [__error_ss__, __error__]⟩
  · next ctx out heq => exact ⟨by simp, out, by simp [iwriter.write]⟩

/-- Helper: what a `begin` that succeeds adds to the log and to the sink. -/
theorem Compress.begin_log {σ : Type} (codec : Compressor σ) (d : prv (cnative σ))
    (h : (Compress.begun_of codec d).1 = true) :
    (Compress.begun_of codec d).2.calls
      = d.calls ++ [.compressBound d.content_size, .compressBound 0,
          .compressBegin (codec.LZ4F_compressBound 0 d.native.pfs)] ∧
    ∃ ctx header,
      codec.LZ4F_compressBegin d.native.ctx (codec.LZ4F_compressBound 0 d.native.pfs)
        d.native.pfs = (ctx, .ok header) ∧
      (Compress.begun_of codec d).2.wt.data = d.wt.data ++ header := by
  by_cases hb : codec.LZ4F_compressBound d.content_size d.native.pfs < LZ4F_HEADER_SIZE_MIN
  · exfalso
    unfold Compress.begun_of Compress.begin at h
    split_ifs at h <;> simp [prv.log, hb] at h
  · rcases hres : codec.LZ4F_compressBegin d.native.ctx
        (codec.LZ4F_compressBound 0 d.native.pfs) d.native.pfs with ⟨ctx, name | header⟩
    · exfalso
      unfold Compress.begun_of Compress.begin at h
      split_ifs at h <;> simp [prv.log, hb, hres] at h
    · refine ⟨?_, ctx, header, rfl, ?_⟩
      · unfold Compress.begun_of Compress.begin
        split_ifs <;> simp [prv.log, hb, hres]
      · unfold Compress.begun_of Compress.begin
        split_ifs <;> simp [prv.log, hb, hres, iwriter.write, iwriter.reserve]
/-- Helper: what the accumulation of `data` on a begun compress context whose
flushes succeed adds to the log: the update inputs are blocks of exactly the
capacity, and the pending bytes followed by `data` are these blocks followed
by the bytes left pending. -/
theorem Compress.pushAll_blocks {σ : Type} (codec : Compressor σ)
    (hu : ∀ d, (Compress.update codec d).1 = true) (data : List Byte) :
    ∀ d : prv (cnative σ), d.cur_buf_in < d.buf_in.length →
      ∃ blocks : List (List Byte),
        updateInputs (pushAll (Compress.update codec) data d).2.calls
          = updateInputs d.calls ++ blocks ∧
        (∀ b ∈ blocks, b.length = d.buf_in.length) ∧
        d.buf_in.take d.cur_buf_in ++ data
          = blocks.flatten ++
              (pushAll (Compress.update codec) data d).2.buf_in.take
                (pushAll (Compress.update codec) data d).2.cur_buf_in ∧
        (pushAll (Compress.update codec) data d).2.cur_buf_in < d.buf_in.length ∧
        (pushAll (Compress.update codec) data d).2.buf_in.length = d.buf_in.length ∧
        beginCalls (pushAll (Compress.update codec) data d).2.calls = beginCalls d.calls ∧
        ∃ more, (pushAll (Compress.update codec) data d).2.wt.data = d.wt.data ++ more := by
  induction data with
  | nil =>
    intro d h
    exact ⟨[], by simp [pushAll], by simp, by simp [pushAll], by simpa [pushAll] using h,
      by simp [pushAll], by simp [pushAll], [], by simp [pushAll]⟩
  | cons x xs ih =>
    intro d h
    by_cases hlt : d.cur_buf_in + 1 < d.buf_in.length
    · have hp : pushAll (Compress.update codec) (x :: xs) d
          = pushAll (Compress.update codec) xs (store d [x]) := by
        rw [pushAll, if_pos hlt]
      have hl : (store d [x]).buf_in.length = d.buf_in.length :=
        memcpy_length _ _ _ (by
          simp only [List.length_singleton]
          omega)
      have hc : (store d [x]).cur_buf_in = d.cur_buf_in + 1 := rfl
      have ht : (store d [x]).buf_in.take (store d [x]).cur_buf_in
          = d.buf_in.take d.cur_buf_in ++ [x] :=
        take_memcpy d.buf_in d.cur_buf_in [x] (by
          simp only [List.length_singleton]
          omega)
      obtain ⟨blocks, h1, h2, h3, h4, h5, h6, h7⟩ := ih (store d [x]) (by
        rw [hl, hc]
        exact hlt)
      rw [hp]
      refine ⟨blocks, h1, ?_, ?_, ?_, ?_, h6, h7⟩
      · rw [← hl]
        exact h2
      · rw [← h3, ht]
        simp
      · rw [← hl]
        exact h4
      · rw [h5, hl]
    · have hfull : d.buf_in.length - d.cur_buf_in = 1 := by omega
      have hfe : fill d [x] = { d with buf_in := memcpy d.buf_in d.cur_buf_in [x],
                                       cur_buf_in := d.buf_in.length } := by
        simp only [fill, hfull]
        rfl
      have hel : (fill d [x]).buf_in.length = d.buf_in.length := by
        rw [hfe]
        exact memcpy_length _ _ _ (by
          simp only [List.length_singleton]
          omega)
      have hec : (fill d [x]).cur_buf_in = d.buf_in.length := rfl
      have het : (fill d [x]).buf_in.take (fill d [x]).cur_buf_in
          = d.buf_in.take d.cur_buf_in ++ [x] := by
        rw [hfe]
        show (memcpy d.buf_in d.cur_buf_in [x]).take d.buf_in.length = _
        have hlen : d.buf_in.length = d.cur_buf_in + [x].length := by
          simp only [List.length_singleton]
          omega
        rw [hlen]
        exact take_memcpy d.buf_in d.cur_buf_in [x] (by
          simp only [List.length_singleton]
          omega)
      obtain ⟨hlog, out, hout⟩ := Compress.update_log codec (fill d [x]) (by
        rw [hec]
        omega)
      have hcur := Compress.update_cur codec (fill d [x])
      obtain ⟨hbuf, _, _, _⟩ := Compress.update_frame codec (fill d [x])
      have hq : Compress.update codec (fill d [x])
          = (true, (Compress.update codec (fill d [x])).2) := Prod.ext (hu _) rfl
      have hp : pushAll (Compress.update codec) (x :: xs) d
          = pushAll (Compress.update codec) xs (Compress.update codec (fill d [x])).2 := by
        rw [pushAll, if_neg hlt, hq]
      obtain ⟨blocks, h1, h2, h3, h4, h5, h6, h7⟩ :=
        ih (Compress.update codec (fill d [x])).2 (by
          rw [hcur, hbuf, hel]
          omega)
      obtain ⟨more, h7⟩ := h7
      rw [hp]
      rw [hbuf, hel] at h2 h4 h5
      rw [hlog, updateInputs_append, het] at h1
      rw [hlog, beginCalls_append] at h6
      rw [hcur, List.take_zero, List.nil_append] at h3
      refine ⟨(d.buf_in.take d.cur_buf_in ++ [x]) :: blocks, ?_, ?_, ?_, h4, h5, ?_,
        out ++ more, ?_⟩
      · rw [h1]
        simp [updateInputs]
        rfl
      · intro b hb
        rcases List.mem_cons.mp hb with rfl | hb
        · rw [List.length_append, List.length_take, List.length_singleton]
          omega
        · exact h2 b hb
      · rw [List.flatten_cons, List.append_assoc, List.append_assoc, ← h3]
        simp
      · rw [h6]
        simp [beginCalls]
        rfl
      · rw [h7, hout]
        simp
        rfl

/-- Helper: blocks of `C` bytes each hold `C` bytes per block in all. -/
theorem flatten_length_blocks (C : Nat) (blocks : List (List Byte))
    (h : ∀ b ∈ blocks, b.length = C) : blocks.flatten.length = blocks.length * C := by
  induction blocks with
  | nil => simp
  | cons b bs ih =>
    rw [List.flatten_cons, List.length_append, h b (List.mem_cons_self b bs),
      ih (fun c hc => h c (List.mem_cons_of_mem b hc)), List.length_cons, Nat.succ_mul]
    omega

/-- C12. Block splitting: on a compress context that has not begun, with
fill level 0 and capacity `C = capacityFor content_size ≥ 1`, and a codec
that does not fail, the commits of any chunks whose concatenation is `D`
return true (given fuel above the byte count), and `D` splits as `D / C`
blocks of exactly `C` bytes followed by a rest of `D mod C` bytes such that
the inputs handed to `LZ4F_compressUpdate` by the commits are exactly the
blocks, in order, and the inputs after `finish` are the blocks followed by
the rest when it is not empty. -/
theorem block_splitting {σ : Type} (codec : Compressor σ) (d : prv (cnative σ))
    (fuel : Nat) (chunks : List (List Byte))
    (hb : d.begun = false) (hc : d.cur_buf_in = 0) (hcs : 0 < d.content_size)
    (hbound : LZ4F_HEADER_SIZE_MIN ≤ codec.LZ4F_compressBound d.content_size d.native.pfs)
    (hbegin : ∀ c cap p, ∃ c1 out, codec.LZ4F_compressBegin c cap p = (c1, .ok out))
    (hupdate : ∀ c cap src, ∃ c1 out, codec.LZ4F_compressUpdate c cap src = (c1, .ok out))
    (hf : chunks.flatten.length < fuel) :
    ∃ (d1 : prv (cnative σ)) (blocks : List (List Byte)) (rest : List Byte),
      feed (Compress.context_update codec fuel) chunks d = .ok (true, d1) ∧
      chunks.flatten = blocks.flatten ++ rest ∧
      (∀ b ∈ blocks, b.length = capacityFor d.content_size) ∧
      rest.length < capacityFor d.content_size ∧
      blocks.length = chunks.flatten.length / capacityFor d.content_size ∧
      rest.length = chunks.flatten.length % capacityFor d.content_size ∧
      updateInputs d1.calls = updateInputs d.calls ++ blocks ∧
      updateInputs (Compress.context_finish codec d1).2.calls
        = updateInputs d.calls ++ blocks ++ (if rest = [] then [] else [rest]) := by
  have hC := capacityFor_pos d.content_size hcs
  have hfeed := Compress.feed_fresh codec fuel d hb hc chunks hf
  have key : ∀ (d1 : prv (cnative σ)) (blocks : List (List Byte)),
      chunks.flatten = blocks.flatten ++ d1.buf_in.take d1.cur_buf_in →
      (∀ b ∈ blocks, b.length = capacityFor d.content_size) →
      d1.cur_buf_in < capacityFor d.content_size →
      d1.cur_buf_in ≤ d1.buf_in.length →
      updateInputs d1.calls = updateInputs d.calls ++ blocks →
      chunks.flatten = blocks.flatten ++ d1.buf_in.take d1.cur_buf_in ∧
      (∀ b ∈ blocks, b.length = capacityFor d.content_size) ∧
      (d1.buf_in.take d1.cur_buf_in).length < capacityFor d.content_size ∧
      blocks.length = chunks.flatten.length / capacityFor d.content_size ∧
      (d1.buf_in.take d1.cur_buf_in).length
        = chunks.flatten.length % capacityFor d.content_size ∧
      updateInputs d1.calls = updateInputs d.calls ++ blocks ∧
      updateInputs (Compress.context_finish codec d1).2.calls
        = updateInputs d.calls ++ blocks
            ++ (if d1.buf_in.take d1.cur_buf_in = [] then [] else [d1.buf_in.take d1.cur_buf_in])
      := by
    intro d1 blocks h1 h2 h3 h4 h5
    have hrl : (d1.buf_in.take d1.cur_buf_in).length = d1.cur_buf_in := by
      rw [List.length_take]
      omega
    have hlen : chunks.flatten.length
        = d1.cur_buf_in + blocks.length * capacityFor d.content_size := by
      rw [h1, List.length_append, flatten_length_blocks _ blocks h2, hrl]
      omega
    refine ⟨h1, h2, by omega, ?_, ?_, h5, ?_⟩
    · rw [hlen, Nat.add_mul_div_right _ _ (by omega), Nat.div_eq_of_lt h3]
      omega
    · rw [hlen, Nat.add_mul_mod_self_right, Nat.mod_eq_of_lt h3, hrl]
    · unfold Compress.context_finish
      rw [(Compress.finish_log codec _).1, updateInputs_append]
      by_cases h0 : d1.cur_buf_in = 0
      · rw [Compress.update_idle codec d1 h0, h5, h0]
        simp [updateInputs]
      · rw [(Compress.update_log codec d1 (by omega)).1, updateInputs_append, h5]
        have hne : d1.buf_in.take d1.cur_buf_in ≠ [] := by
          intro hnil
          rw [hnil] at hrl
          simp at hrl
          omega
        simp [updateInputs, hne]
  by_cases hD : chunks.flatten = []
  · rw [if_pos hD] at hfeed
    exact ⟨d, [], d.buf_in.take d.cur_buf_in, hfeed,
      key d [] (by simp [hD, hc]) (by simp) (by omega) (by omega) (by simp)⟩
  · have hbo := Compress.begun_of_ok codec d hbound hbegin
    have hu := Compress.update_ok codec hupdate
    have hnb : ¬ (Compress.begun_of codec d).1 = false := by simp [hbo]
    rw [if_neg hD, if_neg hnb, if_neg hC] at hfeed
    obtain ⟨f1, f2, _, _, _⟩ := Compress.begin_frame codec d
    have hlog := (Compress.begin_log codec d hbo).1
    obtain ⟨blocks, h1, h2, h3, h4, h5, _, _⟩ :=
      Compress.pushAll_blocks codec hu chunks.flatten
        { (Compress.begun_of codec d).2 with begun := true } (by
          show (Compress.begun_of codec d).2.cur_buf_in
            < (Compress.begun_of codec d).2.buf_in.length
          rw [f1, f2, hc]
          omega)
    have e1 : ({ (Compress.begun_of codec d).2 with begun := true } :
        prv (cnative σ)).buf_in.length = capacityFor d.content_size := f2
    have e2 : ({ (Compress.begun_of codec d).2 with begun := true } :
        prv (cnative σ)).cur_buf_in = 0 := by
      show (Compress.begun_of codec d).2.cur_buf_in = 0
      rw [f1, hc]
    have e3 : updateInputs ({ (Compress.begun_of codec d).2 with begun := true } :
        prv (cnative σ)).calls = updateInputs d.calls := by
      show updateInputs (Compress.begun_of codec d).2.calls = _
      rw [hlog, updateInputs_append]
      simp [updateInputs]
    rw [e1] at h2 h4 h5
    rw [e2, List.take_zero, List.nil_append] at h3
    rw [e3] at h1
    refine ⟨_, blocks, _, ?_, key _ blocks h3 h2 h4 (by omega) h1⟩
    rw [hfeed]
    exact congrArg Except.ok (Prod.ext (pushAll_true _ hu _ _) rfl)

/-- Witness for C12: a context for 2 bytes fed `[1]` and `[2, 3]` by the
stored codec. -/
theorem block_splitting_witness :
    ∃ (d1 : prv (cnative Unit)) (blocks : List (List Byte)) (rest : List Byte),
      feed (Compress.context_update Stored.enc 4) [[1], [2, 3]]
        (compress_context raw0 2 emptySink prefs0) = .ok (true, d1) ∧
      [[1], [2, 3]].flatten = blocks.flatten ++ rest ∧
      (∀ b ∈ blocks, b.length = capacityFor (compress_context raw0 2 emptySink prefs0).content_size) ∧
      rest.length < capacityFor (compress_context raw0 2 emptySink prefs0).content_size ∧
      blocks.length = [[1], [2, 3]].flatten.length
        / capacityFor (compress_context raw0 2 emptySink prefs0).content_size ∧
      rest.length = [[1], [2, 3]].flatten.length
        % capacityFor (compress_context raw0 2 emptySink prefs0).content_size ∧
      updateInputs d1.calls
        = updateInputs (compress_context raw0 2 emptySink prefs0).calls ++ blocks ∧
      updateInputs (Compress.context_finish Stored.enc d1).2.calls
        = updateInputs (compress_context raw0 2 emptySink prefs0).calls ++ blocks
            ++ (if rest = [] then [] else [rest]) :=
  block_splitting Stored.enc (compress_context raw0 2 emptySink prefs0) 4 [[1], [2, 3]]
    rfl rfl (by decide) (by decide) (fun _ _ _ => ⟨(), _, rfl⟩) (fun _ _ _ => ⟨(), _, rfl⟩)
    (by decide)

/-! ### The frame header of a compress lifecycle -/

/-- Helper: a flush of a compress context extends the log by calls other than
`LZ4F_compressBegin` and extends the sink. -/
theorem Compress.update_extends {σ : Type} (codec : Compressor σ) (d : prv (cnative σ)) :
    ∃ extra more, (Compress.update codec d).2.calls = d.calls ++ extra ∧
      beginCalls extra = 0 ∧ (Compress.update codec d).2.wt.data = d.wt.data ++ more := by
  by_cases h0 : d.cur_buf_in = 0
  · rw [Compress.update_idle codec d h0]
    exact ⟨[], [], by simp, rfl, by simp⟩
  · obtain ⟨h1, out, h2⟩ := Compress.update_log codec d (by omega)
    exact ⟨_, out, h1, rfl, h2⟩

/-- Helper: the accumulation on a compress context extends the log by calls
other than `LZ4F_compressBegin`, extends the sink and keeps `begun`. -/
theorem Compress.pushAll_extends {σ : Type} (codec : Compressor σ) (data : List Byte) :
    ∀ d : prv (cnative σ),
      ∃ extra more,
        (pushAll (Compress.update codec) data d).2.calls = d.calls ++ extra ∧
        beginCalls extra = 0 ∧
        (pushAll (Compress.update codec) data d).2.wt.data = d.wt.data ++ more ∧
        (pushAll (Compress.update codec) data d).2.begun = d.begun := by
  induction data with
  | nil =>
    intro d
    exact ⟨[], [], by simp [pushAll], rfl, by simp [pushAll], by simp [pushAll]⟩
  | cons x xs ih =>
    intro d
    by_cases hlt : d.cur_buf_in + 1 < d.buf_in.length
    · rw [pushAll, if_pos hlt]
      exact ih (store d [x])
    · rw [pushAll, if_neg hlt]
      obtain ⟨e1, m1, h1, h2, h3⟩ := Compress.update_extends codec (fill d [x])
      obtain ⟨_, h4, _, _⟩ := Compress.update_frame codec (fill d [x])
      rcases hq : Compress.update codec (fill d [x]) with ⟨b, d2⟩
      rw [hq] at h1 h3 h4
      cases b with
      | false => exact ⟨e1, m1, h1, h2, h3, h4⟩
      | true =>
        obtain ⟨e2, m2, k1, k2, k3, k4⟩ := ih d2
        refine ⟨e1 ++ e2, m1 ++ m2, ?_, ?_, ?_, ?_⟩
        · show (pushAll (Compress.update codec) xs d2).2.calls = _
          rw [k1, h1, List.append_assoc]
          rfl
        · rw [beginCalls_append, h2, k2]
        · show (pushAll (Compress.update codec) xs d2).2.wt.data = _
          rw [k3, h3, List.append_assoc]
          rfl
        · show (pushAll (Compress.update codec) xs d2).2.begun = _
          rw [k4, h4]
          rfl

/-- Helper: `Compress.feed_fresh` for a context that has not begun and whose
fill level is below the capacity `begin` is to give: the pending bytes stay
and the chunks are accumulated after them. -/
theorem Compress.feed_unbegun {σ : Type} (codec : Compressor σ) (fuel : Nat)
    (d : prv (cnative σ)) (hb : d.begun = false)
    (hc : d.cur_buf_in < capacityFor d.content_size)
    (chunks : List (List Byte)) (hf : chunks.flatten.length < fuel) :
    feed (Compress.context_update codec fuel) chunks d =
      if chunks.flatten = [] then .ok (true, d)
      else if (Compress.begun_of codec d).1 = false then
        .ok (false, { (Compress.begun_of codec d).2 with begun := false })
      else .ok (pushAll (Compress.update codec) chunks.flatten
                  { (Compress.begun_of codec d).2 with begun := true }) := by
  induction chunks with
  | nil => rfl
  | cons a rest ih =>
    simp only [List.flatten_cons, List.length_append] at hf
    by_cases ha : a = []
    · subst ha
      rw [feed, Compress.context_update, (commit_noop _ _ fuel d 0).2]
      simp only [List.flatten_cons, List.nil_append]
      exact ih (by omega)
    · have hpos : 0 < a.length := List.length_pos.mpr ha
      have hne : ¬ (a :: rest).flatten = [] := by simp [ha]
      obtain ⟨f, rfl⟩ : ∃ f, fuel = f + 1 := ⟨fuel - 1, by omega⟩
      have hfr := Compress.begin_frame codec d
      rw [feed, Compress.commit_fresh codec f d a hb hpos, if_neg hne]
      rcases hbo : Compress.begun_of codec d with ⟨b, d1⟩
      rw [hbo] at hfr
      cases b
      · simp
      · simp only [if_true, Bool.true_eq_false, if_false]
        rw [Compress.context_update]
        have hb1 : ({ d1 with begun := true } : prv (cnative σ)).begun = true := rfl
        have hc1 : ({ d1 with begun := true } : prv (cnative σ)).cur_buf_in
            < ({ d1 with begun := true } : prv (cnative σ)).buf_in.length := by
          simp only
          rw [hfr.1, hfr.2.1]
          exact hc
        rw [commit_eq_pushAll _ (Compress.vupdate codec) (Compress.update codec)
          (fun _ _ => rfl) (Compress.update_cur codec)
          (fun d => (Compress.update_frame codec d).1)
          (fun d => (Compress.update_frame codec d).2.1) (f + 1) a _ hb1 hc1 (by omega),
          List.flatten_cons, pushAll_append]
        have hinv := pushAll_inv (Compress.update codec) (Compress.update_cur codec)
          (fun d => (Compress.update_frame codec d).1)
          (fun d => (Compress.update_frame codec d).2.1) a _ hb1 hc1
        rcases hp : pushAll (Compress.update codec) a { d1 with begun := true } with ⟨b2, d2⟩
        rw [hp] at hinv
        cases b2
        · rfl
        · exact feed_eq_pushAll _ (Compress.vupdate codec) (Compress.update codec)
            (fun _ _ => rfl) (Compress.update_cur codec)
            (fun d => (Compress.update_frame codec d).1)
            (fun d => (Compress.update_frame codec d).2.1) (f + 1) rest d2
            hinv.1 hinv.2.1 (by omega)

/-- C13 (amended). One-time header: on a compress context that has not begun
(fresh, finished or reset, with its fill level 0 or below the capacity), let
the commits of some chunks all return true (fuel above the byte count).  If the chunks hold no byte, `begin` has not run
and the context is as it was.  If they hold a byte, `begin` ran once, before
every other codec call of the lifecycle: the log is the one held before, the
three calls of `begin` and then calls other than `LZ4F_compressBegin`, the
sink is the one held before, the frame header and then the bytes of the
updates, and `finish` adds no begin call and only appends to the sink.  And a
`begin` that fails makes the commit of any bytes return false with `begun`
false. -/
theorem header_written_once {σ : Type} (codec : Compressor σ) (d : prv (cnative σ))
    (fuel : Nat) (chunks : List (List Byte))
    (hb : d.begun = false)
    (hc : d.cur_buf_in = 0 ∨ d.cur_buf_in < capacityFor d.content_size)
    (hf : chunks.flatten.length < fuel) :
    (∀ d1, feed (Compress.context_update codec fuel) chunks d = .ok (true, d1) →
      (chunks.flatten = [] → d1 = d) ∧
      (chunks.flatten ≠ [] →
        ∃ ctx header more extra,
          codec.LZ4F_compressBegin d.native.ctx (codec.LZ4F_compressBound 0 d.native.pfs)
            d.native.pfs = (ctx, .ok header) ∧
          d1.begun = true ∧
          d1.calls = d.calls ++ [.compressBound d.content_size, .compressBound 0,
              .compressBegin (codec.LZ4F_compressBound 0 d.native.pfs)] ++ extra ∧
          beginCalls extra = 0 ∧
          d1.wt.data = d.wt.data ++ header ++ more ∧
          beginCalls (Compress.context_finish codec d1).2.calls = beginCalls d.calls + 1 ∧
          ∃ more2, (Compress.context_finish codec d1).2.wt.data
            = d.wt.data ++ header ++ more2)) ∧
    ((Compress.begun_of codec d).1 = false → ∀ data : List Byte, 0 < data.length →
      ∃ d2, Compress.context_update codec (fuel + 1) d (.ptr data) = .ok (false, d2) ∧
        d2.begun = false ∧ d2.wt.data = d.wt.data) := by
  constructor
  · intro d1 h
    have hfacts : (chunks.flatten = [] → d1 = d) ∧
        (chunks.flatten ≠ [] → (Compress.begun_of codec d).1 = true ∧
          pushAll (Compress.update codec) chunks.flatten
            { (Compress.begun_of codec d).2 with begun := true } = (true, d1)) := by
      rcases hc with h0 | hlt
      · rw [Compress.feed_fresh codec fuel d hb h0 chunks hf] at h
        constructor
        · intro hD
          rw [if_pos hD] at h
          simp only [Except.ok.injEq, Prod.mk.injEq, true_and] at h
          exact h.symm
        · intro hD
          rw [if_neg hD] at h
          split_ifs at h with h1 h2
          · simp at h
          · exact ⟨by simpa using h1, by simpa using h⟩
      · rw [Compress.feed_unbegun codec fuel d hb hlt chunks hf] at h
        constructor
        · intro hD
          rw [if_pos hD] at h
          simp only [Except.ok.injEq, Prod.mk.injEq, true_and] at h
          exact h.symm
        · intro hD
          rw [if_neg hD] at h
          split_ifs at h with h1
          · simp at h
          · exact ⟨by simpa using h1, by simpa using h⟩
    refine ⟨hfacts.1, ?_⟩
    · intro hD
      obtain ⟨hbo, hrun⟩ := hfacts.2 hD
      obtain ⟨hlog, ctx, header, hbeg, hsink⟩ := Compress.begin_log codec d hbo
      obtain ⟨extra, more, k1, k2, k3, k4⟩ :=
        Compress.pushAll_extends codec chunks.flatten
          { (Compress.begun_of codec d).2 with begun := true }
      rw [hrun] at k1 k3 k4
      obtain ⟨e1, m1, u1, u2, u3⟩ := Compress.update_extends codec d1
      obtain ⟨f1, m2, f2⟩ := Compress.finish_log codec (Compress.update codec d1).2
      have c1 : d1.calls = d.calls ++ [.compressBound d.content_size, .compressBound 0,
            .compressBegin (codec.LZ4F_compressBound 0 d.native.pfs)] ++ extra := by
        rw [← hlog]
        exact k1
      have c2 : d1.wt.data = d.wt.data ++ header ++ more := by
        rw [← hsink]
        exact k3
      refine ⟨ctx, header, more, extra, hbeg, k4, c1, k2, c2, ?_, more ++ m1 ++ m2, ?_⟩
      · unfold Compress.context_finish
        rw [f1, u1, c1]
        simp only [beginCalls_append, u2, k2]
        simp [beginCalls]
      · unfold Compress.context_finish
        rw [f2, u3, c2]
        simp
  · intro hfail data hne
    refine ⟨{ (Compress.begun_of codec d).2 with begun := false }, ?_, rfl, ?_⟩
    · rw [Compress.commit_fresh codec fuel d data hb hne]
      simp [hfail]
    · show (Compress.begun_of codec d).2.wt.data = d.wt.data
      by_cases hlow : codec.LZ4F_compressBound d.content_size d.native.pfs
          < LZ4F_HEADER_SIZE_MIN
      · unfold Compress.begun_of Compress.begin
        split_ifs <;> simp [prv.log, hlow, __error__]
      · rcases hres : codec.LZ4F_compressBegin d.native.ctx
            (codec.LZ4F_compressBound 0 d.native.pfs) d.native.pfs with ⟨ctx, name | header⟩
        · unfold Compress.begun_of Compress.begin
          split_ifs <;>
            simp [prv.log, hlow, hres, __error__, __error_ss__, iwriter.reserve]
        · exfalso
          unfold Compress.begun_of Compress.begin at hfail
          split_ifs at hfail <;> simp [prv.log, hlow, hres] at hfail

/-- Witness for C13 (amended): the commits of `[1]` and `[2, 3]` on a fresh
context for 2 bytes. -/
theorem header_written_once_witness :
    ∃ ctx header more extra,
      Stored.enc.LZ4F_compressBegin (compress_context raw0 2 emptySink prefs0).native.ctx
        (Stored.enc.LZ4F_compressBound 0 (compress_context raw0 2 emptySink prefs0).native.pfs)
        (compress_context raw0 2 emptySink prefs0).native.pfs = (ctx, .ok header) ∧
      firstFeed.begun = true ∧
      firstFeed.calls = (compress_context raw0 2 emptySink prefs0).calls
        ++ [.compressBound (compress_context raw0 2 emptySink prefs0).content_size,
            .compressBound 0,
            .compressBegin (Stored.enc.LZ4F_compressBound 0
              (compress_context raw0 2 emptySink prefs0).native.pfs)] ++ extra ∧
      beginCalls extra = 0 ∧
      firstFeed.wt.data = (compress_context raw0 2 emptySink prefs0).wt.data ++ header ++ more ∧
      beginCalls (Compress.context_finish Stored.enc firstFeed).2.calls
        = beginCalls (compress_context raw0 2 emptySink prefs0).calls + 1 ∧
      ∃ more2, (Compress.context_finish Stored.enc firstFeed).2.wt.data
        = (compress_context raw0 2 emptySink prefs0).wt.data ++ header ++ more2 :=
  ((header_written_once Stored.enc (compress_context raw0 2 emptySink prefs0) 4 [[1], [2, 3]]
    rfl (Or.inl rfl) (by decide)).1 firstFeed rfl).2 (by decide)

/-- C13, counterexample. A compress lifecycle on a fresh context for 3 bytes
whose two commits carry no bytes and return true, followed by `finish`, which
returns true: `begin` never ran, the only codec call is `LZ4F_compressEnd`,
and the sink holds the frame end and no frame header. -/
theorem empty_lifecycle_never_begins :
    feed (Compress.context_update Stored.enc 4) [[], []]
        (compress_context raw0 3 emptySink prefs0)
      = .ok (true, compress_context raw0 3 emptySink prefs0) ∧
    (cycle Stored.enc 4 [[], []] (compress_context raw0 3 emptySink prefs0)).map
        (fun r => (r.1, r.2.calls, beginCalls r.2.calls, r.2.wt.data))
      = .ok (true, [.compressEnd 0], 0, [0, 0, 0, 0]) :=
  ⟨rfl, rfl⟩

/-! ### `Decompress.update` drains the pending bytes -/

/-- Helper: the loop of `Decompress.update` under a decoder that makes
progress: with enough fuel it returns true after rounds that drain the bytes
it was entered with. -/
theorem Decompress.updateLoop_rounds {δ : Type} (dec : Decompressor δ) (cap : Nat)
    (todo : δ → Nat) (hcodec : Progresses dec cap todo) :
    ∀ (remain t : Nat) (d : prv δ) (pos : Nat), d.buf_out_cap = cap → todo d.native ≤ t →
      d.cur_buf_in = remain → pos + remain ≤ d.buf_in.length →
      ∃ (rounds : List Round) (st2 : δ) (fuel0 : Nat),
        Rounds dec cap d.native ((d.buf_in.drop pos).take remain) rounds st2 ∧
        (rounds.map Round.consumed).sum = remain ∧
        ∀ fuel, fuel0 ≤ fuel →
          ∃ d1, Decompress.updateLoop dec fuel d remain pos = .ok (true, d1) ∧
            d1.cur_buf_in = 0 ∧
            d1.calls = d.calls ++ rounds.map (fun x => Call.decompress cap x.offered) ∧
            d1.wt.data = d.wt.data ++ (rounds.map Round.produced).flatten ∧
            d1.native = st2 ∧ d1.buf_in = d.buf_in := by
  intro remain
  induction remain using Nat.strong_induction_on with
  | _ remain ihr =>
    intro t
    induction t using Nat.strong_induction_on with
    | _ t iht =>
      intro d pos hcap ht hcur hpos
      by_cases h0 : 0 < remain
      · have hlen : ((d.buf_in.drop pos).take remain).length = remain := by
          rw [List.length_take, List.length_drop]
          omega
        have hr : (d.buf_in.drop pos).take remain ≠ [] := by
          intro hnil
          rw [hnil] at hlen
          simp at hlen
          omega
        obtain ⟨st1, c, out, hcall, hc, hprog⟩ := hcodec d.native _ hr
        rw [hlen] at hc
        have hwin : (d.buf_in.drop (pos + c)).take (remain - c)
            = ((d.buf_in.drop pos).take remain).drop c := by
          rw [List.drop_take, List.drop_drop]
        have next : ∃ (rounds : List Round) (st2 : δ) (fuel0 : Nat),
            Rounds dec cap st1 (((d.buf_in.drop pos).take remain).drop c) rounds st2 ∧
            (rounds.map Round.consumed).sum = remain - c ∧
            ∀ fuel, fuel0 ≤ fuel →
              ∃ d1, Decompress.updateLoop dec fuel
                  { d with buf_out_size := d.buf_out_cap,
                           calls := d.calls ++ [Call.decompress d.buf_out_cap
                             ((d.buf_in.drop pos).take remain)],
                           native := st1, cur_buf_in := remain - c, wt := d.wt.write out }
                  (remain - c) (pos + c) = .ok (true, d1) ∧
                d1.cur_buf_in = 0 ∧
                d1.calls = (d.calls ++ [Call.decompress d.buf_out_cap
                    ((d.buf_in.drop pos).take remain)])
                  ++ rounds.map (fun x => Call.decompress cap x.offered) ∧
                d1.wt.data = (d.wt.write out).data
                  ++ (rounds.map Round.produced).flatten ∧
                d1.native = st2 ∧ d1.buf_in = d.buf_in := by
          rcases Nat.eq_zero_or_pos c with hz | hcpos
          · have hlt : todo st1 < todo d.native := by
              rcases hprog with h | h
              · omega
              · exact h
            subst hz
            have := iht (todo st1) (by omega)
              { d with buf_out_size := d.buf_out_cap,
                       calls := d.calls ++ [Call.decompress d.buf_out_cap
                         ((d.buf_in.drop pos).take remain)],
                       native := st1, cur_buf_in := remain - 0, wt := d.wt.write out }
              pos hcap (Nat.le_refl _) (Nat.sub_zero remain) hpos
            simpa only [Nat.sub_zero, Nat.add_zero, List.drop_zero] using this
          · have := ihr (remain - c) (by omega) (todo st1)
              { d with buf_out_size := d.buf_out_cap,
                       calls := d.calls ++ [Call.decompress d.buf_out_cap
                         ((d.buf_in.drop pos).take remain)],
                       native := st1, cur_buf_in := remain - c, wt := d.wt.write out }
              (pos + c) hcap (Nat.le_refl _) rfl (by
                show pos + c + (remain - c) ≤ d.buf_in.length
                omega)
            rw [← hwin]
            exact this
        obtain ⟨rounds, st2, fuel0, hrounds, hsum, hrun⟩ := next
        refine ⟨⟨(d.buf_in.drop pos).take remain, c, out⟩ :: rounds, st2, fuel0 + 1,
          ⟨hr, rfl, by rw [hlen]; exact hc, st1, hcall, hrounds⟩, ?_, ?_⟩
        · simp only [List.map_cons, List.sum_cons, hsum]
          omega
        · intro fuel hfuel
          obtain ⟨f, rfl⟩ : ∃ f, fuel = f + 1 := ⟨fuel - 1, by omega⟩
          obtain ⟨d1, h1, h2, h3, h4, h5, h6⟩ := hrun f (by omega)
          refine ⟨d1, ?_, h2, ?_, ?_, h5, h6⟩
          · have hcall2 : dec.LZ4F_decompress d.native d.buf_out_cap
                ((d.buf_in.drop pos).take remain) = (st1, c, .ok out) := by
              rw [hcap]
              exact hcall
            simp only [Decompress.updateLoop, if_pos h0, prv.log, hcur, hcall2]
            rw [if_neg (by omega)]
            exact h1
          · rw [h3, hcap]
            simp
          · rw [h4]
            simp [iwriter.write]
      · have hz : remain = 0 := by omega
        subst hz
        refine ⟨[], d.native, 0, ⟨by simp, rfl⟩, by simp, ?_⟩
        intro fuel _
        refine ⟨d, ?_, hcur, by simp, by simp, rfl, rfl⟩
        cases fuel <;> simp [Decompress.updateLoop]

/-- C16. Decompress update consumes everything in order: on a decompress
context whose fill level `n > 0` is within the capacity, with a decoder that
on each call succeeds, consumes no more than it is offered and consumes a
byte or else makes progress on what it holds to deliver, there are rounds
that drain the `n` pending bytes, each offered what the round before left,
whose consumed counts sum to `n`, such that with enough fuel `update` returns
true with fill level 0, having made exactly the calls of these rounds in
order and appended their outputs to the sink in order. -/
theorem decompress_update_consumes_all {δ : Type} (dec : Decompressor δ) (todo : δ → Nat)
    (d : prv δ) (hn : 0 < d.cur_buf_in) (hle : d.cur_buf_in ≤ d.buf_in.length)
    (hcodec : Progresses dec d.buf_out_cap todo) :
    ∃ (rounds : List Round) (st2 : δ) (fuel0 : Nat),
      Rounds dec d.buf_out_cap d.native (d.buf_in.take d.cur_buf_in) rounds st2 ∧
      (rounds.map Round.consumed).sum = d.cur_buf_in ∧
      ∀ fuel, fuel0 ≤ fuel →
        ∃ d1, Decompress.update dec fuel d = .ok (true, d1) ∧
          d1.cur_buf_in = 0 ∧
          d1.calls = d.calls
            ++ rounds.map (fun x => Call.decompress d.buf_out_cap x.offered) ∧
          d1.wt.data = d.wt.data ++ (rounds.map Round.produced).flatten ∧
          d1.native = st2 ∧ d1.buf_in = d.buf_in := by
  obtain ⟨rounds, st2, fuel0, h1, h2, h3⟩ :=
    Decompress.updateLoop_rounds dec d.buf_out_cap todo hcodec d.cur_buf_in (todo d.native)
      d 0 rfl (Nat.le_refl _) rfl (by omega)
  rw [List.drop_zero] at h1
  refine ⟨rounds, st2, fuel0, h1, h2, ?_⟩
  intro fuel hfuel
  obtain ⟨d1, k⟩ := h3 fuel hfuel
  refine ⟨d1, ?_, k.2⟩
  unfold Decompress.update
  rw [if_neg (by omega)]
  exact k.1

/-- Helper: the stored decoder consumes at least one byte of whatever it is
offered, given room for output. -/
theorem Stored.progresses (cap : Nat) (hcap : 0 < cap) :
    Progresses Stored.dec cap (fun _ => 0) := by
  intro st r hr
  have hpos : 0 < r.length := List.length_pos.mpr hr
  by_cases h0 : st = 0
  · exact ⟨0, r.length, [], by simp [Stored.dec, h0], Nat.le_refl _, Or.inl hpos⟩
  · refine ⟨st - min (min r.length cap) st, min (min r.length cap) st,
      r.take (min (min r.length cap) st), by simp [Stored.dec, h0], ?_, Or.inl ?_⟩
    · omega
    · omega

/-- Witness for C16: the stored decoder on a context holding two pending
bytes. -/
theorem decompress_update_consumes_all_witness :
    ∃ (rounds : List Round) (st2 : Nat) (fuel0 : Nat),
      Rounds Stored.dec (twoPending Stored.dec).buf_out_cap (twoPending Stored.dec).native
        ((twoPending Stored.dec).buf_in.take (twoPending Stored.dec).cur_buf_in) rounds st2 ∧
      (rounds.map Round.consumed).sum = (twoPending Stored.dec).cur_buf_in ∧
      ∀ fuel, fuel0 ≤ fuel →
        ∃ d1, Decompress.update Stored.dec fuel (twoPending Stored.dec) = .ok (true, d1) ∧
          d1.cur_buf_in = 0 ∧
          d1.calls = (twoPending Stored.dec).calls
            ++ rounds.map
                (fun x => Call.decompress (twoPending Stored.dec).buf_out_cap x.offered) ∧
          d1.wt.data = (twoPending Stored.dec).wt.data
            ++ (rounds.map Round.produced).flatten ∧
          d1.native = st2 ∧ d1.buf_in = (twoPending Stored.dec).buf_in :=
  decompress_update_consumes_all Stored.dec (fun _ => 0) (twoPending Stored.dec)
    (by decide) (by decide) (Stored.progresses _ (by decide))

/-- Helper: the run of C16 on the stored decoder, evaluated: one round that
takes the two pending bytes 1, 2 and writes them to the sink. -/
theorem update_stored_example :
    (Decompress.update Stored.dec 2 (twoPending Stored.dec)).map
        (fun r => (r.1, r.2.cur_buf_in, r.2.wt.data, r.2.calls.drop 1))
      = .ok (true, 0, [1, 2], [.decompress (5 + MB) [1, 2]]) :=
  rfl

/-- Helper: on a begun compress context whose fill level is below a capacity
of at least 1, with a codec whose update does not fail, `commit` of `n` bytes
returns true given fuel above `n`, and the flushes it makes number
`(fill + n) / capacity`. -/
theorem Compress.commit_flushes {σ : Type} (codec : Compressor σ)
    (hupdate : ∀ c cap src, ∃ c1 out, codec.LZ4F_compressUpdate c cap src = (c1, .ok out))
    (d : prv (cnative σ)) (data : List Byte) (fuel : Nat)
    (hb : d.begun = true) (hlt : d.cur_buf_in < d.buf_in.length) (hf : data.length < fuel) :
    ∃ (d1 : prv (cnative σ)) (blocks : List (List Byte)),
      Compress.context_update codec fuel d (.ptr data) = .ok (true, d1) ∧
      updateInputs d1.calls = updateInputs d.calls ++ blocks ∧
      blocks.length = (d.cur_buf_in + data.length) / d.buf_in.length := by
  have hu := Compress.update_ok codec hupdate
  have hrun := commit_eq_pushAll (Compress.begin codec) (Compress.vupdate codec)
    (Compress.update codec) (fun _ _ => rfl) (Compress.update_cur codec)
    (fun x => (Compress.update_frame codec x).1) (fun x => (Compress.update_frame codec x).2.1)
    fuel data d hb hlt hf
  obtain ⟨blocks, h1, h2, h3, h4, h5, _, _⟩ := Compress.pushAll_blocks codec hu data d hlt
  refine ⟨_, blocks, ?_, h1, ?_⟩
  · unfold Compress.context_update
    rw [hrun]
    exact congrArg Except.ok (Prod.ext (pushAll_true _ hu _ _) rfl)
  · have hlen := congrArg List.length h3
    rw [List.length_append, List.length_append, flatten_length_blocks _ blocks h2,
      List.length_take, List.length_take] at hlen
    have e : d.cur_buf_in + data.length
        = (pushAll (Compress.update codec) data d).2.cur_buf_in
          + blocks.length * d.buf_in.length := by
      omega
    rw [e, Nat.add_mul_div_right _ _ (by omega), Nat.div_eq_of_lt h4]
    omega

/-! ### The uninitialised `pfs` member -/

/-- C9, at the failing input. A compress context for 3 bytes whose `pfs`
storage holds zeroes runs the lifecycle that commits `[1, 2, 3]`, is reset,
and runs it again: the second lifecycle starts with `begun` false and fill
level 0 and appends a frame whose header carries no dictionary id.  A fresh
context built with the same content size and preferences, whose `pfs` storage
holds 7 where `frameInfo.dictID` lies, writes for the same lifecycle a frame
whose header carries the dictionary id 7: the sink outputs differ. -/
theorem reset_cycle_differs_from_fresh :
    (reset firstTagged).begun = false ∧ (reset firstTagged).cur_buf_in = 0 ∧
    (cycle Tagged.enc 4 [[1, 2, 3]] (reset firstTagged)).map
        (fun r => (r.1, r.2.wt.data.drop firstTagged.wt.data.length))
      = .ok (true, [0, 3, 0, 0, 0, 0, 0, 0, 0, 1, 2, 3, 0, 0, 0, 0]) ∧
    (cycle Tagged.enc 4 [[1, 2, 3]] (compress_context raw7 3 emptySink prefs0)).map
        (fun r => (r.1, r.2.wt.data))
      = .ok (true, [1, 3, 0, 0, 0, 0, 0, 0, 0, 7, 0, 0, 0, 1, 2, 3, 0, 0, 0, 0]) :=
  ⟨rfl, rfl, rfl, rfl⟩

end lz4xx
